import Mathlib

/-!
Verification of the `pror` CDCL SAT solver against its specification.

The definitions below are a shallow embedding of the Rust sources:
`src/fixed_bitset.rs` (flat word-array bitset, `BitSet<Vec<[usize;1]>,1>`),
`src/bitset.rs` (the `BitSetT` trait with its default methods and the
`BTreeBitSet` implementation), `src/sat.rs` (literals, clauses, formula
ingest), `src/luby.rs` (Luby restart sequence) and `src/cdcl.rs` (the solver
state machine).  Machine integers (`usize` on the 64-bit targets the crate
builds for) are modelled as `Nat` with explicit `% 2^64` masking where wrap
matters; Rust panics (`assert!`, `unwrap`, `panic!`) are modelled by `Option`;
`f64` activity scores are modelled by exact fractions (the concrete
executions used in the theorems below never leave the range where `f64`
arithmetic is exact).
-/

namespace Pror

/-- Bits of a `usize` word (the crate is built for 64-bit targets). -/
abbrev wordBits : Nat := 64

/-- `2 ^ 64`, the modulus of `usize` arithmetic. -/
abbrev wordMod : Nat := 2 ^ 64

/-- Bitwise complement within one `usize` word (`!x` in Rust). -/
def wordNot (x : Nat) : Nat := (wordMod - 1) ^^^ x

/-- `usize::MAX`. -/
abbrev wordMax : Nat := wordMod - 1

/-- Number of trailing zero bits (`usize::trailing_zeros`) of a nonzero
64-bit word: the least set bit position (the source never queries 0). -/
def lsb (w : Nat) : Nat :=
  ((List.range wordBits).filter fun i => w.testBit i).headD 0

/-- `usize::count_ones` of a 64-bit word. -/
def popCount (w : Nat) : Nat :=
  ((List.range wordBits).filter fun i => w.testBit i).length

/-- The flat word-array bitset `fixed_bitset::BitSet<Vec<[usize;1]>, 1>`
(`DefaultBitSet`): a growable vector of 64-bit words.  With `N = 1` every
block is a single word, so `BITS_PER_BLOCK = 64`. -/
structure BitSet where
  words : List Nat
deriving DecidableEq, Repr

namespace BitSet

/-- `BitSet::new(0)` / `BitSetT::create`. -/
def create : BitSet := ⟨[]⟩

/-- `block_count` (number of words, since `N = 1`). -/
def blockCount (s : BitSet) : Nat := s.words.length

/-- `capacity`: total bits currently supported. -/
def capacity (s : BitSet) : Nat := s.words.length * wordBits

/-- Read word `i` (in-range reads only ever happen in the source; reading a
zero for an out-of-range index keeps the model total). -/
def getWord (s : BitSet) (i : Nat) : Nat := s.words.getD i 0

/-- Replace word `i`. -/
def setWord (s : BitSet) (i : Nat) (w : Nat) : BitSet :=
  ⟨s.words.set i w⟩

/-- `grow`: ensure capacity for at least `bits` bits; never shrinks.
Resizing appends zero blocks. -/
def grow (s : BitSet) (bits : Nat) : BitSet :=
  let needed := (bits + wordBits - 1) / wordBits
  if needed > s.words.length then
    ⟨s.words ++ List.replicate (needed - s.words.length) 0⟩
  else s

/-- `set`: set a bit to 1, growing if needed. -/
def set (s : BitSet) (bit : Nat) : BitSet :=
  let s := s.grow (bit + 1)
  s.setWord (bit / wordBits)
    (s.getWord (bit / wordBits) ||| (1 <<< (bit % wordBits)))

/-- `clear`: clear a bit to 0 (no grow; no-op beyond capacity). -/
def clear (s : BitSet) (bit : Nat) : BitSet :=
  if bit ≥ s.capacity then s
  else
    s.setWord (bit / wordBits)
      (s.getWord (bit / wordBits) &&& wordNot (1 <<< (bit % wordBits)))

/-- `clear_all`. -/
def clearAll (s : BitSet) : BitSet :=
  ⟨s.words.map fun _ => 0⟩

/-- `contains`: test a bit (false beyond capacity). -/
def contains (s : BitSet) (bit : Nat) : Bool :=
  if bit ≥ s.capacity then false
  else (s.getWord (bit / wordBits)).testBit (bit % wordBits)

/-- The `position()` search over a word list, reporting absolute block
indices from `idx`. -/
def scanBlocksAux (p : Nat → Bool) : List Nat → Nat → Option Nat
  | [], _ => none
  | w :: ws, idx => if p w then some idx else scanBlocksAux p ws (idx + 1)

/-- Scan for the first block index ≥ `start` whose word satisfies `p`
(the `position()` search of the generic `BlockStorage` runs over
`words[start..]`). -/
def scanBlocks (s : BitSet) (p : Nat → Bool) (start : Nat) : Option Nat :=
  scanBlocksAux p (s.words.drop start) start

/-- `first_set_block_ge`: index of the first block ≥ `start` with any set
bit. -/
def firstSetBlockGe (s : BitSet) (start : Nat) : Option Nat :=
  s.scanBlocks (fun w => w ≠ 0) start

/-- `first_unset_block_ge`: index of the first block ≥ `start` with any unset
bit. -/
def firstUnsetBlockGe (s : BitSet) (start : Nat) : Option Nat :=
  s.scanBlocks (fun w => w ≠ wordMax) start

/-- `!0usize << offset` (wrapping 64-bit shift), the mask selecting the bits
at positions ≥ `offset` of a word. -/
def maskGe (offset : Nat) : Nat := ((wordMod - 1) <<< offset) % wordMod

/-- `first_set_ge` for `N = 1`: scan the first block from `bit`'s offset, then
jump to the next non-zero block. -/
def firstSetGe (s : BitSet) (bit : Nat) : Option Nat :=
  let b := bit / wordBits
  if b ≥ s.blockCount then none
  else
    let mask := s.getWord b &&& maskGe (bit % wordBits)
    if mask ≠ 0 then some (b * wordBits + lsb mask)
    else
      match s.firstSetBlockGe (b + 1) with
      | none => none
      | some b2 => some (b2 * wordBits + lsb (s.getWord b2))

/-- `first_set`. -/
def firstSet (s : BitSet) : Option Nat := s.firstSetGe 0

/-- `first_unset_ge` for `N = 1`. -/
def firstUnsetGe (s : BitSet) (bit : Nat) : Option Nat :=
  let b := bit / wordBits
  if b ≥ s.blockCount then none
  else
    let inv := wordNot (s.getWord b) &&& maskGe (bit % wordBits)
    if inv ≠ 0 then some (b * wordBits + lsb inv)
    else
      match s.firstUnsetBlockGe (b + 1) with
      | none => none
      | some b2 => some (b2 * wordBits + lsb (wordNot (s.getWord b2)))

/-- `first_unset`. -/
def firstUnset (s : BitSet) : Option Nat := s.firstUnsetGe 0

/-- Modelled from the spec: `pop_first_set` is part of the bitset interface
the solver consumes but its body is not among the sources under `src/`;
§4.1 of the spec states it "removes and returns `first_set`, or none". -/
def popFirstSet (s : BitSet) : Option Nat × BitSet :=
  match s.firstSet with
  | none => (none, s)
  | some i => (some i, s.clear i)

/-- `union_with`: grow to `other.capacity()`, then word-wise or over the
common blocks. -/
def unionWith (s other : BitSet) : BitSet :=
  let s := s.grow other.capacity
  ⟨(List.range s.words.length).map fun b =>
    if b < min s.words.length other.words.length then
      s.getWord b ||| other.getWord b
    else s.getWord b⟩

/-- `intersect_with`: word-wise and over the common blocks, zero beyond. -/
def intersectWith (s other : BitSet) : BitSet :=
  ⟨(List.range s.words.length).map fun b =>
    if b < min s.words.length other.words.length then
      s.getWord b &&& other.getWord b
    else 0⟩

/-- `difference_with`: word-wise and-not over the common blocks (no grow). -/
def differenceWith (s other : BitSet) : BitSet :=
  ⟨(List.range s.words.length).map fun b =>
    if b < min s.words.length other.words.length then
      s.getWord b &&& wordNot (other.getWord b)
    else s.getWord b⟩

/-- Ascending list of the one-bit positions of a word
(`usize_iter_ones`). -/
def wordOnes (w : Nat) : List Nat :=
  (List.range wordBits).filter fun i => w.testBit i

/-- Bits of a list of words, ascending, with block offsets starting at
`base` (`iter_bit_indices` over consecutive blocks). -/
def wordsBits (base : Nat) : List Nat → List Nat
  | [] => []
  | w :: ws => (wordOnes w).map (base * wordBits + ·) ++ wordsBits (base + 1) ws

/-- `iter_intersection` as a list: word-wise and over the common blocks. -/
def iterIntersection (s other : BitSet) : List Nat :=
  wordsBits 0
    ((List.range (min s.blockCount other.blockCount)).map fun b =>
      s.getWord b &&& other.getWord b)

/-- `iter_difference` as a list: and-not over the common blocks, then the
remaining blocks of `s`. -/
def iterDifference (s other : BitSet) : List Nat :=
  let mn := min s.blockCount other.blockCount
  wordsBits 0
    ((List.range mn).map fun b => s.getWord b &&& wordNot (other.getWord b))
  ++ wordsBits mn (s.words.drop mn)

/-- The first-block mask of `iter_intersection_ge`: with `N = 1` the word
index inside the block is always 0, and `num_to_zero = ge % 64 < 64`. -/
def cutMask (numToZero : Nat) : Nat :=
  if numToZero = wordBits then 0
  else if numToZero = wordBits - 1 then 1 <<< numToZero
  else wordNot ((1 <<< numToZero) - 1)

/-- `iter_intersection_ge` as a list: the (masked) first block chained with
the untouched later blocks, all limited to the common block range. -/
def iterIntersectionGe (s other : BitSet) (ge : Nat) : List Nat :=
  let mn := min s.blockCount other.blockCount
  let fb := ge / wordBits
  (if fb < mn then
    wordsBits fb [s.getWord fb &&& other.getWord fb &&& cutMask (ge % wordBits)]
  else [])
  ++ wordsBits (fb + 1)
      (((List.range mn).drop (fb + 1)).map fun b => s.getWord b &&& other.getWord b)

/-- `BitSetT::intersect_first_set_ge` as overridden for the flat bitset:
first element of `iter_intersection_ge`. -/
def intersectFirstSetGe (s other : BitSet) (ge : Nat) : Option Nat :=
  (s.iterIntersectionGe other ge).head?

/-- `BitSetT::intersect_first_set` as overridden for the flat bitset:
first element of `iter_intersection`. -/
def intersectFirstSet (s other : BitSet) : Option Nat :=
  (s.iterIntersection other).head?

/-- `count`: total popcount. -/
def count (s : BitSet) : Nat :=
  (s.words.map popCount).sum

/-- `is_empty` (trait default: `first_set().is_none()`). -/
def isEmpty (s : BitSet) : Bool := s.firstSet.isNone

/-- The `BitSetT::iter` default method: repeated `first_set_ge`, producing an
ascending list.  `fuel` bounds the recursion; any fuel ≥ the number of set
bits + 1 produces the full list. -/
def iterAux (s : BitSet) : Nat → Nat → List Nat
  | 0, _ => []
  | fuel + 1, after =>
    match s.firstSetGe after with
    | none => []
    | some r => r :: iterAux s fuel (r + 1)

/-- `iter` as a list; `capacity + 1` fuel suffices since each step advances
the lower bound. -/
def toList (s : BitSet) : List Nat :=
  s.iterAux (s.capacity + 1) 0

end BitSet

/-! ## The tree-based bitset (`bitset.rs::BTreeBitSet`)

`BTreeBitSet` wraps a `std::collections::BTreeSet<usize>`; we model the tree
by the list of its elements.  Only the operations the verified claims touch
are embedded.  `set.range(bit..).next()` returns the least element ≥ `bit`,
independently of the tree shape, so the model ignores element order. -/

structure BTreeBitSet where
  elems : List Nat
deriving DecidableEq, Repr

namespace BTreeBitSet

/-- `create`. -/
def create : BTreeBitSet := ⟨[]⟩

/-- `set` (BTreeSet insert). -/
def set (s : BTreeBitSet) (bit : Nat) : BTreeBitSet := ⟨bit :: s.elems⟩

/-- `contains`. -/
def contains (s : BTreeBitSet) (bit : Nat) : Bool := s.elems.contains bit

/-- `first_set_ge`: `set.range(bit..).next()`, the least element ≥ `bit`. -/
def firstSetGe (s : BTreeBitSet) (bit : Nat) : Option Nat :=
  (s.elems.filter fun x => bit ≤ x).min?

end BTreeBitSet

/-- The recursion of the `BitSetT` trait's default `intersect_first_set_ge`:
advance a lower bound through alternating `first_set_ge` probes until both
sides agree.  The fuel is spent only when the bound strictly increases, and
the bound never exceeds the largest element, so the fuel chosen below always
reproduces the source recursion. -/
def btIfsgAux (s t : BTreeBitSet) : Nat → Nat → Option Nat
  | 0, _ => none
  | fuel + 1, ge =>
    match s.firstSetGe ge, t.firstSetGe ge with
    | some a, some b =>
      if a = b then some a
      else if a < b then btIfsgAux s t fuel b
      else btIfsgAux s t fuel a
    | some _, none => none
    | none, some _ => none
    | none, none => none

/-- The `BitSetT` trait's default `intersect_first_set_ge` (the
implementation `BTreeBitSet` inherits). -/
def btIntersectFirstSetGe (s t : BTreeBitSet) (ge : Nat) : Option Nat :=
  btIfsgAux s t (s.elems.foldr max 0 + t.elems.foldr max 0 + 2) ge

/-- The trait's default `intersect_first_set`. -/
def btIntersectFirstSet (s t : BTreeBitSet) : Option Nat :=
  btIntersectFirstSetGe s t 0

/-! ## Literals, clauses and formulas (`sat.rs`) -/

/-- A literal: a nonzero signed integer; sign = polarity, magnitude =
variable. -/
structure Literal where
  value : Int
deriving DecidableEq, Repr

namespace Literal

/-- `Literal::new(var, value)`. -/
def new (var : Nat) (value : Bool) : Literal :=
  ⟨if value then (var : Int) else -(var : Int)⟩

/-- `variable()`: the magnitude. -/
def var (l : Literal) : Nat := l.value.natAbs

/-- `value()`: the polarity (`value > 0`). -/
def pol (l : Literal) : Bool := 0 < l.value

/-- `negate()`. -/
def negate (l : Literal) : Literal := ⟨-l.value⟩

/-- Modelled from the spec: the (derived) total order on literals used as the
tie-break in the by-score ordered set; the `Ord` instance for `Literal` is not
among the sources under `src/`, and ordering a one-field struct by its signed
`value` is the canonical derived order. -/
def le (a b : Literal) : Bool := a.value ≤ b.value

end Literal

/-- Exact rational scores standing in for the solver's `f64` activities
(every operation the verified executions perform — integer seeds, additions,
divisions by the decay and rescale constants, order comparisons — is exact in
`f64` well inside its 2^53 range, and these fractions compute the same
values).  The fraction is unnormalized so that kernel reduction never leaves
simple integer arithmetic; comparisons are numeric (cross-multiplied), as
`f64`/`OrderedFloat` comparisons are. -/
structure Score where
  num : Int
  den : Nat
deriving DecidableEq, Repr

namespace Score

/-- Embed an integer count. -/
def ofNat (n : Nat) : Score := ⟨n, 1⟩

def add (a b : Score) : Score := ⟨a.num * b.den + b.num * a.den, a.den * b.den⟩

/-- Division; the solver only ever divides by positive constants. -/
def div (a b : Score) : Score :=
  if 0 ≤ b.num then ⟨a.num * b.den, a.den * b.num.toNat⟩
  else ⟨-(a.num * b.den), a.den * (-b.num).toNat⟩

/-- Numeric equality. -/
def beq (a b : Score) : Bool := a.num * b.den == b.num * a.den

/-- Numeric strict order. -/
def blt (a b : Score) : Bool := a.num * b.den < b.num * a.den

end Score

/-- A clause: two bitsets over the variable domain, which variables appear
(`vars` models the source field `variables`, a reserved word in Lean) and
which appear negatively, plus the derived attributes `from_conflict`,
`score` and `num_units` (spec §3; the fields are read by `cdcl.rs` but the
struct under `src/sat.rs` predates them). -/
structure Clause where
  vars : BitSet
  negatives : BitSet
  fromConflict : Bool := false
  score : Score := ⟨0, 1⟩
  numUnits : Nat := 0
deriving DecidableEq, Repr

namespace Clause

/-- `iter_literals`: ascending variables, polarity positive unless the
variable is in `negatives`. -/
def iterLiterals (c : Clause) : List Literal :=
  c.vars.toList.map fun v => Literal.new v (! c.negatives.contains v)

/-- `can_resolve`. -/
def canResolve (c other : Clause) (onVar : Nat) : Bool :=
  c.vars.contains onVar && other.negatives.contains onVar
    && ! (c.negatives.contains onVar != other.negatives.contains onVar)

/-- `resolve_exn`: union both bitsets, then erase the pivot variable;
panics (`none`) if `can_resolve` fails. -/
def resolve (c other : Clause) (onVar : Nat) : Option Clause :=
  if c.canResolve other onVar then
    some { c with
      vars := ((c.vars.unionWith other.vars).clear onVar)
      negatives := ((c.negatives.unionWith other.negatives).clear onVar) }
  else none

/-- Modelled from the spec: `Clause::copy` (used by conflict analysis to
seed the learned clause) is not among the sources under `src/`; it duplicates
the two bitsets through the scratch pool.  A fresh copy justifies no trail
entries, so `num_units` starts at 0 (spec §3). -/
def copy (c : Clause) : Clause :=
  { vars := c.vars, negatives := c.negatives,
    fromConflict := c.fromConflict, score := c.score, numUnits := 0 }

end Clause

/-- `Formula` after ingest (`literal_counts` is destructured away by the
solver and not modelled). -/
structure Formula where
  maxVar : Nat
  vars : List Nat
  clauses : List Clause
deriving Repr

/-- `Formula::new`: fold the integer clause lists into bitset clauses.
Returns `none` on a zero literal (the source panics).  The bitset pool
passed in is empty at ingest, so every acquired bitset is fresh. -/
def Formula.new (formula : List (List Int)) : Option Formula := do
  let mut maxVar := 0
  let mut vars : List Nat := []
  let mut clauses : List Clause := []
  for clause in formula do
    let mut cvars := BitSet.create
    let mut cnegs := BitSet.create
    for lit in clause do
      if lit = 0 then
        failure
      let v := lit.natAbs
      cvars := cvars.set v
      if lit < 0 then
        cnegs := cnegs.set v
      maxVar := max maxVar v
      if ! vars.contains v then
        vars := vars ++ [v]
    clauses := clauses ++ [{ vars := cvars, negatives := cnegs }]
  pure { maxVar, vars, clauses }

/-! ## The Luby restart sequence (`luby.rs`) -/

/-- The inner `while (1 << k) - 1 < n { k += 1 }` loop of `luby_term`,
started at `k`; the fuel is enough for every call the solver makes. -/
def lubyK (n : Nat) : Nat → Nat → Nat
  | 0, k => k
  | fuel + 1, k => if (1 <<< k) - 1 < n then lubyK n fuel (k + 1) else k

/-- `luby_term(n)`, with recursion fuel.  On every call the solver makes,
`n ≥ 1` and the recursive argument `n - prev_block` strictly decreases, so
`fuel = n` reproduces the source exactly (the source recursion would diverge
at `n = 0`, which it is never given). -/
def lubyTermAux : Nat → Nat → Nat
  | 0, _ => 0
  | fuel + 1, n =>
    let k := lubyK n n 1
    if n = (1 <<< k) - 1 then 1 <<< (k - 1)
    else lubyTermAux fuel (n - ((1 <<< (k - 1)) - 1))

/-- `luby_term(n)`: the 1-based Luby sequence 1,1,2,1,1,2,4,… -/
def lubyTerm (n : Nat) : Nat := lubyTermAux n n

/-- The `Luby` iterator state: unit run `u` and term counter `i`. -/
structure Luby where
  u : Nat
  i : Nat
deriving DecidableEq, Repr

/-- `Luby::new(unit_run)`. -/
def Luby.new (unitRun : Nat) : Luby := ⟨unitRun, 1⟩

/-- `Luby::value()`. -/
def Luby.value (l : Luby) : Nat := l.u * lubyTerm l.i

/-! ## The solver state (`cdcl.rs`, instantiated at `VsidsConfig`)

The embedding below mirrors `State<VsidsConfig>` (`pror::cdcl::Default`):
`DEBUG = false`, `CHECK_RESULTS = false`, decisions from the by-score set.
The unused RNG and the debug writer are omitted.  Operations that can panic
in Rust (`assert!`, `unwrap`, integer underflow, exhausted recursion fuel)
return `none`; plain out-of-range container reads, which the program never
performs on the paths verified here, read a default value.  `f64` scores are
modelled by the exact `Score` fractions above. -/

/-- `TombStone<T>`: a live slot or a tombstone threading the free list. -/
inductive TombStone (α : Type) where
  | live (gen : Nat) (t : α)
  | tomb (gen : Nat) (nextFree : Option Nat)
deriving DecidableEq, Repr

namespace TombStone

def generation {α} : TombStone α → Nat
  | live g _ => g
  | tomb g _ => g

def value {α} : TombStone α → Option α
  | live _ t => some t
  | tomb _ _ => none

def tombstoneIdx {α} : TombStone α → Option (Option Nat)
  | live _ _ => none
  | tomb _ i => some i

end TombStone

/-- `TfPair<T>`, indexed by `bool` (`true` selects `first`). -/
structure TfPair (α : Type) where
  first : α
  second : α
deriving DecidableEq, Repr

namespace TfPair

def get {α} (p : TfPair α) : Bool → α
  | true => p.first
  | false => p.second

def put {α} (p : TfPair α) : Bool → α → TfPair α
  | true, x => { p with first := x }
  | false, x => { p with second := x }

end TfPair

/-- A `BTreeMap<ClauseIdx, Generation>`, kept as an ascending association
list. -/
abbrev WatchMap : Type := List (Nat × Nat)

namespace WatchMap

def empty : WatchMap := []

def get (m : WatchMap) (k : Nat) : Option Nat :=
  (List.find? (fun p => p.1 == k) m).map (·.2)

def containsKey (m : WatchMap) (k : Nat) : Bool :=
  (get m k).isSome

/-- Insert, keeping keys ascending (BTreeMap insert overwrites). -/
def insert (m : WatchMap) (k v : Nat) : WatchMap :=
  match m with
  | [] => [(k, v)]
  | (k', v') :: rest =>
    if k < k' then (k, v) :: (k', v') :: rest
    else if k = k' then (k, v) :: rest
    else (k', v') :: insert rest k v

/-- `remove`, returning the removed value. -/
def removeGet (m : WatchMap) (k : Nat) : Option Nat × WatchMap :=
  match m with
  | [] => (none, [])
  | (k', v') :: rest =>
    if k = k' then (some v', rest)
    else
      let (r, rest') := removeGet rest k
      (r, (k', v') :: rest')

/-- `range(k..).next()`: first entry with key ≥ `k`. -/
def nextGe (m : WatchMap) (k : Nat) : Option (Nat × Nat) :=
  List.find? (fun p => k ≤ p.1) m

end WatchMap

/-- Strict lexicographic order on `(score, literal)` pairs
(`OrderedFloat<f64>` then the literal's signed value). -/
def scoreLt (a b : Score × Literal) : Bool :=
  a.1.blt b.1 || (a.1.beq b.1 && a.2.value < b.2.value)

/-- The `BTreeSet<(OrderedFloat<f64>, Literal)>` of unassigned literals,
kept as an ascending list. -/
abbrev ScoreSet : Type := List (Score × Literal)

namespace ScoreSet

def empty : ScoreSet := []

/-- Numeric equality of set elements (`OrderedFloat` equality, then the
literal). -/
def elemEq (x y : Score × Literal) : Bool :=
  x.1.beq y.1 && x.2 == y.2

def insert (s : ScoreSet) (x : Score × Literal) : ScoreSet :=
  match s with
  | [] => [x]
  | y :: rest =>
    if scoreLt x y then x :: y :: rest
    else if elemEq x y then y :: rest
    else y :: insert rest x

/-- `remove`, returning whether the element was present. -/
def removeGet (s : ScoreSet) (x : Score × Literal) : Bool × ScoreSet :=
  match s with
  | [] => (false, [])
  | y :: rest =>
    if elemEq x y then (true, rest)
    else
      let (r, rest') := removeGet rest x
      (r, y :: rest')

/-- `last()`: the maximum element. -/
def last (s : ScoreSet) : Option (Score × Literal) := s.getLast?

end ScoreSet

/-- `Reason`. -/
inductive Reason where
  | decision (l : Literal)
  | clauseIdx (i : Nat)
deriving DecidableEq, Repr

/-- `TrailEntry`. -/
structure TrailEntry where
  literal : Literal
  decisionLevel : Nat
  reason : Reason
deriving DecidableEq, Repr

/-- `SatResult` (`Sat` carries the `BTreeMap<usize, bool>` as an ascending
association list). -/
inductive SatResult where
  | sat (assignment : List (Nat × Bool))
  | unsat
deriving DecidableEq, Repr

/-- `StepResult`. -/
inductive StepResult where
  | done (r : SatResult)
  | continue
deriving DecidableEq, Repr

/-- `UnitPropagationResult`. -/
inductive UnitPropagationResult where
  | finishedUnitPropagation
  | contradiction (i : Nat)
  | nothingToPropagate
deriving DecidableEq, Repr

/-- `Action`. -/
inductive Action where
  | unsat
  | finishedUnitPropagation
  | cont (l : Literal)
  | contradiction (i : Nat)
deriving DecidableEq, Repr

/-- `State<VsidsConfig>`. -/
structure State where
  luby : Luby
  conflicts : Nat
  claInc : Score
  claDecayFactor : Score
  claActivityRescale : Score
  vsidsInc : Score
  vsidsDecayFactor : Score
  vsidsActivityRescale : Score
  scoreForLiteral : List (TfPair Score)
  literalByScore : ScoreSet
  simplifyClausesEvery : Nat
  allVariables : BitSet
  assignments : BitSet
  clausesFirstTombstone : Option Nat
  clauses : List (TombStone Clause)
  watchedClauses : List (TfPair WatchMap)
  readyForUnitProp : BitSet
  trail : List TrailEntry
  unassignedVariables : BitSet
  numInitialClauses : Nat
  clausesByVar : List (TfPair BitSet)
  trailEntryIdxByVar : List (Option Nat)
  decisionLevel : Nat
  bitsetPool : List BitSet
  iterations : Nat
  instantlyUnsat : Bool
deriving DecidableEq, Repr

namespace State

/-- `watched_clauses(literal)`. -/
def watched (st : State) (l : Literal) : WatchMap :=
  (st.watchedClauses.getD l.var ⟨WatchMap.empty, WatchMap.empty⟩).get l.pol

/-- Write back the watcher map of one literal. -/
def setWatched (st : State) (l : Literal) (m : WatchMap) : State :=
  let pair := (st.watchedClauses.getD l.var ⟨WatchMap.empty, WatchMap.empty⟩).put l.pol m
  { st with watchedClauses := st.watchedClauses.set l.var pair }

/-- `push_clause`. -/
def pushClause (st : State) (c : Clause) : Option (Nat × State) :=
  match st.clausesFirstTombstone with
  | none =>
    some (st.clauses.length, { st with clauses := st.clauses ++ [.live 0 c] })
  | some idx => do
    let slot := st.clauses.getD idx (.tomb 0 none)
    let gen := slot.generation
    let nextFree ← slot.tombstoneIdx
    pure (idx, { st with
      clausesFirstTombstone := nextFree
      clauses := st.clauses.set idx (.live (gen + 1) c) })

/-- The clause-variable clearing loop of `delete_clause`: walk the set
variables upward from `next_variable + 1`. -/
def deleteClauseLoop (fuel : Nat) (st : State) (idx : Nat) (nextVariable : Nat) :
    Option State :=
  match fuel with
  | 0 => none
  | fuel + 1 => do
    let clause ← (st.clauses.getD idx (.tomb 0 none)).value
    match clause.vars.firstSetGe (nextVariable + 1) with
    | none => pure st
    | some v =>
      let pair := st.clausesByVar.getD v ⟨BitSet.create, BitSet.create⟩
      let pol := ! clause.negatives.contains v
      let st := { st with clausesByVar :=
        st.clausesByVar.set v (pair.put pol ((pair.get pol).clear idx)) }
      deleteClauseLoop fuel st idx v

/-- `delete_clause`: unlink from `clauses_by_var`, release the bitsets to the
pool, tombstone the slot with an incremented generation. -/
def deleteClause (st : State) (idx : Nat) : Option State := do
  let clause ← (st.clauses.getD idx (.tomb 0 none)).value
  let st ← deleteClauseLoop (clause.vars.capacity + 2) st idx 0
  let clause ← (st.clauses.getD idx (.tomb 0 none)).value
  let st := { st with bitsetPool := st.bitsetPool ++ [clause.vars, clause.negatives] }
  pure { st with
    clauses := st.clauses.set idx
      (.tomb ((st.clauses.getD idx (.tomb 0 none)).generation + 1)
        st.clausesFirstTombstone)
    clausesFirstTombstone := some idx }

/-- `assignments()`: the map from each formula variable to its current
assignment bit (BTreeMap iteration is ascending). -/
def assignmentsMap (st : State) : List (Nat × Bool) :=
  st.allVariables.toList.map fun v => (v, st.assignments.contains v)

/-- `try_get_unit_literal`: the clause is unit iff exactly one of its
variables is unassigned; the unit literal is that variable's literal. -/
def tryGetUnitLiteral (st : State) (c : Clause) : Option Literal :=
  match st.unassignedVariables.intersectFirstSet c.vars with
  | none => none
  | some v =>
    match st.unassignedVariables.intersectFirstSetGe c.vars (v + 1) with
    | some _ => none
    | none => some (Literal.new v (! c.negatives.contains v))

/-- Read `score_for_literal[var][pol]`. -/
def score (st : State) (l : Literal) : Score :=
  (st.scoreForLiteral.getD l.var ⟨⟨0, 1⟩, ⟨0, 1⟩⟩).get l.pol

/-- `undo_entry`: restore the score pairs, unassign the variable, decrement
the reason clause's `num_units`. -/
def undoEntry (st : State) (e : TrailEntry) : Option State := do
  let l := e.literal
  let lbs := (st.literalByScore.insert (st.score l, l)).insert (st.score l.negate, l.negate)
  let st := { st with literalByScore := lbs }
  let st := { st with
    trailEntryIdxByVar := st.trailEntryIdxByVar.set l.var none
    unassignedVariables := st.unassignedVariables.set l.var }
  match e.reason with
  | .decision _ => pure st
  | .clauseIdx ci => do
    let clause ← (st.clauses.getD ci (.tomb 0 none)).value
    if clause.numUnits = 0 then none
    else
      let gen := (st.clauses.getD ci (.tomb 0 none)).generation
      pure { st with clauses :=
        st.clauses.set ci (.live gen { clause with numUnits := clause.numUnits - 1 }) }

/-- Overwrite a live clause slot, keeping its generation. -/
def setClause (st : State) (idx : Nat) (c : Clause) : State :=
  { st with clauses :=
      st.clauses.set idx (.live (st.clauses.getD idx (.tomb 0 none)).generation c) }

/-- `is_satisfied`: some literal is assigned its polarity. -/
def isSatisfied (st : State) (c : Clause) : Bool :=
  c.iterLiterals.any fun l =>
    ! st.unassignedVariables.contains l.var
      && st.assignments.contains l.var == l.pol

/-- `remove_watched_clause_due_to_generation_mismatch`. -/
def removeWatchedGenMismatch (st : State) (l : Literal) (idx : Nat) :
    Option (Bool × State) := do
  let expected ← (st.watched l).get idx
  if (st.clauses.getD idx (.tomb 0 none)).generation = expected then
    pure (false, st)
  else
    pure (true, st.setWatched l ((st.watched l).removeGet idx).2)

/-- The body of the `update_watched_clauses` loop: `next` is the lookahead
entry computed from the current map before the body runs; the result pairs
the new state with the conflicting clause index, if any.  The fuel is at
least the watcher-map size, which bounds the iteration count because keys
only leave the iterated map and the cursor is strictly increasing. -/
def uwcLoop (st : State) (literal : Literal) :
    Nat → Option (Nat × Nat) → Option (State × Option Nat)
  | _, none => some (st, none)
  | 0, some _ => none
  | fuel + 1, some (clauseIdx, _gen) => do
    let next := (st.watched literal).nextGe (clauseIdx + 1)
    let (removed, st) ← st.removeWatchedGenMismatch literal clauseIdx
    if removed then uwcLoop st literal fuel next
    else do
      let clause ← (st.clauses.getD clauseIdx (.tomb 0 none)).value
      if st.isSatisfied clause then uwcLoop st literal fuel next
      else
        let replace := clause.iterLiterals.find? fun lit =>
          ! ((st.watched lit).containsKey clauseIdx)
            && st.unassignedVariables.contains lit.var
        match replace with
        | none =>
          match st.tryGetUnitLiteral clause with
          | none => some (st, some clauseIdx)
          | some _unitLiteral =>
            let st := { st with readyForUnitProp := st.readyForUnitProp.set clauseIdx }
            uwcLoop st literal fuel next
        | some toReplace => do
          let (genOpt, m) := (st.watched literal).removeGet clauseIdx
          let gen ← genOpt
          let st := st.setWatched literal m
          let st := st.setWatched toReplace
            ((st.watched toReplace).insert clauseIdx gen)
          uwcLoop st literal fuel next

/-- `update_watched_clauses(set_literal)`: walk the watchers of the falsified
literal; returns the conflicting clause index if a clause ran out of
non-false literals. -/
def updateWatchedClauses (st : State) (setLiteral : Literal) :
    Option (State × Option Nat) :=
  let literal := setLiteral.negate
  uwcLoop st literal ((st.watched literal).length + 1) ((st.watched literal).nextGe 0)

/-- `add_to_trail`: record the assignment, maintain the score set and the
inverse indices, then update the watch index.  Panics (`none`) if the
variable already has a trail entry. -/
def addToTrail (st : State) (e : TrailEntry) : Option (State × Option Nat) := do
  let l := e.literal
  let v := l.var
  let st :=
    if l.pol then { st with assignments := st.assignments.set v }
    else { st with assignments := st.assignments.clear v }
  if (st.trailEntryIdxByVar.getD v none).isSome then none
  else do
    let st ← match e.reason with
      | .decision _ => pure st
      | .clauseIdx ci => do
        let clause ← (st.clauses.getD ci (.tomb 0 none)).value
        pure (st.setClause ci { clause with numUnits := clause.numUnits + 1 })
    let (_r1, lbs) := st.literalByScore.removeGet (st.score l, l)
    let (_r2, lbs) := lbs.removeGet (st.score l.negate, l.negate)
    let st := { st with literalByScore := lbs }
    let st := { st with
      trailEntryIdxByVar := st.trailEntryIdxByVar.set v (some st.trail.length) }
    let st := { st with
      unassignedVariables := st.unassignedVariables.clear v
      trail := st.trail ++ [e] }
    st.updateWatchedClauses l

/-- `with_unit_clause`. -/
def withUnitClause (st : State) (literal : Literal) (clauseIdx : Nat) :
    Option (State × Option Nat) :=
  st.addToTrail ⟨literal, st.decisionLevel, .clauseIdx clauseIdx⟩

/-- The drain loop of `unit_propagate`, counting successful propagations. -/
def upLoop : Nat → State → Nat → Option (UnitPropagationResult × State)
  | 0, _, _ => none
  | fuel + 1, st, numProps =>
    match st.readyForUnitProp.popFirstSet with
    | (none, _) =>
      if numProps = 0 then some (.nothingToPropagate, st)
      else some (.finishedUnitPropagation, st)
    | (some clauseIdx, ready) =>
      let st := { st with readyForUnitProp := ready }
      match ((st.clauses.getD clauseIdx (.tomb 0 none)).value).bind
          st.tryGetUnitLiteral with
      | none => upLoop fuel st numProps
      | some literal => do
        let (st, conflict) ← st.withUnitClause literal clauseIdx
        match conflict with
        | some ci => some (.contradiction ci, st)
        | none => upLoop fuel st (numProps + 1)

/-- `unit_propagate`.  Each loop iteration either drops a ready bit without
propagating or assigns a variable, so the fuel below always suffices. -/
def unitPropagate (st : State) : Option (UnitPropagationResult × State) :=
  upLoop (st.readyForUnitProp.count
    + (st.unassignedVariables.count + 1) * (st.clauses.length + 1) + 1) st 0

/-- The decision level of a variable's trail entry: outer `none` models an
out-of-range trail read (a panic), inner `none` an unassigned variable. -/
def levelOfVar (st : State) (v : Nat) : Option (Option Nat) :=
  match st.trailEntryIdxByVar.getD v none with
  | none => some none
  | some idx => (st.trail.get? idx).map fun e => some e.decisionLevel

/-- The `(max1, max2)` fold of `second_highest_decision_level`. -/
def shdlFold : List (Option Nat) → Nat → Nat → Nat
  | [], _max1, max2 => max2
  | none :: rest, m1, m2 => shdlFold rest m1 m2
  | some lvl :: rest, m1, m2 =>
    if lvl > m1 then shdlFold rest lvl m1
    else if lvl > m2 && lvl < m1 then shdlFold rest m1 lvl
    else shdlFold rest m1 m2

/-- `second_highest_decision_level`. -/
def secondHighestDecisionLevel (st : State) (c : Clause) : Option Nat := do
  let levels ← c.iterLiterals.mapM fun l => st.levelOfVar l.var
  pure (shdlFold levels 0 0)

/-- `rescale_clause_activities`. -/
def rescaleClauseActivities (st : State) : State :=
  { st with
    clauses := st.clauses.map fun slot =>
      match slot with
      | .live g c => .live g { c with score := c.score.div st.claActivityRescale }
      | t => t
    claInc := st.claInc.div st.claActivityRescale }

/-- `add_clause_activity`: bump, and report whether a rescale is due. -/
def addClauseActivity (st : State) (idx : Nat) : Option (State × Bool) := do
  let c ← (st.clauses.getD idx (.tomb 0 none)).value
  let c := { c with score := c.score.add st.claInc }
  pure (st.setClause idx c, st.claActivityRescale.blt c.score)

/-- `decay_clause_activities`. -/
def decayClauseActivities (st : State) : State :=
  { st with claInc := st.claInc.div st.claDecayFactor }

/-- One literal of the `rescale_vsids` sweep. -/
def rescaleVsidsStep (st : State) (l : Literal) : State :=
  let sc := st.score l
  let (rem, lbs) := st.literalByScore.removeGet (sc, l)
  let newSc := sc.div st.vsidsActivityRescale
  let pair := (st.scoreForLiteral.getD l.var ⟨⟨0, 1⟩, ⟨0, 1⟩⟩).put l.pol newSc
  { st with
    scoreForLiteral := st.scoreForLiteral.set l.var pair
    literalByScore := if rem then lbs.insert (newSc, l) else lbs }

/-- `rescale_vsids`: divide every literal score and the increment. -/
def rescaleVsids (st : State) : State :=
  let lits := st.allVariables.toList.flatMap fun v =>
    [Literal.new v false, Literal.new v true]
  let st := lits.foldl rescaleVsidsStep st
  { st with vsidsInc := st.vsidsInc.div st.vsidsActivityRescale }

/-- `add_vsids_activity`. -/
def addVsidsActivity (st : State) (l : Literal) : State :=
  let sc := st.score l
  let (rem, lbs) := st.literalByScore.removeGet (sc, l)
  let newSc := sc.add st.vsidsInc
  let pair := (st.scoreForLiteral.getD l.var ⟨⟨0, 1⟩, ⟨0, 1⟩⟩).put l.pol newSc
  let st := { st with
    scoreForLiteral := st.scoreForLiteral.set l.var pair
    literalByScore := if rem then lbs.insert (newSc, l) else lbs }
  if st.vsidsActivityRescale.blt newSc then st.rescaleVsids else st

/-- `decay_vsids_activities`. -/
def decayVsidsActivities (st : State) : State :=
  { st with vsidsInc := st.vsidsInc.div st.vsidsDecayFactor }

/-- `num_at_level` seeding: count the learned clause's literals assigned at
the current decision level. -/
def countAtLevel (st : State) (c : Clause) : Option Int :=
  c.iterLiterals.foldlM
    (fun (acc : Int) l =>
      match st.trailEntryIdxByVar.getD l.var none with
      | none => pure acc
      | some idx => do
        let e ← st.trail.get? idx
        pure (if e.decisionLevel = st.decisionLevel then acc + 1 else acc))
    0

/-- The `num_at_level` adjustment for one resolution step: literals the
resolvent introduces gain a count, the pivot loses one. -/
def lcffAdjust (st : State) (learned : Clause) (trailLit : Literal)
    (reasonClause : Clause) (n : Int) : Option Int :=
  (reasonClause.iterLiterals.filter fun lit =>
      lit.var == trailLit.var || ! learned.vars.contains lit.var).foldlM
    (fun (acc : Int) lit =>
      match st.trailEntryIdxByVar.getD lit.var none with
      | none => pure acc
      | some idx => do
        let e ← st.trail.get? idx
        if e.decisionLevel = st.decisionLevel then
          pure (if lit.var = trailLit.var then acc - 1 else acc + 1)
        else pure acc)
    n

/-- The backward trail walk of `learn_clause_from_failure`; the parameter is
one past the trail index under consideration. -/
def lcffLoop : Nat → State → Clause → Int → Bool → Option (State × Clause × Bool)
  | 0, st, learned, _n, rescale => some (st, learned, rescale)
  | i + 1, st, learned, n, rescale =>
    if n = 1 then some (st, learned, rescale)
    else do
      let e ← st.trail.get? i
      if ! learned.vars.contains e.literal.var then
        lcffLoop i st learned n rescale
      else
        let st := st.addVsidsActivity e.literal
        match e.reason with
        | .decision _ => none
        | .clauseIdx k => do
          let (st, rescale) ←
            if rescale then pure (st, rescale)
            else do
              let (st, r) ← st.addClauseActivity k
              pure (st, r)
          let reasonClause ← (st.clauses.getD k (.tomb 0 none)).value
          let n ← lcffAdjust st learned e.literal reasonClause n
          let learned ← learned.resolve reasonClause e.literal.var
          lcffLoop i st learned n rescale

/-- `learn_clause_from_failure`: copy the conflict clause (two scratch
bitsets leave the pool), walk the trail backwards resolving on reasons until
one literal of the current level remains. -/
def learnClauseFromFailure (st : State) (failedIdx : Nat) :
    Option (State × Clause) := do
  let base ← (st.clauses.getD failedIdx (.tomb 0 none)).value
  let st := { st with bitsetPool := st.bitsetPool.dropLast.dropLast }
  let learned := { base.copy with fromConflict := true }
  let n0 ← st.countAtLevel learned
  let (st, learned, rescale) ← lcffLoop st.trail.length st learned n0 false
  let st := if rescale then st.rescaleClauseActivities else st
  pure (st, learned)

/-- Pop and undo every trail entry (the loop of `restart`). -/
def popAllTrail : Nat → State → Option State
  | 0, _ => none
  | fuel + 1, st =>
    match st.trail.getLast? with
    | none => some st
    | some e => do
      let st := { st with trail := st.trail.dropLast }
      let st ← st.undoEntry e
      popAllTrail fuel st

/-- The rescan of `restart`: seed the ready set with every live clause that
currently has a unit literal. -/
def restartScan (st : State) : State :=
  (List.range st.clauses.length).foldl
    (fun st idx =>
      match (st.clauses.getD idx (.tomb 0 none)).value with
      | none => st
      | some c =>
        match st.tryGetUnitLiteral c with
        | none => st
        | some _ => { st with readyForUnitProp := st.readyForUnitProp.set idx })
    st

/-- `restart`: clear the ready set, undo the whole trail, rescan for units.
(The decision level is left untouched, exactly as in the source.) -/
def restart (st : State) : Option State := do
  let st := { st with readyForUnitProp := st.readyForUnitProp.clearAll }
  let st ← popAllTrail (st.trail.length + 1) st
  pure st.restartScan

/-- The pop loop of `remove_from_trail_helper`; `seenOne` models the
`trail_entry.is_some()` stop condition of the `None` mode. -/
def rfthLoop : Nat → State → Option Nat → Bool → Option State
  | 0, _, _, _ => none
  | fuel + 1, st, removeGreaterThan, seenOne =>
    let finished :=
      st.trail.isEmpty ||
        (match removeGreaterThan with
         | none => seenOne
         | some decisionLevel =>
           match st.trail.getLast? with
           | some lastEntry => decide (lastEntry.decisionLevel ≤ decisionLevel)
           | none => false)
    if finished then some st
    else do
      let e ← st.trail.getLast?
      let st := { st with trail := st.trail.dropLast }
      let st ← st.undoEntry e
      rfthLoop fuel st removeGreaterThan true

/-- `remove_from_trail_helper`: pop entries above the target level, then set
`decision_level` from the last remaining entry (0 if the trail emptied). -/
def removeFromTrailHelper (st : State) (removeGreaterThan : Option Nat) :
    Option State := do
  let st ← rfthLoop (st.trail.length + 1) st removeGreaterThan false
  pure { st with decisionLevel :=
    match st.trail.getLast? with
    | none => 0
    | some e => e.decisionLevel }

/-- `update_watch_literals_for_new_clause_helper`: choose the watched
literals of a newly installed clause from its first unassigned/assigned
literals, marking ready when it is unit. -/
def installWatch (watchedClauses : List (TfPair WatchMap)) (ready : BitSet)
    (unassigned : BitSet) (clause : Clause) (clauseIdx gen : Nat) :
    List (TfPair WatchMap) × BitSet :=
  let unassignedLits := (clause.vars.iterIntersection unassigned).map
    fun v => Literal.new v (! clause.negatives.contains v)
  let assignedLits := (clause.vars.iterDifference unassigned).map
    fun v => Literal.new v (! clause.negatives.contains v)
  let ins := fun (w : List (TfPair WatchMap)) (l : Literal) =>
    let pair := w.getD l.var ⟨[], []⟩
    w.set l.var (pair.put l.pol ((pair.get l.pol).insert clauseIdx gen))
  match unassignedLits, assignedLits with
  | [], [] => (watchedClauses, ready)
  | [], [l] => (ins watchedClauses l, ready)
  | [], l1 :: _l2 :: _ => (ins (ins watchedClauses l1) _l2, ready)
  | [l], l2 :: _ => (ins (ins watchedClauses l) l2, ready.set clauseIdx)
  | [l], [] => (ins watchedClauses l, ready.set clauseIdx)
  | a :: b :: _, _ => (ins (ins watchedClauses a) b, ready)

/-- `update_watch_literals_for_new_clause`. -/
def updateWatchLiteralsForNewClause (st : State) (clauseIdx : Nat) :
    Option State := do
  let clause ← (st.clauses.getD clauseIdx (.tomb 0 none)).value
  let gen := (st.clauses.getD clauseIdx (.tomb 0 none)).generation
  let (w, r) := installWatch st.watchedClauses st.readyForUnitProp
    st.unassignedVariables clause clauseIdx gen
  pure { st with watchedClauses := w, readyForUnitProp := r }

/-- `backtrack`: learn, bump, compute the backjump level, register the new
clause's variables, pop the trail, push the clause, clear the ready set and
install the learned clause's watches. -/
def backtrack (st : State) (failedIdx : Nat) : Option State := do
  let (st, learned) ← st.learnClauseFromFailure failedIdx
  let st := learned.iterLiterals.foldl (fun st l => st.addVsidsActivity l) st
  let removeGreaterThan ← st.secondHighestDecisionLevel learned
  let st := learned.iterLiterals.foldl
    (fun st l =>
      let len := st.clauses.length
      let pair := st.clausesByVar.getD l.var ⟨BitSet.create, BitSet.create⟩
      { st with clausesByVar :=
        st.clausesByVar.set l.var (pair.put l.pol ((pair.get l.pol).set len)) })
    st
  let st := st.decayVsidsActivities
  let st ← st.removeFromTrailHelper (some removeGreaterThan)
  let (clauseIdx, st) ← st.pushClause learned
  let st := { st with readyForUnitProp := st.readyForUnitProp.clearAll }
  st.updateWatchLiteralsForNewClause clauseIdx

/-- `react`.  In the decision branch the conflict possibly returned by
`add_to_trail` is discarded, exactly as in the source. -/
def react (st : State) (action : Action) : Option (StepResult × State) :=
  match action with
  | .unsat => some (.done .unsat, st)
  | .finishedUnitPropagation => some (.continue, st)
  | .cont literal => do
    let (st, _conflict) ← st.addToTrail ⟨literal, st.decisionLevel, .decision literal⟩
    pure (.continue, st)
  | .contradiction failedIdx =>
    if st.decisionLevel = 0 then some (.done .unsat, st)
    else do
      let st := { st with conflicts := st.conflicts + 1 }
      let st ← st.backtrack failedIdx
      let st ←
        if st.conflicts ≥ st.luby.value then do
          let st := { st with conflicts := 0 }
          st.restart
        else pure st
      pure (.continue, st)

/-- `choose_vsids_literal`: the maximum of the by-score set. -/
def chooseVsidsLiteral (st : State) : Option Literal :=
  st.literalByScore.last.map (·.2)

/-- `make_decision`. -/
def makeDecision (st : State) (literalOverride : Option Literal) :
    Option (StepResult × State) :=
  match literalOverride.orElse fun _ => st.chooseVsidsLiteral with
  | none => some (.done (.sat st.assignmentsMap), st)
  | some literal =>
    let st := { st with decisionLevel := st.decisionLevel + 1 }
    st.react (.cont literal)

/-- `can_trim_clause` (`num_units` is tested first, short-circuiting the
trail lookups). -/
def canTrimClause (st : State) (c : Clause) : Option Bool :=
  if c.numUnits ≠ 0 then pure false
  else do
    let lvls ← c.iterLiterals.foldlM
      (fun (acc : List Nat) l =>
        match st.trailEntryIdxByVar.getD l.var none with
        | none => pure acc
        | some idx => do
          let e ← st.trail.get? idx
          pure (acc ++ [e.decisionLevel]))
      []
    pure (decide (lvls.dedup.length ≥ 3) && decide (c.vars.count ≥ 3))

/-- Stable insertion into a list ascending under `key` (after equal keys). -/
def insSorted (key : Nat → Score) (x : Nat) : List Nat → List Nat
  | [] => [x]
  | y :: ys => if (key x).blt (key y) then x :: y :: ys else y :: insSorted key x ys

/-- Stable sort by `key` (Rust's `sort_by` with `total_cmp` is stable). -/
def sortByKey (key : Nat → Score) (l : List Nat) : List Nat :=
  l.foldl (fun acc x => insSorted key x acc) []

/-- `simplify_clauses`: gather the trimmable learned clauses, sort ascending
by activity, delete the bottom half. -/
def simplifyClauses (st : State) : Option State := do
  let idxs := (List.range st.clauses.length).drop st.numInitialClauses
  let buckets ← idxs.foldlM
    (fun (acc : List Nat) idx => do
      match (st.clauses.getD idx (.tomb 0 none)).value with
      | none => pure acc
      | some c =>
        if c.fromConflict && c.numUnits = 0 then do
          let t ← st.canTrimClause c
          pure (if t then acc ++ [idx] else acc)
        else pure acc)
    []
  let key := fun idx =>
    (((st.clauses.getD idx (.tomb 0 none)).value).map (·.score)).getD ⟨0, 1⟩
  let sorted := sortByKey key buckets
  let numToDrop := sorted.length / 2
  (sorted.take numToDrop).foldlM (fun st idx => st.deleteClause idx) st

/-- `step`. -/
def step (st : State) (literalOverride : Option Literal) :
    Option (StepResult × State) := do
  let st := { st with iterations := st.iterations + 1 }
  let st ←
    if st.iterations % st.simplifyClausesEvery = 0 then do
      let st ← st.simplifyClauses
      pure st.decayClauseActivities
    else pure st
  if st.instantlyUnsat then pure (.done .unsat, st)
  else do
    let (r, st) ← st.unitPropagate
    match r with
    | .nothingToPropagate => st.makeDecision literalOverride
    | .finishedUnitPropagation => pure (.continue, st)
    | .contradiction idx => st.react (.contradiction idx)

/-- `run_inner`: iterate `step` to completion (`CHECK_RESULTS` is false for
the default configuration).  The fuel bounds the number of steps. -/
def runInner : Nat → State → Option (SatResult × State)
  | 0, _ => none
  | fuel + 1, st => do
    let (r, st) ← st.step none
    match r with
    | .done res => pure (res, st)
    | .continue => runInner fuel st

/-- `run`: restart (seeding the ready set), then iterate. -/
def run (fuel : Nat) (st : State) : Option (SatResult × State) := do
  let st ← st.restart
  runInner fuel st

/-- `stabilize_assumption`. -/
def stabilizeAssumption (st : State) : Option (Option SatResult × State) := do
  let (r, st) ← st.unitPropagate
  match r with
  | .contradiction _ => pure (some .unsat, st)
  | _ => pure (none, st)

/-- The assumption loop of `run_with_assumptions`. -/
def rwaLoop : List Int → Nat → State → Option (SatResult × State)
  | [], fuel, st => runInner fuel st
  | litVal :: rest, fuel, st => do
    let v := litVal.natAbs
    let value := decide (0 < litVal)
    let lit := Literal.new v value
    if ! st.unassignedVariables.contains v then
      if st.assignments.contains v != value then pure (.unsat, st)
      else rwaLoop rest fuel st
    else do
      let (r, st) ← st.makeDecision (some lit)
      match r with
      | .done res => pure (res, st)
      | .continue => do
        let (ores, st) ← st.stabilizeAssumption
        match ores with
        | some res => pure (res, st)
        | none => rwaLoop rest fuel st

/-- `run_with_assumptions`. -/
def runWithAssumptions (fuel : Nat) (st : State) (assumptions : List Int) :
    Option (SatResult × State) := do
  let st ← st.restart
  let (ores, st) ← st.stabilizeAssumption
  match ores with
  | some res => pure (res, st)
  | none => rwaLoop assumptions fuel st

end State

/-- The per-clause ingest step of `new_with_pool_and_debug_writer`: mark the
empty clause, register the clause in `clauses_by_var`, install watches. -/
def ingestClause
    (acc : List (TfPair BitSet) × List (TfPair WatchMap) × BitSet × Bool)
    (unassigned : BitSet) (p : Nat × Clause) :
    List (TfPair BitSet) × List (TfPair WatchMap) × BitSet × Bool :=
  let (clausesByVar, watchedClauses, ready, instantlyUnsat) := acc
  let (idx, clause) := p
  let instantlyUnsat := instantlyUnsat || clause.vars.isEmpty
  let clausesByVar := clause.iterLiterals.foldl
    (fun (cbv : List (TfPair BitSet)) l =>
      let pair := cbv.getD l.var ⟨BitSet.create, BitSet.create⟩
      cbv.set l.var (pair.put l.pol ((pair.get l.pol).set idx)))
    clausesByVar
  let (watchedClauses, ready) :=
    State.installWatch watchedClauses ready unassigned clause idx 0
  (clausesByVar, watchedClauses, ready, instantlyUnsat)

/-- `State::new_with_pool_and_debug_writer` for the default (VSIDS, silent)
configuration.  On every call the program makes the pool is empty, so each
per-variable bitset is freshly created. -/
def State.newWithPool (f : Formula) : State :=
  let clauses := f.clauses.map (TombStone.live 0)
  let numVars := f.maxVar + 1
  let variablesBitset := f.vars.foldl (fun bs v => bs.set v) BitSet.create
  let clausesByVar0 :=
    List.replicate numVars (⟨BitSet.create, BitSet.create⟩ : TfPair BitSet)
  let watchedClauses0 := List.replicate numVars (⟨[], []⟩ : TfPair WatchMap)
  let (clausesByVar, watchedClauses, ready, instantlyUnsat) :=
    (f.clauses.enum).foldl
      (fun acc p => ingestClause acc variablesBitset p)
      (clausesByVar0, watchedClauses0, BitSet.create, false)
  let scoreForLiteral := (List.range numVars).map fun v =>
    let pair := clausesByVar.getD v ⟨BitSet.create, BitSet.create⟩
    (⟨Score.ofNat (pair.get true).count, Score.ofNat (pair.get false).count⟩ : TfPair Score)
  let literalByScore := variablesBitset.toList.foldl
    (fun (s : ScoreSet) v =>
      let pair := scoreForLiteral.getD v ⟨⟨0, 1⟩, ⟨0, 1⟩⟩
      (s.insert (pair.get true, Literal.new v true)).insert
        (pair.get false, Literal.new v false))
    []
  { luby := Luby.new 32
    conflicts := 0
    scoreForLiteral := scoreForLiteral
    literalByScore := literalByScore
    claDecayFactor := ⟨3, 4⟩
    claActivityRescale := ⟨10 ^ 20, 1⟩
    claInc := ⟨1, 1⟩
    vsidsDecayFactor := ⟨19, 20⟩
    vsidsActivityRescale := ⟨10 ^ 20, 1⟩
    vsidsInc := ⟨1, 1⟩
    clausesFirstTombstone := none
    simplifyClausesEvery := 2500
    readyForUnitProp := ready
    allVariables := variablesBitset
    assignments := BitSet.create
    clauses := clauses
    numInitialClauses := clauses.length
    trail := []
    unassignedVariables := variablesBitset
    watchedClauses := watchedClauses
    clausesByVar := clausesByVar
    trailEntryIdxByVar := List.replicate numVars none
    decisionLevel := 0
    bitsetPool := []
    iterations := 0
    instantlyUnsat := instantlyUnsat }

/-- `State::new_from_vec` / `State::create` (panics on a zero literal). -/
def State.newFromVec (formula : List (List Int)) : Option State :=
  (Formula.new formula).map State.newWithPool

/-- `State::solve`: build the solver and iterate `run_inner` (without the
initial restart — the ingest already seeded the ready set). -/
def solve (fuel : Nat) (formula : List (List Int)) : Option SatResult := do
  let st ← State.newFromVec formula
  let (res, _) ← State.runInner fuel st
  pure res

/-- `State::solve_with_assumptions`. -/
def solveWithAssumptions (fuel : Nat) (formula : List (List Int))
    (assumptions : List Int) : Option SatResult := do
  let st ← State.newFromVec formula
  let (res, _) ← State.runWithAssumptions fuel st assumptions
  pure res

/-! ## Specification-side definitions used by the theorems -/

/-- Well-formedness of a flat bitset: every word fits in a `usize`.  Every
bitset the program builds satisfies this (see the preservation lemmas
below). -/
def BitSet.WF (s : BitSet) : Prop := ∀ w ∈ s.words, w < wordMod

instance (s : BitSet) : Decidable s.WF :=
  inferInstanceAs (Decidable (∀ w ∈ s.words, w < wordMod))

/-- The first index in `[start, start+len)` satisfying `p` (reference
function used to reason about scans over `List.range'`). -/
def firstIdx (p : Nat → Bool) : Nat → Nat → Option Nat
  | 0, _ => none
  | len + 1, start => if p start then some start else firstIdx p len (start + 1)

/-- The naive reference for `intersect_first_set_ge` (§8 of the spec): the
first index ≥ `k` below `bound` that both membership predicates contain. -/
def naiveFirstCommonGe (mem1 mem2 : Nat → Bool) (bound k : Nat) : Option Nat :=
  ((List.range bound).filter fun i => decide (k ≤ i) && mem1 i && mem2 i).head?

/-- A signed-integer literal is satisfied by a total assignment. -/
def intLitSatisfied (a : Nat → Bool) (lit : Int) : Bool :=
  a lit.natAbs == decide (0 < lit)

/-- A clause given as a list of signed integers is satisfied by a total
assignment: some literal's variable is mapped to its polarity. -/
def intClauseSatisfied (a : Nat → Bool) (c : List Int) : Bool :=
  c.any (intLitSatisfied a)

/-- A literal is false under the current partial assignment: its variable is
assigned and carries the opposite polarity. -/
def State.litFalse (st : State) (l : Literal) : Bool :=
  ! st.unassignedVariables.contains l.var
    && st.assignments.contains l.var != l.pol

/-- The number of non-false literals of clause `idx` that currently watch
it. -/
def State.watchedNonFalseCount (st : State) (idx : Nat) (c : Clause) : Nat :=
  (c.iterLiterals.filter fun l =>
    (st.watched l).containsKey idx && ! st.litFalse l).length

/-- The watched-literals invariant exactly as claimed: every live clause not
satisfied by the current partial assignment has at least two non-false
watched literals or sits in the ready set. -/
def State.watchedInvariant (st : State) : Bool :=
  (List.range st.clauses.length).all fun idx =>
    match (st.clauses.getD idx (.tomb 0 none)).value with
    | none => true
    | some c =>
      st.isSatisfied c
        || decide (2 ≤ st.watchedNonFalseCount idx c)
        || st.readyForUnitProp.contains idx

/-- One watcher-map insertion of `update_watch_literals_for_new_clause_helper`
(the local `ins` closure of `installWatch`, as a named function). -/
def insWatch (w : List (TfPair WatchMap)) (l : Literal) (clauseIdx gen : Nat) :
    List (TfPair WatchMap) :=
  let pair := w.getD l.var ⟨[], []⟩
  w.set l.var (pair.put l.pol ((pair.get l.pol).insert clauseIdx gen))

/-- Clause `idx` has a watch entry registered under literal `l`. -/
def watchEntry (w : List (TfPair WatchMap)) (l : Literal) (idx : Nat) : Bool :=
  ((w.getD l.var ⟨[], []⟩).get l.pol).containsKey idx

/-- The watched-literals obligation of one clause, phrased against raw
watcher maps and a ready set: the clause is ready, or two distinct of its
literals hold watch entries for it. -/
def goodAt (w : List (TfPair WatchMap)) (r : BitSet) (idx : Nat) (c : Clause) :
    Prop :=
  r.contains idx = true ∨
    ∃ a b : Literal, a ≠ b ∧ a ∈ c.iterLiterals ∧ b ∈ c.iterLiterals ∧
      watchEntry w a idx = true ∧ watchEntry w b idx = true

/-- The watch half of `goodAt`: two distinct literals of the clause hold
watch entries for it, with no appeal to the ready set. -/
def goodW (w : List (TfPair WatchMap)) (idx : Nat) (c : Clause) : Prop :=
  ∃ a b : Literal, a ≠ b ∧ a ∈ c.iterLiterals ∧ b ∈ c.iterLiterals ∧
    watchEntry w a idx = true ∧ watchEntry w b idx = true

/-- The per-clause body of `restart`'s rescan loop, as a named function. -/
def State.scanStep (st : State) (idx : Nat) : State :=
  match (st.clauses.getD idx (.tomb 0 none)).value with
  | none => st
  | some c =>
    match st.tryGetUnitLiteral c with
    | none => st
    | some _ => { st with readyForUnitProp := st.readyForUnitProp.set idx }

/-- The amended watched-literals invariant: as claimed, but only demanded of
clauses with at least one variable (the empty clause has no literals to
watch and is handled by `instantly_unsat` instead). -/
def State.watchedInvariantNE (st : State) : Bool :=
  (List.range st.clauses.length).all fun idx =>
    match (st.clauses.getD idx (.tomb 0 none)).value with
    | none => true
    | some c =>
      c.vars.isEmpty || st.isSatisfied c
        || decide (2 ≤ st.watchedNonFalseCount idx c)
        || st.readyForUnitProp.contains idx

/-- The second-highest decision level as the spec words it: the largest
level among the listed (assigned) levels that is strictly below the largest
one, and 0 when no such level exists. -/
def secondHighestSpec (levels : List (Option Nat)) : Nat :=
  let vs := levels.filterMap id
  let m := vs.foldr max 0
  (vs.filter fun l => decide (l < m)).foldr max 0

/-! # Theorems -/

/-! ## Scans and 64-bit word lemmas -/

theorem firstIdx_some {p : Nat → Bool} :
    ∀ {len start r : Nat}, firstIdx p len start = some r →
      start ≤ r ∧ r < start + len ∧ p r = true ∧
        ∀ j, start ≤ j → j < r → p j = false := by
  intro len
  induction len with
  | zero => intro start r h; simp [firstIdx] at h
  | succ n ih =>
    intro start r h
    simp only [firstIdx] at h
    by_cases hp : p start
    · simp [hp] at h
      subst h
      exact ⟨le_refl _, by omega, hp, fun j h1 h2 => absurd h2 (by omega)⟩
    · simp [hp] at h
      obtain ⟨h1, h2, h3, h4⟩ := ih h
      refine ⟨by omega, by omega, h3, ?_⟩
      intro j hj1 hj2
      rcases Nat.eq_or_lt_of_le hj1 with rfl | hj1
      · simpa using hp
      · exact h4 j hj1 hj2

theorem firstIdx_none {p : Nat → Bool} :
    ∀ {len start : Nat}, firstIdx p len start = none →
      ∀ j, start ≤ j → j < start + len → p j = false := by
  intro len
  induction len with
  | zero => intro start _ j h1 h2; omega
  | succ n ih =>
    intro start h j h1 h2
    simp only [firstIdx] at h
    by_cases hp : p start
    · simp [hp] at h
    · simp [hp] at h
      rcases Nat.eq_or_lt_of_le h1 with rfl | h1
      · simpa using hp
      · exact ih h j h1 (by omega)

theorem filter_range'_head (p : Nat → Bool) :
    ∀ (len start : Nat), ((List.range' start len).filter p).head? = firstIdx p len start := by
  intro len
  induction len with
  | zero => intro start; simp [firstIdx]
  | succ n ih =>
    intro start
    rw [show List.range' start (n + 1) = start :: List.range' (start + 1) n from
      List.range'_succ start n 1]
    simp only [List.filter_cons, firstIdx]
    by_cases hp : p start
    · simp [hp]
    · simp only [hp, Bool.false_eq_true, if_neg, if_false]
      exact ih (start + 1)

theorem filter_range_head (p : Nat → Bool) (n : Nat) :
    ((List.range n).filter p).head? = firstIdx p n 0 := by
  rw [List.range_eq_range']
  exact filter_range'_head p n 0

theorem testBit_high {w j : Nat} (hw : w < wordMod) (hj : wordBits ≤ j) :
    w.testBit j = false := by
  refine Nat.testBit_eq_false_of_lt (lt_of_lt_of_le hw ?_)
  exact Nat.pow_le_pow_right (by norm_num) hj

theorem testBit_wordMax {j : Nat} : wordMax.testBit j = decide (j < wordBits) := by
  simpa [wordMax, wordMod, wordBits] using Nat.testBit_two_pow_sub_one 64 j

theorem testBit_wordNot {w : Nat} (hw : w < wordMod) (j : Nat) :
    (wordNot w).testBit j = (decide (j < wordBits) && ! w.testBit j) := by
  rw [wordNot, Nat.testBit_xor, show wordMod - 1 = wordMax from rfl]
  rcases lt_or_ge j wordBits with hj | hj
  · simp [testBit_wordMax, hj]
  · simp [testBit_wordMax, hj, testBit_high hw hj, Nat.not_lt.mpr hj]

theorem maskGe_eq {o : Nat} (ho : o < wordBits) :
    BitSet.maskGe o = (2 ^ (wordBits - o) - 1) * 2 ^ o := by
  have hM : wordMod = 2 ^ (wordBits - o) * 2 ^ o := by
    rw [← pow_add, show wordBits - o + o = wordBits by omega]
  have hp : (1:Nat) ≤ 2 ^ o := Nat.one_le_two_pow
  have hq : (1:Nat) ≤ 2 ^ (wordBits - o) := Nat.one_le_two_pow
  have hpm : 2 ^ o ≤ wordMod := by
    rw [hM]
    calc (2:Nat) ^ o = 1 * 2 ^ o := (one_mul _).symm
    _ ≤ 2 ^ (wordBits - o) * 2 ^ o := Nat.mul_le_mul_right _ hq
  have hm1 : (1:Nat) ≤ wordMod := le_trans hp hpm
  have h1 : (wordMod - 1) <<< o = wordMod * (2 ^ o - 1) + (wordMod - 2 ^ o) := by
    rw [Nat.shiftLeft_eq]
    zify [hpm, hm1, hp]
    ring
  rw [BitSet.maskGe, h1, Nat.mul_add_mod]
  rw [Nat.mod_eq_of_lt (by omega)]
  rw [hM, Nat.sub_mul, one_mul]

theorem testBit_maskGe {o : Nat} (ho : o < wordBits) (j : Nat) :
    (BitSet.maskGe o).testBit j = (decide (o ≤ j) && decide (j < wordBits)) := by
  rw [maskGe_eq ho, ← Nat.shiftLeft_eq, Nat.testBit_shiftLeft,
    Nat.testBit_two_pow_sub_one]
  rcases lt_or_ge j o with hj | hj
  · simp [Nat.not_le.mpr hj, hj]
  · have : j - o < wordBits - o ↔ j < wordBits := by omega
    simp [hj, this]

theorem lsb_spec {w : Nat} (hw : w < wordMod) (h0 : w ≠ 0) :
    w.testBit (lsb w) = true ∧ lsb w < wordBits ∧
      ∀ j, j < lsb w → w.testBit j = false := by
  obtain ⟨i, hi⟩ := Nat.ne_zero_implies_bit_true h0
  have hi64 : i < wordBits := by
    by_contra hle
    rw [testBit_high hw (by omega)] at hi
    exact Bool.false_ne_true hi
  have hne : ((List.range wordBits).filter fun j => w.testBit j) ≠ [] := by
    intro hemp
    have : i ∈ (List.range wordBits).filter fun j => w.testBit j := by
      rw [List.mem_filter]
      exact ⟨List.mem_range.mpr hi64, hi⟩
    rw [hemp] at this
    cases this
  have hhead : ((List.range wordBits).filter fun j => w.testBit j).head? =
      firstIdx (fun j => w.testBit j) wordBits 0 := filter_range_head _ _
  rw [lsb]
  match hh : ((List.range wordBits).filter fun j => w.testBit j).head? with
  | none =>
    exact absurd (List.head?_eq_none_iff.mp hh) hne
  | some r =>
    rw [hh] at hhead
    obtain ⟨_, hlt, hp, hmin⟩ := firstIdx_some hhead.symm
    have : ((List.range wordBits).filter fun j => w.testBit j).headD 0 = r := by
      rw [List.headD_eq_head?_getD, hh]
      rfl
    rw [this]
    exact ⟨hp, by omega, fun j hj => hmin j (Nat.zero_le j) hj⟩

theorem wordOnes_mem {w i : Nat} :
    i ∈ BitSet.wordOnes w ↔ (w.testBit i = true ∧ i < wordBits) := by
  rw [BitSet.wordOnes, List.mem_filter, List.mem_range]
  tauto

theorem wordOnes_sorted (w : Nat) : (BitSet.wordOnes w).Sorted (· < ·) := by
  exact List.Pairwise.sublist (List.filter_sublist _) (List.pairwise_lt_range _)

/-! ## Flat bitset membership lemmas -/

theorem getWord_lt {s : BitSet} (h : s.WF) (i : Nat) : s.getWord i < wordMod := by
  rw [BitSet.getWord]
  by_cases hi : i < s.words.length
  · rw [List.getD_eq_getElem _ _ hi]
    exact h _ (List.getElem_mem _)
  · rw [List.getD_eq_default _ _ (by omega)]
    norm_num

theorem wordBits_eq : wordBits = 64 := rfl

theorem div_lt_blocks {i len : Nat} : i < len * wordBits ↔ i / wordBits < len := by
  rw [wordBits_eq]
  omega

theorem contains_iff {s : BitSet} {i : Nat} :
    s.contains i = true ↔
      i / wordBits < s.blockCount ∧
        (s.getWord (i / wordBits)).testBit (i % wordBits) = true := by
  rw [BitSet.contains]
  by_cases hcap : i ≥ s.capacity
  · have : ¬ i / wordBits < s.blockCount := by
      rw [BitSet.capacity, wordBits_eq] at hcap
      rw [BitSet.blockCount, wordBits_eq]
      omega
    simp [hcap, this]
  · have : i / wordBits < s.blockCount := by
      rw [BitSet.capacity, wordBits_eq] at hcap
      rw [BitSet.blockCount, wordBits_eq]
      omega
    simp [hcap, this]

theorem contains_false_of_big {s : BitSet} {i : Nat}
    (h : ¬ i / wordBits < s.blockCount) : s.contains i = false := by
  rw [Bool.eq_false_iff]
  intro hc
  exact h (contains_iff.mp hc).1

theorem scanBlocksAux_some {p : Nat → Bool} :
    ∀ {ws : List Nat} {start r : Nat},
      BitSet.scanBlocksAux p ws start = some r →
      start ≤ r ∧ r - start < ws.length ∧ p (ws.getD (r - start) 0) = true ∧
        ∀ k, start ≤ k → k < r → p (ws.getD (k - start) 0) = false := by
  intro ws
  induction ws with
  | nil => intro start r h; simp [BitSet.scanBlocksAux] at h
  | cons w rest ih =>
    intro start r h
    simp only [BitSet.scanBlocksAux] at h
    by_cases hp : p w
    · simp [hp] at h
      subst h
      refine ⟨le_refl _, by simp, by simpa using hp, ?_⟩
      intro k h1 h2
      omega
    · simp [hp] at h
      obtain ⟨h1, h2, h3, h4⟩ := ih h
      refine ⟨by omega, by simp; omega, ?_, ?_⟩
      · have : r - start = (r - (start + 1)) + 1 := by omega
        rw [this]
        simpa using h3
      · intro k hk1 hk2
        rcases Nat.eq_or_lt_of_le hk1 with rfl | hk1
        · simpa using hp
        · have : k - start = (k - (start + 1)) + 1 := by omega
          rw [this]
          simpa using h4 k hk1 hk2

theorem scanBlocksAux_none {p : Nat → Bool} :
    ∀ {ws : List Nat} {start : Nat},
      BitSet.scanBlocksAux p ws start = none →
      ∀ k, start ≤ k → k - start < ws.length → p (ws.getD (k - start) 0) = false := by
  intro ws
  induction ws with
  | nil => intro start _ k h1 h2; simp at h2
  | cons w rest ih =>
    intro start h k h1 h2
    simp only [BitSet.scanBlocksAux] at h
    by_cases hp : p w
    · simp [hp] at h
    · simp [hp] at h
      rcases Nat.eq_or_lt_of_le h1 with rfl | h1
      · simpa using hp
      · have : k - start = (k - (start + 1)) + 1 := by omega
        rw [this]
        have h2' : k - (start + 1) < rest.length := by simp at h2; omega
        simpa using ih h k h1 h2'

theorem getD_drop {ws : List Nat} {start k : Nat} (h : start ≤ k) :
    (ws.drop start).getD (k - start) 0 = ws.getD k 0 := by
  rw [List.getD_eq_getElem?_getD, List.getD_eq_getElem?_getD, List.getElem?_drop]
  rw [show start + (k - start) = k by omega]

theorem scanBlocks_some {s : BitSet} {p : Nat → Bool} {start r : Nat}
    (h : s.scanBlocks p start = some r) :
    start ≤ r ∧ r < s.words.length ∧ p (s.getWord r) = true ∧
      ∀ k, start ≤ k → k < r → p (s.getWord k) = false := by
  rw [BitSet.scanBlocks] at h
  obtain ⟨h1, h2, h3, h4⟩ := scanBlocksAux_some h
  rw [List.length_drop] at h2
  refine ⟨h1, by omega, ?_, ?_⟩
  · rw [getD_drop h1] at h3
    exact h3
  · intro k hk1 hk2
    have := h4 k hk1 hk2
    rw [getD_drop hk1] at this
    exact this

theorem scanBlocks_none {s : BitSet} {p : Nat → Bool} {start : Nat}
    (h : s.scanBlocks p start = none) :
    ∀ k, start ≤ k → k < s.words.length → p (s.getWord k) = false := by
  rw [BitSet.scanBlocks] at h
  intro k h1 h2
  have := scanBlocksAux_none h k h1 (by rw [List.length_drop]; omega)
  rw [getD_drop h1] at this
  exact this

theorem firstSetGe_unfold (s : BitSet) (ge : Nat) : s.firstSetGe ge =
    if ge / wordBits ≥ s.blockCount then none
    else if (s.getWord (ge / wordBits) &&& BitSet.maskGe (ge % wordBits)) ≠ 0 then
      some (ge / wordBits * wordBits
        + lsb (s.getWord (ge / wordBits) &&& BitSet.maskGe (ge % wordBits)))
    else
      match s.firstSetBlockGe (ge / wordBits + 1) with
      | none => none
      | some b2 => some (b2 * wordBits + lsb (s.getWord b2)) := rfl

theorem testBit_mask_iff {s : BitSet} (hWF : s.WF) (b o j : Nat) (ho : o < wordBits) :
    (s.getWord b &&& BitSet.maskGe o).testBit j = true ↔
      ((s.getWord b).testBit j = true ∧ o ≤ j ∧ j < wordBits) := by
  rw [Nat.testBit_land, testBit_maskGe ho]
  simp [Bool.and_eq_true, and_assoc]

theorem contains_decomp {s : BitSet} {b o : Nat} (hb : b < s.blockCount)
    (ho : o < wordBits) (ht : (s.getWord b).testBit o = true) :
    s.contains (b * wordBits + o) = true := by
  rw [contains_iff]
  rw [wordBits_eq] at ho ⊢
  have h1 : (b * 64 + o) / 64 = b := by omega
  have h2 : (b * 64 + o) % 64 = o := by omega
  rw [h1, h2]
  exact ⟨hb, ht⟩

theorem contains_decomp_rev {s : BitSet} {j : Nat} (h : s.contains j = true) :
    j / wordBits < s.blockCount ∧
      (s.getWord (j / wordBits)).testBit (j % wordBits) = true :=
  contains_iff.mp h

theorem firstSetGe_some {s : BitSet} (hWF : s.WF) {ge r : Nat}
    (h : s.firstSetGe ge = some r) :
    ge ≤ r ∧ s.contains r = true ∧ ∀ j, ge ≤ j → j < r → s.contains j = false := by
  rw [firstSetGe_unfold] at h
  have homod : ge % wordBits < wordBits := by rw [wordBits_eq]; omega
  by_cases hb : ge / wordBits ≥ s.blockCount
  · simp [hb] at h
  · rw [if_neg hb] at h
    push_neg at hb
    by_cases hmask : (s.getWord (ge / wordBits) &&& BitSet.maskGe (ge % wordBits)) ≠ 0
    · rw [if_pos hmask] at h
      have hmlt : (s.getWord (ge / wordBits) &&& BitSet.maskGe (ge % wordBits)) < wordMod :=
        lt_of_le_of_lt (Nat.and_le_left) (getWord_lt hWF _)
      obtain ⟨hbit, hlt64, hmin⟩ := lsb_spec hmlt hmask
      set t := lsb (s.getWord (ge / wordBits) &&& BitSet.maskGe (ge % wordBits)) with ht
      obtain ⟨hw, hot, _⟩ := (testBit_mask_iff hWF _ _ _ homod).mp hbit
      have hr : ge / wordBits * wordBits + t = r := Option.some.inj h
      subst hr
      refine ⟨?_, contains_decomp hb hlt64 hw, ?_⟩
      · rw [wordBits_eq] at *
        omega
      · intro j hj1 hj2
        rw [Bool.eq_false_iff]
        intro hc
        obtain ⟨hjb, hjw⟩ := contains_decomp_rev hc
        have hjdiv : j / wordBits = ge / wordBits := by
          rw [wordBits_eq] at *
          omega
        rw [hjdiv] at hjw
        have hjo : ge % wordBits ≤ j % wordBits := by
          rw [wordBits_eq] at *
          omega
        have hjlt : j % wordBits < t := by
          rw [wordBits_eq] at *
          omega
        have : (s.getWord (ge / wordBits) &&& BitSet.maskGe (ge % wordBits)).testBit
            (j % wordBits) = true :=
          (testBit_mask_iff hWF _ _ _ homod).mpr ⟨hjw, hjo, by rw [wordBits_eq] at *; omega⟩
        rw [hmin _ hjlt] at this
        exact Bool.false_ne_true this
    · rw [if_neg hmask] at h
      push_neg at hmask
      match hscan : s.firstSetBlockGe (ge / wordBits + 1) with
      | none => rw [hscan] at h; cases h
      | some b2 =>
        rw [hscan] at h
        obtain ⟨hs1, hs2, hs3, hs4⟩ := scanBlocks_some hscan
        have hwlt : s.getWord b2 < wordMod := getWord_lt hWF _
        have hwne : s.getWord b2 ≠ 0 := by simpa using hs3
        obtain ⟨hbit, hlt64, hmin⟩ := lsb_spec hwlt hwne
        have hr : b2 * wordBits + lsb (s.getWord b2) = r := Option.some.inj h
        subst hr
        refine ⟨?_, contains_decomp (by rw [BitSet.blockCount]; omega) hlt64 hbit, ?_⟩
        · rw [wordBits_eq] at *
          omega
        · intro j hj1 hj2
          rw [Bool.eq_false_iff]
          intro hc
          obtain ⟨hjb, hjw⟩ := contains_decomp_rev hc
          rcases Nat.lt_trichotomy (j / wordBits) b2 with hjd | hjd | hjd
          · rcases Nat.lt_or_ge (j / wordBits) (ge / wordBits + 1) with hjd2 | hjd2
            · have hjdiv : j / wordBits = ge / wordBits := by
                rw [wordBits_eq] at *
                omega
              rw [hjdiv] at hjw
              have : (s.getWord (ge / wordBits) &&& BitSet.maskGe (ge % wordBits)).testBit
                  (j % wordBits) = true := by
                refine (testBit_mask_iff hWF _ _ _ homod).mpr ⟨hjw, ?_, by rw [wordBits_eq] at *; omega⟩
                rw [wordBits_eq] at *
                omega
              rw [hmask] at this
              simpa using this
            · have := hs4 (j / wordBits) hjd2 hjd
              have hz : s.getWord (j / wordBits) = 0 := by simpa using this
              rw [hz] at hjw
              simpa using hjw
          · rw [hjd] at hjw
            have : j % wordBits < lsb (s.getWord b2) := by
              rw [wordBits_eq] at *
              omega
            rw [hmin _ this] at hjw
            exact Bool.false_ne_true hjw
          · rw [wordBits_eq] at *
            omega

theorem firstSetGe_none {s : BitSet} (hWF : s.WF) {ge : Nat}
    (h : s.firstSetGe ge = none) :
    ∀ j, ge ≤ j → s.contains j = false := by
  rw [firstSetGe_unfold] at h
  have homod : ge % wordBits < wordBits := by rw [wordBits_eq]; omega
  intro j hj
  by_cases hb : ge / wordBits ≥ s.blockCount
  · refine contains_false_of_big ?_
    rw [wordBits_eq] at *
    omega
  · rw [if_neg hb] at h
    push_neg at hb
    by_cases hmask : (s.getWord (ge / wordBits) &&& BitSet.maskGe (ge % wordBits)) ≠ 0
    · simp [hmask] at h
    · rw [if_neg hmask] at h
      push_neg at hmask
      match hscan : s.firstSetBlockGe (ge / wordBits + 1) with
      | some b2 => rw [hscan] at h; cases h
      | none =>
        have hall := scanBlocks_none hscan
        rw [Bool.eq_false_iff]
        intro hc
        obtain ⟨hjb, hjw⟩ := contains_decomp_rev hc
        rcases Nat.lt_or_ge (j / wordBits) (ge / wordBits + 1) with hjd | hjd
        · have hjdiv : j / wordBits = ge / wordBits := by
            rw [wordBits_eq] at *
            omega
          rw [hjdiv] at hjw
          have : (s.getWord (ge / wordBits) &&& BitSet.maskGe (ge % wordBits)).testBit
              (j % wordBits) = true := by
            refine (testBit_mask_iff hWF _ _ _ homod).mpr ⟨hjw, ?_, by rw [wordBits_eq] at *; omega⟩
            rw [wordBits_eq] at *
            omega
          rw [hmask] at this
          simpa using this
        · have := hall (j / wordBits) hjd (by rw [BitSet.blockCount] at hjb; omega)
          have hz : s.getWord (j / wordBits) = 0 := by simpa using this
          rw [hz] at hjw
          simpa using hjw

theorem wordNot_lt {w : Nat} (hw : w < wordMod) : wordNot w < wordMod := by
  rw [wordNot]
  exact Nat.xor_lt_two_pow (Nat.sub_lt (by norm_num) (by norm_num)) hw

theorem firstUnsetGe_unfold (s : BitSet) (ge : Nat) : s.firstUnsetGe ge =
    if ge / wordBits ≥ s.blockCount then none
    else if (wordNot (s.getWord (ge / wordBits)) &&& BitSet.maskGe (ge % wordBits)) ≠ 0 then
      some (ge / wordBits * wordBits
        + lsb (wordNot (s.getWord (ge / wordBits)) &&& BitSet.maskGe (ge % wordBits)))
    else
      match s.firstUnsetBlockGe (ge / wordBits + 1) with
      | none => none
      | some b2 => some (b2 * wordBits + lsb (wordNot (s.getWord b2))) := rfl

theorem wordNot_ne_zero {w : Nat} (hw : w < wordMod) (hne : w ≠ wordMax) :
    wordNot w ≠ 0 := by
  intro h
  apply hne
  apply Nat.eq_of_testBit_eq
  intro i
  have hx := testBit_wordNot hw i
  rw [h, Nat.zero_testBit] at hx
  rw [testBit_wordMax]
  rcases lt_or_ge i wordBits with hi | hi
  · simp only [hi, decide_True, Bool.true_and] at hx ⊢
    rcases hb : w.testBit i with _ | _
    · rw [hb] at hx; simp at hx
    · rfl
  · rw [testBit_high hw hi]
    simp [Nat.not_lt.mpr hi]

theorem testBit_of_wordMax {w j : Nat} (hw : w = wordMax) (hj : j < wordBits) :
    w.testBit j = true := by
  rw [hw, testBit_wordMax]
  simpa using hj

theorem firstUnsetGe_some {s : BitSet} (hWF : s.WF) {ge r : Nat}
    (h : s.firstUnsetGe ge = some r) :
    ge ≤ r ∧ r < s.capacity ∧ s.contains r = false ∧
      ∀ j, ge ≤ j → j < r → s.contains j = true := by
  rw [firstUnsetGe_unfold] at h
  have homod : ge % wordBits < wordBits := by rw [wordBits_eq]; omega
  by_cases hb : ge / wordBits ≥ s.blockCount
  · simp [hb] at h
  · rw [if_neg hb] at h
    push_neg at hb
    have hwltb : s.getWord (ge / wordBits) < wordMod := getWord_lt hWF _
    by_cases hmask : (wordNot (s.getWord (ge / wordBits)) &&& BitSet.maskGe (ge % wordBits)) ≠ 0
    · rw [if_pos hmask] at h
      have hmlt : (wordNot (s.getWord (ge / wordBits)) &&& BitSet.maskGe (ge % wordBits)) < wordMod :=
        lt_of_le_of_lt (Nat.and_le_left) (wordNot_lt hwltb)
      obtain ⟨hbit, hlt64, hmin⟩ := lsb_spec hmlt hmask
      set t := lsb (wordNot (s.getWord (ge / wordBits)) &&& BitSet.maskGe (ge % wordBits)) with htdef
      have hr : ge / wordBits * wordBits + t = r := Option.some.inj h
      subst hr
      rw [Nat.testBit_land, testBit_maskGe homod, testBit_wordNot hwltb] at hbit
      have hwt : (s.getWord (ge / wordBits)).testBit t = false := by
        rcases hx : (s.getWord (ge / wordBits)).testBit t with _ | _
        · rfl
        · rw [hx] at hbit; simp at hbit
      have hot : ge % wordBits ≤ t := by
        by_contra hc
        simp [hc] at hbit
      refine ⟨by rw [wordBits_eq] at *; omega, ?_, ?_, ?_⟩
      · rw [BitSet.capacity, wordBits_eq] at *
        rw [BitSet.blockCount] at hb
        omega
      · rw [Bool.eq_false_iff]
        intro hc
        obtain ⟨_, hjw⟩ := contains_decomp_rev hc
        have h1 : (ge / wordBits * wordBits + t) / wordBits = ge / wordBits := by
          rw [wordBits_eq] at *; omega
        have h2 : (ge / wordBits * wordBits + t) % wordBits = t := by
          rw [wordBits_eq] at *; omega
        rw [h1, h2] at hjw
        rw [hjw] at hwt
        exact Bool.noConfusion hwt
      · intro j hj1 hj2
        have hjd : j / wordBits = ge / wordBits := by rw [wordBits_eq] at *; omega
        have hjo : ge % wordBits ≤ j % wordBits := by rw [wordBits_eq] at *; omega
        have hjt : j % wordBits < t := by rw [wordBits_eq] at *; omega
        have hj64 : j % wordBits < wordBits := by rw [wordBits_eq]; omega
        have hfalse := hmin _ hjt
        rw [Nat.testBit_land, testBit_maskGe homod, testBit_wordNot hwltb] at hfalse
        simp [hjo, hj64] at hfalse
        have hjid : j = j / wordBits * wordBits + j % wordBits := by
          rw [wordBits_eq] at *; omega
        rw [hjid, hjd]
        exact contains_decomp hb hj64 hfalse
    · rw [if_neg hmask] at h
      push_neg at hmask
      match hscan : s.firstUnsetBlockGe (ge / wordBits + 1) with
      | none => rw [hscan] at h; cases h
      | some b2 =>
        rw [hscan] at h
        obtain ⟨hs1, hs2, hs3, hs4⟩ := scanBlocks_some hscan
        have hwlt2 : s.getWord b2 < wordMod := getWord_lt hWF _
        have hwne : s.getWord b2 ≠ wordMax := by simpa using hs3
        have hnotne : wordNot (s.getWord b2) ≠ 0 := wordNot_ne_zero hwlt2 hwne
        obtain ⟨hbit, hlt64, hmin⟩ := lsb_spec (wordNot_lt hwlt2) hnotne
        have hr : b2 * wordBits + lsb (wordNot (s.getWord b2)) = r := Option.some.inj h
        subst hr
        rw [testBit_wordNot hwlt2] at hbit
        have hwt : (s.getWord b2).testBit (lsb (wordNot (s.getWord b2))) = false := by
          rcases hx : (s.getWord b2).testBit (lsb (wordNot (s.getWord b2))) with _ | _
          · rfl
          · rw [hx] at hbit; simp at hbit
        refine ⟨by rw [wordBits_eq] at *; omega, ?_, ?_, ?_⟩
        · rw [BitSet.capacity, wordBits_eq] at *
          omega
        · rw [Bool.eq_false_iff]
          intro hc
          obtain ⟨_, hjw⟩ := contains_decomp_rev hc
          have h1 : (b2 * wordBits + lsb (wordNot (s.getWord b2))) / wordBits = b2 := by
            rw [wordBits_eq] at *; omega
          have h2 : (b2 * wordBits + lsb (wordNot (s.getWord b2))) % wordBits
              = lsb (wordNot (s.getWord b2)) := by
            rw [wordBits_eq] at *; omega
          rw [h1, h2] at hjw
          rw [hjw] at hwt
          exact Bool.noConfusion hwt
        · intro j hj1 hj2
          have hj64 : j % wordBits < wordBits := by rw [wordBits_eq]; omega
          have hjid : j = j / wordBits * wordBits + j % wordBits := by
            rw [wordBits_eq] at *; omega
          rcases Nat.lt_trichotomy (j / wordBits) b2 with hjd | hjd | hjd
          · rcases Nat.lt_or_ge (j / wordBits) (ge / wordBits + 1) with hjd2 | hjd2
            · have hjdiv : j / wordBits = ge / wordBits := by rw [wordBits_eq] at *; omega
              have hjo : ge % wordBits ≤ j % wordBits := by rw [wordBits_eq] at *; omega
              have := hmask ▸ (Nat.zero_testBit (j % wordBits))
              have hz : (wordNot (s.getWord (ge / wordBits)) &&& BitSet.maskGe (ge % wordBits)).testBit (j % wordBits) = false := by
                rw [hmask]
                exact Nat.zero_testBit _
              rw [Nat.testBit_land, testBit_maskGe homod, testBit_wordNot hwltb] at hz
              simp [hjo, hj64] at hz
              rw [hjid, hjdiv]
              exact contains_decomp (hjdiv ▸ hb) hj64 (hjdiv ▸ hz)
            · have hmaxw := hs4 (j / wordBits) hjd2 hjd
              have hmax : s.getWord (j / wordBits) = wordMax := by simpa using hmaxw
              rw [hjid]
              refine contains_decomp ?_ hj64 (testBit_of_wordMax hmax hj64)
              rw [BitSet.blockCount]
              omega
          · have hjo : j % wordBits < lsb (wordNot (s.getWord b2)) := by
              rw [wordBits_eq] at *; omega
            have hfalse := hmin _ hjo
            rw [testBit_wordNot hwlt2] at hfalse
            simp [hj64] at hfalse
            rw [hjid, hjd]
            exact contains_decomp (hjd ▸ (by rw [BitSet.blockCount]; omega)) hj64 hfalse
          · rw [wordBits_eq] at *
            omega

theorem firstUnsetGe_none {s : BitSet} (hWF : s.WF) {ge : Nat}
    (h : s.firstUnsetGe ge = none) :
    ∀ j, ge ≤ j → j < s.capacity → s.contains j = true := by
  rw [firstUnsetGe_unfold] at h
  have homod : ge % wordBits < wordBits := by rw [wordBits_eq]; omega
  intro j hj hjcap
  have hj64 : j % wordBits < wordBits := by rw [wordBits_eq]; omega
  have hjid : j = j / wordBits * wordBits + j % wordBits := by
    rw [wordBits_eq] at *; omega
  have hjb : j / wordBits < s.blockCount := by
    rw [BitSet.capacity, wordBits_eq] at hjcap
    rw [BitSet.blockCount, wordBits_eq]
    omega
  by_cases hb : ge / wordBits ≥ s.blockCount
  · exfalso
    rw [BitSet.capacity] at hjcap
    rw [BitSet.blockCount] at hb
    rw [wordBits_eq] at *
    omega
  · rw [if_neg hb] at h
    push_neg at hb
    have hwltb : s.getWord (ge / wordBits) < wordMod := getWord_lt hWF _
    by_cases hmask : (wordNot (s.getWord (ge / wordBits)) &&& BitSet.maskGe (ge % wordBits)) ≠ 0
    · simp [hmask] at h
    · rw [if_neg hmask] at h
      push_neg at hmask
      match hscan : s.firstUnsetBlockGe (ge / wordBits + 1) with
      | some b2 => rw [hscan] at h; cases h
      | none =>
        have hall := scanBlocks_none hscan
        rcases Nat.lt_or_ge (j / wordBits) (ge / wordBits + 1) with hjd | hjd
        · have hjdiv : j / wordBits = ge / wordBits := by rw [wordBits_eq] at *; omega
          have hjo : ge % wordBits ≤ j % wordBits := by rw [wordBits_eq] at *; omega
          have hz : (wordNot (s.getWord (ge / wordBits)) &&& BitSet.maskGe (ge % wordBits)).testBit (j % wordBits) = false := by
            rw [hmask]
            exact Nat.zero_testBit _
          rw [Nat.testBit_land, testBit_maskGe homod, testBit_wordNot hwltb] at hz
          simp [hjo, hj64] at hz
          rw [hjid, hjdiv]
          exact contains_decomp (hjdiv ▸ hb) hj64 (hjdiv ▸ hz)
        · have hmaxw := hall (j / wordBits) hjd (by rw [BitSet.blockCount] at hjb; omega)
          have hmax : s.getWord (j / wordBits) = wordMax := by simpa using hmaxw
          rw [hjid]
          exact contains_decomp hjb hj64 (testBit_of_wordMax hmax hj64)

theorem firstUnsetGe_none_of_ge_capacity {s : BitSet} {ge : Nat}
    (h : s.capacity ≤ ge) : s.firstUnsetGe ge = none := by
  rw [firstUnsetGe_unfold]
  rw [if_pos ?_]
  rw [BitSet.capacity, wordBits_eq] at h
  rw [BitSet.blockCount, wordBits_eq]
  omega

/-- C10.  For the flat word-array bitset, `first_unset_ge(i)` returns `none`
whenever `i` is at or beyond `capacity()` (and `first_unset()` returns `none`
on a freshly created bitset of capacity 0), rather than the minimum of the
set's infinite integer complement; within capacity it returns the smallest
unset index ≥ `i` when one exists below capacity, and `none` when every index
from `i` up to capacity is set. -/
theorem C10_first_unset_ge (s : BitSet) (hWF : s.WF) (i : Nat) :
    (s.capacity ≤ i → s.firstUnsetGe i = none)
    ∧ BitSet.create.firstUnset = none
    ∧ (∀ r, s.firstUnsetGe i = some r →
        i ≤ r ∧ r < s.capacity ∧ s.contains r = false ∧
          ∀ j, i ≤ j → j < r → s.contains j = true)
    ∧ (s.firstUnsetGe i = none → ∀ j, i ≤ j → j < s.capacity → s.contains j = true) := by
  refine ⟨fun h => firstUnsetGe_none_of_ge_capacity h, by decide,
    fun r h => firstUnsetGe_some hWF h, fun h => firstUnsetGe_none hWF h⟩

/-! ## Intersection iterator lemmas (for C9) -/

theorem mem_wordsBits {ws : List Nat} {base i : Nat} :
    i ∈ BitSet.wordsBits base ws ↔
      (base * wordBits ≤ i ∧ i < (base + ws.length) * wordBits ∧
        (ws.getD (i / wordBits - base) 0).testBit (i % wordBits) = true) := by
  induction ws generalizing base with
  | nil =>
    simp only [BitSet.wordsBits, List.not_mem_nil, false_iff, List.length_nil]
    rw [wordBits_eq]
    omega
  | cons w rest ih =>
    simp only [BitSet.wordsBits, List.mem_append, List.mem_map]
    constructor
    · rintro (⟨o, ho, rfl⟩ | hrec)
      · obtain ⟨hbit, ho64⟩ := wordOnes_mem.mp ho
        have h1 : (base * wordBits + o) / wordBits = base := by rw [wordBits_eq] at *; omega
        have h2 : (base * wordBits + o) % wordBits = o := by rw [wordBits_eq] at *; omega
        rw [h1, h2]
        simp only [Nat.sub_self, List.getD_cons_zero]
        refine ⟨by omega, by rw [wordBits_eq] at *; simp; omega, hbit⟩
      · obtain ⟨h1, h2, h3⟩ := ih.mp hrec
        have hge : base * wordBits ≤ i := by rw [wordBits_eq] at *; omega
        have hd : 1 ≤ i / wordBits - base := by rw [wordBits_eq] at *; omega
        refine ⟨hge, by rw [wordBits_eq] at *; simp at *; omega, ?_⟩
        have : i / wordBits - base = (i / wordBits - (base + 1)) + 1 := by
          rw [wordBits_eq] at *; omega
        rw [this, List.getD_cons_succ]
        exact h3
    · rintro ⟨h1, h2, h3⟩
      by_cases hblock : i / wordBits = base
      · left
        refine ⟨i % wordBits, ?_, ?_⟩
        · rw [wordOnes_mem]
          rw [hblock, Nat.sub_self, List.getD_cons_zero] at h3
          exact ⟨h3, by rw [wordBits_eq]; omega⟩
        · rw [wordBits_eq] at *; omega
      · right
        rw [ih]
        have hgt : base < i / wordBits := by rw [wordBits_eq] at *; omega
        refine ⟨by rw [wordBits_eq] at *; omega, by rw [wordBits_eq] at *; simp at *; omega, ?_⟩
        have : i / wordBits - base = (i / wordBits - (base + 1)) + 1 := by omega
        rw [this, List.getD_cons_succ] at h3
        exact h3

theorem wordsBits_lt {ws : List Nat} {base i : Nat}
    (h : i ∈ BitSet.wordsBits base ws) :
    base * wordBits ≤ i ∧ i < (base + ws.length) * wordBits :=
  ⟨(mem_wordsBits.mp h).1, (mem_wordsBits.mp h).2.1⟩

theorem wordsBits_sorted (ws : List Nat) (base : Nat) :
    (BitSet.wordsBits base ws).Sorted (· < ·) := by
  induction ws generalizing base with
  | nil => exact List.sorted_nil
  | cons w rest ih =>
    rw [BitSet.wordsBits]
    refine List.pairwise_append.mpr ⟨?_, ih (base + 1), ?_⟩
    · exact List.Pairwise.map _ (fun a b hab => by omega) (wordOnes_sorted w)
    · intro x hx y hy
      obtain ⟨o, ho, rfl⟩ := List.mem_map.mp hx
      have ho64 : o < wordBits := (wordOnes_mem.mp ho).2
      have := (wordsBits_lt hy).1
      rw [wordBits_eq] at *
      omega

theorem sorted_head?_some {l : List Nat} (hs : l.Sorted (· < ·)) {r : Nat}
    (h : l.head? = some r) : r ∈ l ∧ ∀ j ∈ l, r ≤ j := by
  match l, h with
  | x :: rest, h =>
    have hx : x = r := by simpa using h
    subst hx
    refine ⟨List.mem_cons_self _ _, ?_⟩
    intro j hj
    rcases List.mem_cons.mp hj with rfl | hj
    · exact le_refl _
    · exact le_of_lt (List.rel_of_sorted_cons hs j hj)

theorem head?_none_iff {l : List Nat} : l.head? = none ↔ l = [] := by
  cases l <;> simp

theorem testBit_cutMask {ntz : Nat} (h : ntz < wordBits) (o : Nat) :
    (BitSet.cutMask ntz).testBit o = (decide (ntz ≤ o) && decide (o < wordBits)) := by
  rw [BitSet.cutMask]
  rw [if_neg (by omega)]
  by_cases h63 : ntz = wordBits - 1
  · have h63x : ntz = 63 := by rw [wordBits_eq] at h63; omega
    rw [if_pos h63, Nat.shiftLeft_eq, one_mul, Nat.testBit_two_pow, h63x, wordBits_eq]
    rcases Nat.lt_trichotomy o 63 with ho | ho | ho
    · rw [decide_eq_false (show ¬ (63 = o) by omega),
        decide_eq_false (show ¬ 63 ≤ o by omega)]
      simp
    · subst ho
      simp
    · rw [decide_eq_false (show ¬ (63 = o) by omega),
        decide_eq_false (show ¬ o < 64 by omega)]
      simp
  · rw [if_neg h63, wordNot, Nat.shiftLeft_eq, one_mul, Nat.testBit_xor,
      Nat.testBit_two_pow_sub_one, Nat.testBit_two_pow_sub_one, wordBits_eq]
    rw [wordBits_eq] at h h63
    rcases Nat.lt_or_ge o ntz with ho | ho
    · rw [decide_eq_true (show o < 64 by omega), decide_eq_true ho,
        decide_eq_false (show ¬ ntz ≤ o by omega)]
      simp
    · rw [decide_eq_false (show ¬ o < ntz by omega), decide_eq_true (show ntz ≤ o by omega)]
      cases hdec : decide (o < 64) <;> simp

theorem iterIntersectionGe_unfold (a b : BitSet) (ge : Nat) :
    a.iterIntersectionGe b ge =
      (if ge / wordBits < min a.blockCount b.blockCount then
        BitSet.wordsBits (ge / wordBits)
          [a.getWord (ge / wordBits) &&& b.getWord (ge / wordBits)
            &&& BitSet.cutMask (ge % wordBits)]
      else [])
      ++ BitSet.wordsBits (ge / wordBits + 1)
          (((List.range (min a.blockCount b.blockCount)).drop (ge / wordBits + 1)).map
            fun k => a.getWord k &&& b.getWord k) := rfl

theorem length_range_drop_map {f : Nat → Nat} {mn st : Nat} :
    ((((List.range mn).drop st).map f)).length = mn - st := by
  rw [List.length_map, List.length_drop, List.length_range]

theorem getD_range_drop_map {f : Nat → Nat} {mn st k : Nat} (h : k < mn - st) :
    (((List.range mn).drop st).map f).getD k 0 = f (st + k) := by
  rw [List.getD_eq_getElem?_getD, List.getElem?_map, List.getElem?_drop,
    List.getElem?_range (by omega)]
  rfl

theorem mem_iterIntersectionGe {a b : BitSet} (hWFa : a.WF) (hWFb : b.WF)
    {ge i : Nat} :
    i ∈ a.iterIntersectionGe b ge ↔
      (ge ≤ i ∧ a.contains i = true ∧ b.contains i = true) := by
  rw [iterIntersectionGe_unfold, List.mem_append]
  have homod : ge % wordBits < wordBits := by rw [wordBits_eq]; omega
  constructor
  · rintro (hA | hB)
    · by_cases hfb : ge / wordBits < min a.blockCount b.blockCount
      · rw [if_pos hfb] at hA
        obtain ⟨h1, h2, h3⟩ := mem_wordsBits.mp hA
        simp only [List.length_cons, List.length_nil] at h2
        have hdiv : i / wordBits = ge / wordBits := by rw [wordBits_eq] at *; omega
        rw [hdiv, Nat.sub_self, List.getD_cons_zero, Nat.testBit_land, Nat.testBit_land,
          testBit_cutMask homod] at h3
        have hbits := h3
        simp only [Bool.and_eq_true, decide_eq_true_eq] at hbits
        obtain ⟨⟨hwa, hwb⟩, hot, _⟩ := hbits
        refine ⟨by rw [wordBits_eq] at *; omega, ?_, ?_⟩
        · rw [contains_iff, hdiv]
          exact ⟨by omega, hwa⟩
        · rw [contains_iff, hdiv]
          exact ⟨by omega, hwb⟩
      · rw [if_neg hfb] at hA
        cases hA
    · obtain ⟨h1, h2, h3⟩ := mem_wordsBits.mp hB
      rw [length_range_drop_map] at h2
      have hin : i / wordBits - (ge / wordBits + 1)
          < min a.blockCount b.blockCount - (ge / wordBits + 1) := by
        rw [wordBits_eq] at *; omega
      rw [getD_range_drop_map hin, Nat.testBit_land] at h3
      have hdiv : ge / wordBits + 1 + (i / wordBits - (ge / wordBits + 1)) = i / wordBits := by
        rw [wordBits_eq] at *; omega
      rw [hdiv] at h3
      simp only [Bool.and_eq_true] at h3
      obtain ⟨hwa, hwb⟩ := h3
      refine ⟨by rw [wordBits_eq] at *; omega, ?_, ?_⟩
      · rw [contains_iff]
        exact ⟨by rw [wordBits_eq] at *; omega, hwa⟩
      · rw [contains_iff]
        exact ⟨by rw [wordBits_eq] at *; omega, hwb⟩
  · rintro ⟨hge, hca, hcb⟩
    obtain ⟨hba, hwa⟩ := contains_iff.mp hca
    obtain ⟨hbb, hwb⟩ := contains_iff.mp hcb
    have hmn : i / wordBits < min a.blockCount b.blockCount := by omega
    have hfb : ge / wordBits ≤ i / wordBits := by rw [wordBits_eq] at *; omega
    rcases Nat.eq_or_lt_of_le hfb with hd | hd
    · left
      rw [if_pos (by omega)]
      rw [mem_wordsBits]
      simp only [List.length_cons, List.length_nil]
      refine ⟨by rw [wordBits_eq] at *; omega, by rw [wordBits_eq] at *; omega, ?_⟩
      rw [show i / wordBits - ge / wordBits = 0 by omega] at *
      rw [List.getD_cons_zero, Nat.testBit_land, Nat.testBit_land, testBit_cutMask homod]
      rw [← hd] at hwa hwb
      rw [hwa, hwb]
      simp only [Bool.true_and]
      rw [decide_eq_true (show ge % wordBits ≤ i % wordBits by rw [wordBits_eq] at *; omega),
        decide_eq_true (show i % wordBits < wordBits by rw [wordBits_eq]; omega)]
      rfl
    · right
      rw [mem_wordsBits]
      rw [length_range_drop_map]
      refine ⟨by rw [wordBits_eq] at *; omega, by rw [wordBits_eq] at *; omega, ?_⟩
      rw [getD_range_drop_map (by rw [wordBits_eq] at *; omega)]
      rw [show ge / wordBits + 1 + (i / wordBits - (ge / wordBits + 1)) = i / wordBits by
        rw [wordBits_eq] at *; omega]
      rw [Nat.testBit_land, hwa, hwb]
      rfl

theorem iterIntersectionGe_sorted (a b : BitSet) (ge : Nat) :
    (a.iterIntersectionGe b ge).Sorted (· < ·) := by
  rw [iterIntersectionGe_unfold]
  refine List.pairwise_append.mpr ⟨?_, wordsBits_sorted _ _, ?_⟩
  · by_cases hfb : ge / wordBits < min a.blockCount b.blockCount
    · rw [if_pos hfb]
      exact wordsBits_sorted _ _
    · rw [if_neg hfb]
      exact List.sorted_nil
  · intro x hx y hy
    by_cases hfb : ge / wordBits < min a.blockCount b.blockCount
    · rw [if_pos hfb] at hx
      have h1 := (wordsBits_lt hx).2
      have h2 := (wordsBits_lt hy).1
      simp only [List.length_cons, List.length_nil] at h1
      rw [wordBits_eq] at *
      omega
    · rw [if_neg hfb] at hx
      cases hx

theorem contains_lt_capacity {s : BitSet} {i : Nat} (h : s.contains i = true) :
    i < s.capacity := by
  rw [BitSet.contains] at h
  by_cases hc : i ≥ s.capacity
  · rw [if_pos hc] at h
    cases h
  · omega

theorem intersectFirstSetGe_some {a b : BitSet} (hWFa : a.WF) (hWFb : b.WF)
    {ge r : Nat} (h : a.intersectFirstSetGe b ge = some r) :
    ge ≤ r ∧ a.contains r = true ∧ b.contains r = true ∧
      ∀ j, ge ≤ j → j < r → ¬ (a.contains j = true ∧ b.contains j = true) := by
  rw [BitSet.intersectFirstSetGe] at h
  obtain ⟨hmem, hle⟩ := sorted_head?_some (iterIntersectionGe_sorted a b ge) h
  obtain ⟨h1, h2, h3⟩ := (mem_iterIntersectionGe hWFa hWFb).mp hmem
  refine ⟨h1, h2, h3, ?_⟩
  intro j hj1 hj2 ⟨hja, hjb⟩
  have : j ∈ a.iterIntersectionGe b ge :=
    (mem_iterIntersectionGe hWFa hWFb).mpr ⟨hj1, hja, hjb⟩
  have := hle j this
  omega

theorem intersectFirstSetGe_none {a b : BitSet} (hWFa : a.WF) (hWFb : b.WF)
    {ge : Nat} (h : a.intersectFirstSetGe b ge = none) :
    ∀ j, ge ≤ j → ¬ (a.contains j = true ∧ b.contains j = true) := by
  rw [BitSet.intersectFirstSetGe] at h
  intro j hj ⟨hja, hjb⟩
  have : j ∈ a.iterIntersectionGe b ge :=
    (mem_iterIntersectionGe hWFa hWFb).mpr ⟨hj, hja, hjb⟩
  rw [head?_none_iff.mp h] at this
  cases this

/-! ## The tree-based default method (for C9) -/

theorem bt_contains_iff {s : BTreeBitSet} {j : Nat} :
    s.contains j = true ↔ j ∈ s.elems := by
  simp [BTreeBitSet.contains]

theorem btFirstSetGe_some' {s : BTreeBitSet} {ge r : Nat}
    (h : s.firstSetGe ge = some r) :
    r ∈ s.elems ∧ ge ≤ r ∧ ∀ j ∈ s.elems, ge ≤ j → r ≤ j := by
  rw [BTreeBitSet.firstSetGe] at h
  rw [List.min?_eq_some_iff'] at h
  obtain ⟨hmem, hle⟩ := h
  rw [List.mem_filter] at hmem
  refine ⟨hmem.1, by simpa using hmem.2, ?_⟩
  intro j hj hgej
  exact hle j (List.mem_filter.mpr ⟨hj, by simpa using hgej⟩)

theorem btFirstSetGe_none' {s : BTreeBitSet} {ge : Nat}
    (h : s.firstSetGe ge = none) :
    ∀ j ∈ s.elems, ¬ ge ≤ j := by
  rw [BTreeBitSet.firstSetGe] at h
  rw [List.min?_eq_none_iff] at h
  intro j hj hge
  have : j ∈ (s.elems.filter fun x => ge ≤ x) :=
    List.mem_filter.mpr ⟨hj, by simpa using hge⟩
  rw [h] at this
  cases this

theorem le_foldr_max {l : List Nat} {j : Nat} (h : j ∈ l) : j ≤ l.foldr max 0 := by
  induction l with
  | nil => cases h
  | cons a l ih =>
    rw [List.foldr_cons]
    rcases List.mem_cons.mp h with h | h
    · subst h
      exact Nat.le_max_left ..
    · exact le_trans (ih h) (Nat.le_max_right ..)

theorem btIfsgAux_spec (s t : BTreeBitSet) :
    ∀ fuel ge, s.elems.foldr max 0 + t.elems.foldr max 0 + 2 ≤ fuel + ge →
      (∀ r, btIfsgAux s t fuel ge = some r →
        ge ≤ r ∧ r ∈ s.elems ∧ r ∈ t.elems ∧
          ∀ j, ge ≤ j → j < r → ¬ (j ∈ s.elems ∧ j ∈ t.elems)) ∧
      (btIfsgAux s t fuel ge = none →
        ∀ j, ge ≤ j → ¬ (j ∈ s.elems ∧ j ∈ t.elems)) := by
  intro fuel
  induction fuel with
  | zero =>
    intro ge hge
    constructor
    · intro r h
      cases h
    · intro _ j hj ⟨hjs, _⟩
      have := le_foldr_max hjs
      omega
  | succ n ih =>
    intro ge hge
    simp only [btIfsgAux]
    match hs : s.firstSetGe ge, ht : t.firstSetGe ge with
    | some a, some b =>
      obtain ⟨has, hgea, hamin⟩ := btFirstSetGe_some' hs
      obtain ⟨hbt, hgeb, hbmin⟩ := btFirstSetGe_some' ht
      dsimp only
      by_cases hab : a = b
      · subst hab
        simp only [if_pos rfl]
        constructor
        · intro r h
          have hr : a = r := Option.some.inj h
          subst hr
          refine ⟨hgea, has, hbt, ?_⟩
          intro j hj1 hj2 ⟨hjs, _⟩
          have := hamin j hjs hj1
          omega
        · intro h
          cases h
      · rw [if_neg hab]
        by_cases hlt : a < b
        · rw [if_pos hlt]
          have hrec := ih b (by omega)
          have htrans : ∀ j, ge ≤ j → j < b → ¬ (j ∈ s.elems ∧ j ∈ t.elems) := by
            intro j hj1 hj2 ⟨_, hjt⟩
            have := hbmin j hjt hj1
            omega
          constructor
          · intro r h
            obtain ⟨h1, h2, h3, h4⟩ := hrec.1 r h
            refine ⟨by omega, h2, h3, ?_⟩
            intro j hj1 hj2
            by_cases hjb : j < b
            · exact htrans j hj1 hjb
            · exact h4 j (by omega) hj2
          · intro h j hj1
            by_cases hjb : j < b
            · exact htrans j hj1 hjb
            · exact hrec.2 h j (by omega)
        · rw [if_neg hlt]
          have hba : b < a := by omega
          have hrec := ih a (by omega)
          have htrans : ∀ j, ge ≤ j → j < a → ¬ (j ∈ s.elems ∧ j ∈ t.elems) := by
            intro j hj1 hj2 ⟨hjs, _⟩
            have := hamin j hjs hj1
            omega
          constructor
          · intro r h
            obtain ⟨h1, h2, h3, h4⟩ := hrec.1 r h
            refine ⟨by omega, h2, h3, ?_⟩
            intro j hj1 hj2
            by_cases hja : j < a
            · exact htrans j hj1 hja
            · exact h4 j (by omega) hj2
          · intro h j hj1
            by_cases hja : j < a
            · exact htrans j hj1 hja
            · exact hrec.2 h j (by omega)
    | some a, none =>
      constructor
      · intro r h
        cases h
      · intro _ j hj ⟨_, hjt⟩
        exact btFirstSetGe_none' ht j hjt hj
    | none, some b =>
      constructor
      · intro r h
        cases h
      · intro _ j hj ⟨hjs, _⟩
        exact btFirstSetGe_none' hs j hjs hj
    | none, none =>
      constructor
      · intro r h
        cases h
      · intro _ j hj ⟨hjs, _⟩
        exact btFirstSetGe_none' hs j hjs hj

theorem btIntersectFirstSetGe_some {s t : BTreeBitSet} {ge r : Nat}
    (h : btIntersectFirstSetGe s t ge = some r) :
    ge ≤ r ∧ r ∈ s.elems ∧ r ∈ t.elems ∧
      ∀ j, ge ≤ j → j < r → ¬ (j ∈ s.elems ∧ j ∈ t.elems) :=
  (btIfsgAux_spec s t _ ge (by omega)).1 r h

theorem btIntersectFirstSetGe_none {s t : BTreeBitSet} {ge : Nat}
    (h : btIntersectFirstSetGe s t ge = none) :
    ∀ j, ge ≤ j → ¬ (j ∈ s.elems ∧ j ∈ t.elems) :=
  (btIfsgAux_spec s t _ ge (by omega)).2 h

/-! ## The naive reference (for C9) -/

theorem naiveFirstCommonGe_some {mem1 mem2 : Nat → Bool} {bound k r : Nat}
    (h : naiveFirstCommonGe mem1 mem2 bound k = some r) :
    k ≤ r ∧ mem1 r = true ∧ mem2 r = true ∧
      ∀ j, k ≤ j → j < r → ¬ (mem1 j = true ∧ mem2 j = true) := by
  rw [naiveFirstCommonGe, filter_range_head] at h
  obtain ⟨_, hlt, hp, hmin⟩ := firstIdx_some h
  simp only [Bool.and_eq_true, decide_eq_true_eq] at hp
  refine ⟨hp.1.1, hp.1.2, hp.2, ?_⟩
  intro j hj1 hj2 ⟨hja, hjb⟩
  have := hmin j (Nat.zero_le j) hj2
  simp only [Bool.and_eq_true, decide_eq_true_eq] at this
  rw [hja, hjb] at this
  simp [hj1] at this

theorem naiveFirstCommonGe_none {mem1 mem2 : Nat → Bool} {bound k : Nat}
    (hbound : ∀ j, mem1 j = true → j < bound)
    (h : naiveFirstCommonGe mem1 mem2 bound k = none) :
    ∀ j, k ≤ j → ¬ (mem1 j = true ∧ mem2 j = true) := by
  rw [naiveFirstCommonGe, filter_range_head] at h
  intro j hj ⟨hja, hjb⟩
  have hjb2 : j < bound := hbound j hja
  have := firstIdx_none h j (Nat.zero_le j) (by omega)
  simp only [Bool.and_eq_true, decide_eq_true_eq] at this
  rw [hja, hjb] at this
  simp [hj] at this

theorem least_option_unique {o1 o2 : Option Nat} {P : Nat → Prop}
    (h1s : ∀ r, o1 = some r → P r ∧ ∀ j < r, ¬ P j)
    (h1n : o1 = none → ∀ j, ¬ P j)
    (h2s : ∀ r, o2 = some r → P r ∧ ∀ j < r, ¬ P j)
    (h2n : o2 = none → ∀ j, ¬ P j) : o1 = o2 := by
  match ho1 : o1, ho2 : o2 with
  | none, none => rfl
  | none, some r2 =>
    exact absurd (h2s r2 rfl).1 (h1n rfl r2)
  | some r1, none =>
    exact absurd (h1s r1 rfl).1 (h2n rfl r1)
  | some r1, some r2 =>
    obtain ⟨hp1, hm1⟩ := h1s r1 rfl
    obtain ⟨hp2, hm2⟩ := h2s r2 rfl
    congr 1
    rcases Nat.lt_trichotomy r1 r2 with h | h | h
    · exact absurd hp1 (hm2 r1 h)
    · exact h
    · exact absurd hp2 (hm1 r2 h)

/-- C9: for both the flat word-array implementation
(`BitSet::intersect_first_set_ge`, built on `iter_intersection_ge`) and the
trait-default implementation the tree-based `BTreeBitSet` inherits,
`intersect_first_set_ge(a, b, k)` returns the smallest `i ≥ k` with
`a.contains(i) && b.contains(i)`, `none` when no such `i` exists, and equals
the naive reference definition (scan of all indices below a bound covering
every set bit). -/
theorem C9_intersect_first_set_ge
    (a b : BitSet) (hWFa : a.WF) (hWFb : b.WF) (s t : BTreeBitSet) (k : Nat) :
    (∀ r, a.intersectFirstSetGe b k = some r →
        k ≤ r ∧ a.contains r = true ∧ b.contains r = true ∧
          ∀ j, k ≤ j → j < r → ¬ (a.contains j = true ∧ b.contains j = true)) ∧
    (a.intersectFirstSetGe b k = none →
        ∀ j, k ≤ j → ¬ (a.contains j = true ∧ b.contains j = true)) ∧
    a.intersectFirstSetGe b k = naiveFirstCommonGe a.contains b.contains a.capacity k ∧
    (∀ r, btIntersectFirstSetGe s t k = some r →
        k ≤ r ∧ s.contains r = true ∧ t.contains r = true ∧
          ∀ j, k ≤ j → j < r → ¬ (s.contains j = true ∧ t.contains j = true)) ∧
    (btIntersectFirstSetGe s t k = none →
        ∀ j, k ≤ j → ¬ (s.contains j = true ∧ t.contains j = true)) ∧
    btIntersectFirstSetGe s t k =
      naiveFirstCommonGe s.contains t.contains (s.elems.foldr max 0 + 1) k := by
  refine ⟨?_, ?_, ?_, ?_, ?_, ?_⟩
  · intro r h
    exact intersectFirstSetGe_some hWFa hWFb h
  · intro h
    exact intersectFirstSetGe_none hWFa hWFb h
  · apply least_option_unique
      (P := fun j => k ≤ j ∧ a.contains j = true ∧ b.contains j = true)
    · intro r h
      obtain ⟨h1, h2, h3, h4⟩ := intersectFirstSetGe_some hWFa hWFb h
      exact ⟨⟨h1, h2, h3⟩, fun j hj ⟨hj1, hj2, hj3⟩ => h4 j hj1 hj ⟨hj2, hj3⟩⟩
    · intro h j ⟨hj1, hj2, hj3⟩
      exact intersectFirstSetGe_none hWFa hWFb h j hj1 ⟨hj2, hj3⟩
    · intro r h
      obtain ⟨h1, h2, h3, h4⟩ := naiveFirstCommonGe_some h
      exact ⟨⟨h1, h2, h3⟩, fun j hj ⟨hj1, hj2, hj3⟩ => h4 j hj1 hj ⟨hj2, hj3⟩⟩
    · intro h j ⟨hj1, hj2, hj3⟩
      exact naiveFirstCommonGe_none (fun _ hc => contains_lt_capacity hc) h j hj1 ⟨hj2, hj3⟩
  · intro r h
    obtain ⟨h1, h2, h3, h4⟩ := btIntersectFirstSetGe_some h
    refine ⟨h1, bt_contains_iff.mpr h2, bt_contains_iff.mpr h3, ?_⟩
    intro j hj1 hj2 ⟨hja, hjb⟩
    exact h4 j hj1 hj2 ⟨bt_contains_iff.mp hja, bt_contains_iff.mp hjb⟩
  · intro h j hj ⟨hja, hjb⟩
    exact btIntersectFirstSetGe_none h j hj ⟨bt_contains_iff.mp hja, bt_contains_iff.mp hjb⟩
  · apply least_option_unique
      (P := fun j => k ≤ j ∧ s.contains j = true ∧ t.contains j = true)
    · intro r h
      obtain ⟨h1, h2, h3, h4⟩ := btIntersectFirstSetGe_some h
      refine ⟨⟨h1, bt_contains_iff.mpr h2, bt_contains_iff.mpr h3⟩, ?_⟩
      intro j hj ⟨hj1, hj2, hj3⟩
      exact h4 j hj1 hj ⟨bt_contains_iff.mp hj2, bt_contains_iff.mp hj3⟩
    · intro h j ⟨hj1, hj2, hj3⟩
      exact btIntersectFirstSetGe_none h j hj1
        ⟨bt_contains_iff.mp hj2, bt_contains_iff.mp hj3⟩
    · intro r h
      obtain ⟨h1, h2, h3, h4⟩ := naiveFirstCommonGe_some h
      exact ⟨⟨h1, h2, h3⟩, fun j hj ⟨hj1, hj2, hj3⟩ => h4 j hj1 hj ⟨hj2, hj3⟩⟩
    · intro h j ⟨hj1, hj2, hj3⟩
      have hb : ∀ x, s.contains x = true → x < s.elems.foldr max 0 + 1 := by
        intro x hx
        have := le_foldr_max (bt_contains_iff.mp hx)
        omega
      exact naiveFirstCommonGe_none hb h j hj1 ⟨hj2, hj3⟩

/-- Witness for C9 at concrete bitsets: flat sets {3, 5, 9} and {5, 70}
agree with the naive reference from 4 on, and the tree-based sets {2, 7}
and {7, 8} do as well. -/
theorem C9_intersect_first_set_ge_witness :
    ((BitSet.create.set 3).set 5 |>.set 9).WF ∧
    ((BitSet.create.set 5).set 70).WF ∧
    (((BitSet.create.set 3).set 5 |>.set 9).intersectFirstSetGe
        ((BitSet.create.set 5).set 70) 4 =
      naiveFirstCommonGe ((BitSet.create.set 3).set 5 |>.set 9).contains
        ((BitSet.create.set 5).set 70).contains
        ((BitSet.create.set 3).set 5 |>.set 9).capacity 4) ∧
    (btIntersectFirstSetGe ⟨[2, 7]⟩ ⟨[7, 8]⟩ 4 =
      naiveFirstCommonGe (BTreeBitSet.contains ⟨[2, 7]⟩)
        (BTreeBitSet.contains ⟨[7, 8]⟩) ([2, 7].foldr max 0 + 1) 4) :=
  ⟨by decide, by decide,
    (C9_intersect_first_set_ge ((BitSet.create.set 3).set 5 |>.set 9)
        ((BitSet.create.set 5).set 70) (by decide) (by decide)
        ⟨[2, 7]⟩ ⟨[7, 8]⟩ 4).2.2.1,
    (C9_intersect_first_set_ge ((BitSet.create.set 3).set 5 |>.set 9)
        ((BitSet.create.set 5).set 70) (by decide) (by decide)
        ⟨[2, 7]⟩ ⟨[7, 8]⟩ 4).2.2.2.2.2⟩

/-- Witness for C10 at a concrete bitset: `create.set 5` has capacity 64,
index 70 is beyond it, and the first unset index ≥ 0 is 0. -/
theorem C10_first_unset_ge_witness :
    (((BitSet.create.set 5).capacity ≤ 70 → (BitSet.create.set 5).firstUnsetGe 70 = none)
    ∧ BitSet.create.firstUnset = none
    ∧ (∀ r, (BitSet.create.set 5).firstUnsetGe 70 = some r →
        70 ≤ r ∧ r < (BitSet.create.set 5).capacity ∧ (BitSet.create.set 5).contains r = false ∧
          ∀ j, 70 ≤ j → j < r → (BitSet.create.set 5).contains j = true)
    ∧ ((BitSet.create.set 5).firstUnsetGe 70 = none →
        ∀ j, 70 ≤ j → j < (BitSet.create.set 5).capacity →
          (BitSet.create.set 5).contains j = true)) :=
  C10_first_unset_ge (BitSet.create.set 5) (by decide) 70

/-- C2 (refutation): ingest does NOT reject tautological clauses.
`Formula::new` stores a clause as two bitsets keyed by variable
(`variables`, `negatives`); for the clause `[1, -1]` both occurrences set
the same `variables` bit and the `-1` occurrence sets the `negatives` bit,
so the tautology collapses to the unit clause `{¬1}`, which occupies a
clause slot and constrains the result: on the satisfiable formula
`[[1, -1], [1]]` (satisfied by setting variable 1 true, as the second
conjunct shows) the solver answers `Unsat`. -/
theorem C2_tautological_clause_constrains_solve :
    solve 10 [[1, -1], [1]] = some SatResult.unsat ∧
      ([[1, -1], [1]] : List (List Int)).all
        (intClauseSatisfied fun _ => true) = true := by
  constructor
  · decide
  · decide

/-! ## Bitset mutation lemmas (for C3) -/

theorem WF_create : BitSet.create.WF := by
  intro w hw
  cases hw

theorem WF_grow {s : BitSet} (h : s.WF) (n : Nat) : (s.grow n).WF := by
  intro w hw
  rw [BitSet.grow] at hw
  by_cases hc : (n + wordBits - 1) / wordBits > s.words.length
  · rw [if_pos hc] at hw
    rcases List.mem_append.mp hw with hw | hw
    · exact h w hw
    · rw [List.eq_of_mem_replicate hw]
      exact Nat.pos_pow_of_pos 64 (by omega)
  · rw [if_neg hc] at hw
    exact h w hw

theorem WF_setWord {s : BitSet} (h : s.WF) {i w : Nat} (hw : w < wordMod) :
    (s.setWord i w).WF := by
  intro x hx
  rw [BitSet.setWord] at hx
  rcases List.mem_or_eq_of_mem_set hx with hx | rfl
  · exact h x hx
  · exact hw

theorem shiftLeft_one_lt {o : Nat} (h : o < wordBits) : 1 <<< o < wordMod := by
  rw [Nat.shiftLeft_eq, one_mul]
  exact Nat.pow_lt_pow_right (by norm_num) (by rw [wordBits_eq] at h; omega)

theorem WF_set {s : BitSet} (h : s.WF) (i : Nat) : (s.set i).WF := by
  rw [BitSet.set]
  apply WF_setWord (WF_grow h _)
  apply Nat.or_lt_two_pow
  · exact getWord_lt (WF_grow h _) _
  · exact shiftLeft_one_lt (by rw [wordBits_eq]; omega)

theorem contains_create (j : Nat) : BitSet.create.contains j = false := by
  rw [BitSet.contains, if_pos]
  exact Nat.zero_le j

theorem getWord_grow (s : BitSet) (n b : Nat) : (s.grow n).getWord b = s.getWord b := by
  rw [BitSet.grow]
  by_cases hc : (n + wordBits - 1) / wordBits > s.words.length
  · rw [if_pos hc]
    rw [BitSet.getWord, BitSet.getWord]
    dsimp only
    by_cases hb : b < s.words.length
    · rw [List.getD_eq_getElem?_getD, List.getD_eq_getElem?_getD]
      rw [List.getElem?_append, if_pos hb]
    · push_neg at hb
      rw [List.getD_eq_default _ _ hb]
      rw [List.getD_eq_getElem?_getD]
      rcases lt_or_ge b (s.words.length + ((n + wordBits - 1) / wordBits - s.words.length))
        with hlt | hge
      · rw [List.getElem?_append_right hb]
        rw [List.getElem?_replicate]
        rw [if_pos (by omega)]
        rfl
      · rw [List.getElem?_eq_none (by
          simp only [List.length_append, List.length_replicate]
          omega)]
        rfl
  · rw [if_neg hc]

theorem blockCount_grow (s : BitSet) (n : Nat) :
    (s.grow n).blockCount = max ((n + wordBits - 1) / wordBits) s.blockCount := by
  rw [BitSet.grow, BitSet.blockCount, BitSet.blockCount]
  by_cases hc : (n + wordBits - 1) / wordBits > s.words.length
  · rw [if_pos hc]
    simp only [List.length_append, List.length_replicate]
    omega
  · rw [if_neg hc]
    omega

theorem blockCount_setWord (s : BitSet) (i w : Nat) :
    (s.setWord i w).blockCount = s.blockCount := by
  rw [BitSet.setWord, BitSet.blockCount, BitSet.blockCount, List.length_set]

theorem getD_set_self {α : Type} {l : List α} {i : Nat} (h : i < l.length) (x d : α) :
    (l.set i x).getD i d = x := by
  rw [List.getD_eq_getElem?_getD, List.getElem?_set, if_pos rfl, if_pos h]
  rfl

theorem getD_set_ne {α : Type} {l : List α} {i j : Nat} (h : i ≠ j) (x d : α) :
    (l.set i x).getD j d = l.getD j d := by
  rw [List.getD_eq_getElem?_getD, List.getElem?_set, if_neg h, ← List.getD_eq_getElem?_getD]

theorem getWord_setWord_self {s : BitSet} {i : Nat} (h : i < s.blockCount) (w : Nat) :
    (s.setWord i w).getWord i = w := by
  rw [BitSet.setWord, BitSet.getWord]
  exact getD_set_self h w 0

theorem getWord_setWord_ne (s : BitSet) {i j : Nat} (h : i ≠ j) (w : Nat) :
    (s.setWord i w).getWord j = s.getWord j := by
  rw [BitSet.setWord, BitSet.getWord, BitSet.getWord]
  exact getD_set_ne h w 0

theorem blockCount_set (s : BitSet) (i : Nat) :
    (s.set i).blockCount = max (i / wordBits + 1) s.blockCount := by
  rw [BitSet.set, blockCount_setWord, blockCount_grow]
  rw [wordBits_eq]
  congr 1
  omega

theorem contains_set (s : BitSet) (i j : Nat) :
    (s.set i).contains j = (decide (j = i) || s.contains j) := by
  have hbc : (s.set i).blockCount = max (i / wordBits + 1) s.blockCount :=
    blockCount_set s i
  by_cases hj : j = i
  · subst hj
    rw [decide_eq_true rfl, Bool.true_or]
    refine contains_iff.mpr ⟨by rw [hbc]; omega, ?_⟩
    rw [BitSet.set, getWord_setWord_self (by
      rw [blockCount_grow]
      rw [wordBits_eq]
      have : (j + 1 + 64 - 1) / 64 = j / 64 + 1 := by omega
      omega)]
    rw [Nat.testBit_or]
    have : (1 <<< (j % wordBits)).testBit (j % wordBits) = true := by
      rw [Nat.shiftLeft_eq, one_mul, Nat.testBit_two_pow]
      exact decide_eq_true rfl
    rw [this, Bool.or_true]
  · rw [decide_eq_false hj, Bool.false_or]
    have homod : j % wordBits < wordBits := by rw [wordBits_eq]; omega
    have hkey : ((s.set i).getWord (j / wordBits)).testBit (j % wordBits)
        = (s.getWord (j / wordBits)).testBit (j % wordBits) := by
      rw [BitSet.set]
      by_cases hblk : i / wordBits = j / wordBits
      · rw [hblk, getWord_setWord_self (by
          rw [blockCount_grow]
          rw [wordBits_eq] at hblk ⊢
          omega)]
        rw [getWord_grow, Nat.testBit_or]
        have hmod : i % wordBits ≠ j % wordBits := by
          rw [wordBits_eq] at *
          omega
        have : (1 <<< (i % wordBits)).testBit (j % wordBits) = false := by
          rw [Nat.shiftLeft_eq, one_mul, Nat.testBit_two_pow]
          exact decide_eq_false hmod
        rw [this, Bool.or_false]
      · rw [getWord_setWord_ne _ hblk, getWord_grow]
    cases hold : s.contains j
    · rw [Bool.eq_false_iff]
      intro hnew
      obtain ⟨h1, h2⟩ := contains_iff.mp hnew
      rw [hkey] at h2
      by_cases hj64 : j / wordBits < s.blockCount
      · rw [contains_iff.mpr ⟨hj64, h2⟩] at hold
        cases hold
      · rw [BitSet.getWord, List.getD_eq_default _ _ (by
          rw [BitSet.blockCount] at hj64; omega)] at h2
        rw [Nat.zero_testBit] at h2
        cases h2
    · obtain ⟨h1, h2⟩ := contains_iff.mp hold
      refine contains_iff.mpr ⟨by omega, ?_⟩
      rw [hkey]
      exact h2

theorem mem_iterAux {s : BitSet} (hWF : s.WF) {i : Nat} :
    ∀ fuel after, s.capacity + 1 ≤ fuel + after →
      (i ∈ s.iterAux fuel after ↔ (after ≤ i ∧ s.contains i = true)) := by
  intro fuel
  induction fuel with
  | zero =>
    intro after h
    rw [BitSet.iterAux]
    constructor
    · intro hi
      cases hi
    · rintro ⟨h1, h2⟩
      have := contains_lt_capacity h2
      omega
  | succ n ih =>
    intro after h
    rw [BitSet.iterAux]
    cases hfs : s.firstSetGe after with
    | none =>
      constructor
      · intro hi
        cases hi
      · rintro ⟨h1, h2⟩
        rw [firstSetGe_none hWF hfs i h1] at h2
        cases h2
    | some r =>
      obtain ⟨hr1, hr2, hr3⟩ := firstSetGe_some hWF hfs
      have hrcap := contains_lt_capacity hr2
      rw [List.mem_cons, ih (r + 1) (by omega)]
      constructor
      · rintro (rfl | ⟨h1, h2⟩)
        · exact ⟨hr1, hr2⟩
        · exact ⟨by omega, h2⟩
      · rintro ⟨h1, h2⟩
        by_cases hir : i = r
        · exact Or.inl hir
        · right
          rcases lt_or_ge i r with hlt | hge
          · rw [hr3 i h1 hlt] at h2
            cases h2
          · exact ⟨by omega, h2⟩

theorem mem_toList {s : BitSet} (hWF : s.WF) {i : Nat} :
    i ∈ s.toList ↔ s.contains i = true := by
  rw [BitSet.toList, mem_iterAux hWF _ _ (by omega)]
  simp

theorem getD_range_map {f : Nat → Nat} {mn k : Nat} (h : k < mn) :
    ((List.range mn).map f).getD k 0 = f k := by
  rw [List.getD_eq_getElem?_getD, List.getElem?_map]
  rw [List.getElem?_range h]
  rfl

theorem mem_iterIntersection {a b : BitSet} {i : Nat} :
    i ∈ a.iterIntersection b ↔ (a.contains i = true ∧ b.contains i = true) := by
  rw [BitSet.iterIntersection, mem_wordsBits]
  simp only [List.length_map, List.length_range, Nat.zero_mul, Nat.zero_add,
    Nat.zero_le, true_and, Nat.sub_zero]
  constructor
  · rintro ⟨hlt, ht⟩
    have hmn : i / wordBits < min a.blockCount b.blockCount := by
      rw [wordBits_eq] at *
      omega
    rw [getD_range_map hmn, Nat.testBit_and, Bool.and_eq_true] at ht
    exact ⟨contains_iff.mpr ⟨by omega, ht.1⟩, contains_iff.mpr ⟨by omega, ht.2⟩⟩
  · rintro ⟨ha, hb⟩
    obtain ⟨ha1, ha2⟩ := contains_iff.mp ha
    obtain ⟨hb1, hb2⟩ := contains_iff.mp hb
    have hmn : i / wordBits < min a.blockCount b.blockCount := lt_min ha1 hb1
    refine ⟨?_, ?_⟩
    · rw [wordBits_eq] at *
      omega
    · rw [getD_range_map hmn, Nat.testBit_and, ha2, hb2]
      rfl

theorem iterIntersection_sorted (a b : BitSet) :
    (a.iterIntersection b).Sorted (· < ·) :=
  wordsBits_sorted _ _

theorem literal_new_var (v : Nat) (p : Bool) : (Literal.new v p).var = v := by
  cases p <;> simp [Literal.new, Literal.var]

theorem literal_new_ne {v w : Nat} (h : v ≠ w) (p q : Bool) :
    Literal.new v p ≠ Literal.new w q := by
  intro he
  exact h (by rw [← literal_new_var v p, he, literal_new_var])

theorem mem_iterLiterals {c : Clause} (hWF : c.vars.WF) {v : Nat} :
    c.vars.contains v = true →
      Literal.new v (! c.negatives.contains v) ∈ c.iterLiterals := by
  intro h
  rw [Clause.iterLiterals]
  exact List.mem_map.mpr ⟨v, (mem_toList hWF).mpr h, rfl⟩

theorem two_le_length_of_two_mem {α : Type} {l : List α} {a b : α}
    (ha : a ∈ l) (hb : b ∈ l) (hab : a ≠ b) : 2 ≤ l.length := by
  match l with
  | [] => cases ha
  | [x] =>
    rw [List.mem_singleton] at ha hb
    rw [ha, hb] at hab
    exact absurd rfl hab
  | x :: y :: rest =>
    simp only [List.length_cons]
    omega

/-! ## Watcher-map lemmas (for C3) -/

theorem containsKey_cons (a b k' : Nat) (m : WatchMap) :
    WatchMap.containsKey ((a, b) :: m) k' = (decide (k' = a) || m.containsKey k') := by
  rw [WatchMap.containsKey, WatchMap.get, List.find?]
  by_cases h : a = k'
  · subst h
    simp
  · have h2 : ((a, b).1 == k') = false := by
      simp only [beq_eq_false_iff_ne, ne_eq]
      exact h
    rw [h2]
    rw [decide_eq_false (fun he => h he.symm)]
    rfl

theorem containsKey_insert (m : WatchMap) (k v k' : Nat) :
    (m.insert k v).containsKey k' = (decide (k' = k) || m.containsKey k') := by
  induction m with
  | nil =>
    rw [WatchMap.insert, containsKey_cons]
  | cons p rest ih =>
    obtain ⟨k0, v0⟩ := p
    rw [WatchMap.insert]
    by_cases h1 : k < k0
    · rw [if_pos h1, containsKey_cons, containsKey_cons]
    · rw [if_neg h1]
      by_cases h2 : k = k0
      · rw [if_pos h2, containsKey_cons, containsKey_cons]
        subst h2
        by_cases h3 : k' = k
        · simp [h3]
        · simp [h3]
      · rw [if_neg h2, containsKey_cons, containsKey_cons, ih]
        cases hd : decide (k' = k0) <;> cases he : decide (k' = k) <;> simp

theorem get_put_get {α : Type} (p : TfPair α) (b b' : Bool) (x : α) :
    (p.put b x).get b' = if b' = b then x else p.get b' := by
  cases b <;> cases b' <;> simp [TfPair.put, TfPair.get]

theorem insWatch_length (w : List (TfPair WatchMap)) (l : Literal) (cIdx g : Nat) :
    (insWatch w l cIdx g).length = w.length := by
  rw [insWatch, List.length_set]

theorem watchEntry_insWatch_mono {w : List (TfPair WatchMap)} {l : Literal}
    {idx : Nat} (l' : Literal) (cIdx g : Nat) (h : watchEntry w l idx = true) :
    watchEntry (insWatch w l' cIdx g) l idx = true := by
  rw [watchEntry] at h
  rw [watchEntry, insWatch]
  by_cases hv : l'.var = l.var
  · rw [hv]
    by_cases hlen : l.var < w.length
    · rw [getD_set_self hlen, get_put_get]
      by_cases hp : l.pol = l'.pol
      · rw [if_pos hp, containsKey_insert]
        rw [hp] at h
        rw [h, Bool.or_true]
      · rw [if_neg hp]
        exact h
    · rw [List.set_eq_of_length_le (by omega)]
      exact h
  · rw [getD_set_ne hv]
    exact h

theorem watchEntry_insWatch_self {w : List (TfPair WatchMap)} {l : Literal}
    (hlen : l.var < w.length) (cIdx g : Nat) :
    watchEntry (insWatch w l cIdx g) l cIdx = true := by
  rw [watchEntry, insWatch, getD_set_self hlen, get_put_get, if_pos rfl,
    containsKey_insert, decide_eq_true rfl, Bool.true_or]

theorem installWatch_unfold (w : List (TfPair WatchMap)) (r u : BitSet)
    (c : Clause) (i g : Nat) :
    State.installWatch w r u c i g =
      match (c.vars.iterIntersection u).map
            (fun v => Literal.new v (! c.negatives.contains v)),
          (c.vars.iterDifference u).map
            (fun v => Literal.new v (! c.negatives.contains v)) with
      | [], [] => (w, r)
      | [], [l] => (insWatch w l i g, r)
      | [], l1 :: l2 :: _ => (insWatch (insWatch w l1 i g) l2 i g, r)
      | [l], l2 :: _ => (insWatch (insWatch w l i g) l2 i g, r.set i)
      | [l], [] => (insWatch w l i g, r.set i)
      | a :: b :: _, _ => (insWatch (insWatch w a i g) b i g, r) := rfl

theorem installWatch_fst_length (w : List (TfPair WatchMap)) (r u : BitSet)
    (c : Clause) (i g : Nat) :
    (State.installWatch w r u c i g).1.length = w.length := by
  rw [installWatch_unfold]
  cases (c.vars.iterIntersection u).map
      (fun v => Literal.new v (! c.negatives.contains v)) with
  | nil =>
    cases (c.vars.iterDifference u).map
        (fun v => Literal.new v (! c.negatives.contains v)) with
    | nil => rfl
    | cons l1 tl =>
      cases tl with
      | nil => exact insWatch_length ..
      | cons l2 tl2 =>
        rw [show (match ([] : List Literal), l1 :: l2 :: tl2 with
          | [], [] => (w, r)
          | [], [l] => (insWatch w l i g, r)
          | [], l1 :: l2 :: _ => (insWatch (insWatch w l1 i g) l2 i g, r)
          | [l], l2 :: _ => (insWatch (insWatch w l i g) l2 i g, r.set i)
          | [l], [] => (insWatch w l i g, r.set i)
          | a :: b :: _, _ => (insWatch (insWatch w a i g) b i g, r))
          = (insWatch (insWatch w l1 i g) l2 i g, r) from rfl]
        rw [insWatch_length, insWatch_length]
  | cons a tl =>
    cases tl with
    | nil =>
      cases (c.vars.iterDifference u).map
          (fun v => Literal.new v (! c.negatives.contains v)) with
      | nil => exact insWatch_length ..
      | cons l2 tl2 =>
        rw [show (match [a], l2 :: tl2 with
          | [], [] => (w, r)
          | [], [l] => (insWatch w l i g, r)
          | [], l1 :: l2 :: _ => (insWatch (insWatch w l1 i g) l2 i g, r)
          | [l], l2 :: _ => (insWatch (insWatch w l i g) l2 i g, r.set i)
          | [l], [] => (insWatch w l i g, r.set i)
          | a :: b :: _, _ => (insWatch (insWatch w a i g) b i g, r))
          = (insWatch (insWatch w a i g) l2 i g, r.set i) from rfl]
        rw [insWatch_length, insWatch_length]
    | cons b tl2 =>
      rw [show (match a :: b :: tl2, (c.vars.iterDifference u).map
            (fun v => Literal.new v (! c.negatives.contains v)) with
        | [], [] => (w, r)
        | [], [l] => (insWatch w l i g, r)
        | [], l1 :: l2 :: _ => (insWatch (insWatch w l1 i g) l2 i g, r)
        | [l], l2 :: _ => (insWatch (insWatch w l i g) l2 i g, r.set i)
        | [l], [] => (insWatch w l i g, r.set i)
        | a :: b :: _, _ => (insWatch (insWatch w a i g) b i g, r))
        = (insWatch (insWatch w a i g) b i g, r) from rfl]
      rw [insWatch_length, insWatch_length]

theorem installWatch_fst_mono {w : List (TfPair WatchMap)} {r u : BitSet}
    {c : Clause} {i g : Nat} {l : Literal} {idx : Nat}
    (h : watchEntry w l idx = true) :
    watchEntry (State.installWatch w r u c i g).1 l idx = true := by
  rw [installWatch_unfold]
  cases (c.vars.iterIntersection u).map
      (fun v => Literal.new v (! c.negatives.contains v)) with
  | nil =>
    cases (c.vars.iterDifference u).map
        (fun v => Literal.new v (! c.negatives.contains v)) with
    | nil => exact h
    | cons l1 tl =>
      cases tl with
      | nil => exact watchEntry_insWatch_mono _ _ _ h
      | cons l2 tl2 =>
        exact watchEntry_insWatch_mono _ _ _ (watchEntry_insWatch_mono _ _ _ h)
  | cons a tl =>
    cases tl with
    | nil =>
      cases (c.vars.iterDifference u).map
          (fun v => Literal.new v (! c.negatives.contains v)) with
      | nil => exact watchEntry_insWatch_mono _ _ _ h
      | cons l2 tl2 =>
        exact watchEntry_insWatch_mono _ _ _ (watchEntry_insWatch_mono _ _ _ h)
    | cons b tl2 =>
      exact watchEntry_insWatch_mono _ _ _ (watchEntry_insWatch_mono _ _ _ h)

theorem installWatch_snd_mono {w : List (TfPair WatchMap)} {r u : BitSet}
    {c : Clause} {i g : Nat} {j : Nat} (h : r.contains j = true) :
    (State.installWatch w r u c i g).2.contains j = true := by
  rw [installWatch_unfold]
  have hset : (r.set i).contains j = true := by
    rw [contains_set, h, Bool.or_true]
  cases (c.vars.iterIntersection u).map
      (fun v => Literal.new v (! c.negatives.contains v)) with
  | nil =>
    cases (c.vars.iterDifference u).map
        (fun v => Literal.new v (! c.negatives.contains v)) with
    | nil => exact h
    | cons l1 tl =>
      cases tl with
      | nil => exact h
      | cons l2 tl2 => exact h
  | cons a tl =>
    cases tl with
    | nil =>
      cases (c.vars.iterDifference u).map
          (fun v => Literal.new v (! c.negatives.contains v)) with
      | nil => exact hset
      | cons l2 tl2 => exact hset
    | cons b tl2 => exact h

theorem installWatch_establish {w : List (TfPair WatchMap)} {r u : BitSet}
    {c : Clause} {i g : Nat}
    (hWFv : c.vars.WF)
    (hsub : ∀ v, c.vars.contains v = true → u.contains v = true)
    (hlen : ∀ v, c.vars.contains v = true → v < w.length)
    (hne : ∃ v, c.vars.contains v = true) :
    goodAt (State.installWatch w r u c i g).1 (State.installWatch w r u c i g).2
      i c := by
  obtain ⟨v0, hv0⟩ := hne
  have hv0' : v0 ∈ c.vars.iterIntersection u :=
    mem_iterIntersection.mpr ⟨hv0, hsub v0 hv0⟩
  have hs := iterIntersection_sorted c.vars u
  rw [goodAt, installWatch_unfold]
  cases hL : c.vars.iterIntersection u with
  | nil =>
    rw [hL] at hv0'
    cases hv0'
  | cons v1 vt =>
    have hc1 : c.vars.contains v1 = true := by
      have : v1 ∈ c.vars.iterIntersection u := by
        rw [hL]
        exact List.mem_cons_self _ _
      exact (mem_iterIntersection.mp this).1
    cases vt with
    | nil =>
      left
      rw [List.map_cons, List.map_nil]
      have hset : (r.set i).contains i = true := by
        rw [contains_set, decide_eq_true rfl, Bool.true_or]
      cases (c.vars.iterDifference u).map
          (fun v => Literal.new v (! c.negatives.contains v)) with
      | nil => exact hset
      | cons l2 tl2 => exact hset
    | cons v2 vt2 =>
      right
      have hc2 : c.vars.contains v2 = true := by
        have : v2 ∈ c.vars.iterIntersection u := by
          rw [hL]
          exact List.mem_cons_of_mem _ (List.mem_cons_self _ _)
        exact (mem_iterIntersection.mp this).1
      have hv12 : v1 < v2 := by
        rw [hL] at hs
        exact (List.sorted_cons.mp hs).1 v2 (List.mem_cons_self _ _)
      rw [List.map_cons, List.map_cons]
      refine ⟨Literal.new v1 (! c.negatives.contains v1),
        Literal.new v2 (! c.negatives.contains v2),
        literal_new_ne (by omega) _ _,
        mem_iterLiterals hWFv hc1, mem_iterLiterals hWFv hc2, ?_, ?_⟩
      · refine watchEntry_insWatch_mono _ _ _ ?_
        refine watchEntry_insWatch_self ?_ _ _
        rw [literal_new_var]
        exact hlen v1 hc1
      · refine watchEntry_insWatch_self ?_ _ _
        rw [insWatch_length, literal_new_var]
        exact hlen v2 hc2

theorem installWatch_establishW {w : List (TfPair WatchMap)} {r u : BitSet}
    {c : Clause} {i g : Nat}
    (hWFv : c.vars.WF)
    (hsub : ∀ v, c.vars.contains v = true → u.contains v = true)
    (hlen : ∀ v, c.vars.contains v = true → v < w.length)
    (htwo : ∃ a b : Nat, a ≠ b ∧ c.vars.contains a = true
      ∧ c.vars.contains b = true) :
    goodW (State.installWatch w r u c i g).1 i c := by
  obtain ⟨a, b, hab, ha, hb⟩ := htwo
  have ha' : a ∈ c.vars.iterIntersection u :=
    mem_iterIntersection.mpr ⟨ha, hsub a ha⟩
  have hb' : b ∈ c.vars.iterIntersection u :=
    mem_iterIntersection.mpr ⟨hb, hsub b hb⟩
  have hs := iterIntersection_sorted c.vars u
  rw [goodW, installWatch_unfold]
  cases hL : c.vars.iterIntersection u with
  | nil =>
    rw [hL] at ha'
    cases ha'
  | cons v1 vt =>
    cases vt with
    | nil =>
      rw [hL] at ha' hb'
      rw [List.mem_singleton] at ha' hb'
      exact absurd (ha'.trans hb'.symm) hab
    | cons v2 vt2 =>
      have hc1 : c.vars.contains v1 = true := by
        have : v1 ∈ c.vars.iterIntersection u := by
          rw [hL]
          exact List.mem_cons_self _ _
        exact (mem_iterIntersection.mp this).1
      have hc2 : c.vars.contains v2 = true := by
        have : v2 ∈ c.vars.iterIntersection u := by
          rw [hL]
          exact List.mem_cons_of_mem _ (List.mem_cons_self _ _)
        exact (mem_iterIntersection.mp this).1
      have hv12 : v1 < v2 := by
        rw [hL] at hs
        exact (List.sorted_cons.mp hs).1 v2 (List.mem_cons_self _ _)
      rw [List.map_cons, List.map_cons]
      refine ⟨Literal.new v1 (! c.negatives.contains v1),
        Literal.new v2 (! c.negatives.contains v2),
        literal_new_ne (by omega) _ _,
        mem_iterLiterals hWFv hc1, mem_iterLiterals hWFv hc2, ?_, ?_⟩
      · refine watchEntry_insWatch_mono _ _ _ ?_
        refine watchEntry_insWatch_self ?_ _ _
        rw [literal_new_var]
        exact hlen v1 hc1
      · refine watchEntry_insWatch_self ?_ _ _
        rw [insWatch_length, literal_new_var]
        exact hlen v2 hc2

theorem ingestClause_eq (cbv : List (TfPair BitSet)) (w : List (TfPair WatchMap))
    (r : BitSet) (iu : Bool) (u : BitSet) (idx : Nat) (c : Clause) :
    ingestClause (cbv, w, r, iu) u (idx, c) =
      (c.iterLiterals.foldl
        (fun (cbv2 : List (TfPair BitSet)) l =>
          let pair := cbv2.getD l.var ⟨BitSet.create, BitSet.create⟩
          cbv2.set l.var (pair.put l.pol ((pair.get l.pol).set idx)))
        cbv,
       (State.installWatch w r u c idx 0).1,
       (State.installWatch w r u c idx 0).2,
       iu || c.vars.isEmpty) := rfl

theorem ingest_fold (u : BitSet) (l : List (Nat × Clause)) :
    ∀ (acc : List (TfPair BitSet) × List (TfPair WatchMap) × BitSet × Bool),
      (∀ p ∈ l, p.2.vars.WF) →
      (∀ p ∈ l, ∀ v, p.2.vars.contains v = true →
        u.contains v = true ∧ v < acc.2.1.length) →
      ∀ idx c,
        (goodAt acc.2.1 acc.2.2.1 idx c ∨
          ((idx, c) ∈ l ∧ ∃ v, c.vars.contains v = true)) →
        goodAt (l.foldl (fun a p => ingestClause a u p) acc).2.1
          (l.foldl (fun a p => ingestClause a u p) acc).2.2.1 idx c := by
  induction l with
  | nil =>
    intro acc _ _ idx c h
    rcases h with h | ⟨h, _⟩
    · exact h
    · cases h
  | cons p rest ih =>
    intro acc hWF hcov idx c h
    obtain ⟨pidx, pc⟩ := p
    obtain ⟨cbv, wv, rv, iu⟩ := acc
    rw [List.foldl_cons]
    have hlen' : (ingestClause (cbv, wv, rv, iu) u (pidx, pc)).2.1.length
        = wv.length := by
      rw [ingestClause_eq]
      exact installWatch_fst_length ..
    apply ih _ (fun q hq => hWF q (List.mem_cons_of_mem _ hq)) ?_ idx c ?_
    · intro q hq v hv
      obtain ⟨h1, h2⟩ := hcov q (List.mem_cons_of_mem _ hq) v hv
      rw [hlen']
      exact ⟨h1, h2⟩
    · rcases h with hgood | ⟨hmem, hne⟩
      · left
        rw [ingestClause_eq]
        rcases hgood with hr | ⟨a, b, hab, hma, hmb, hwa, hwb⟩
        · left
          exact installWatch_snd_mono hr
        · right
          exact ⟨a, b, hab, hma, hmb, installWatch_fst_mono hwa,
            installWatch_fst_mono hwb⟩
      · rcases List.mem_cons.mp hmem with heq | hmem'
        · injection heq with h1 h2
          subst h1
          subst h2
          left
          rw [ingestClause_eq]
          exact installWatch_establish (hWF _ (List.mem_cons_self _ _))
            (fun v hv => (hcov _ (List.mem_cons_self _ _) v hv).1)
            (fun v hv => (hcov _ (List.mem_cons_self _ _) v hv).2) hne
        · right
          exact ⟨hmem', hne⟩

theorem ingest_foldW (u : BitSet) (l : List (Nat × Clause)) :
    ∀ (acc : List (TfPair BitSet) × List (TfPair WatchMap) × BitSet × Bool),
      (∀ p ∈ l, p.2.vars.WF) →
      (∀ p ∈ l, ∀ v, p.2.vars.contains v = true →
        u.contains v = true ∧ v < acc.2.1.length) →
      ∀ idx c,
        (goodW acc.2.1 idx c ∨
          ((idx, c) ∈ l ∧ ∃ a b : Nat, a ≠ b ∧ c.vars.contains a = true
            ∧ c.vars.contains b = true)) →
        goodW (l.foldl (fun a p => ingestClause a u p) acc).2.1 idx c := by
  induction l with
  | nil =>
    intro acc _ _ idx c h
    rcases h with h | ⟨h, _⟩
    · exact h
    · cases h
  | cons p rest ih =>
    intro acc hWF hcov idx c h
    obtain ⟨pidx, pc⟩ := p
    obtain ⟨cbv, wv, rv, iu⟩ := acc
    rw [List.foldl_cons]
    have hlen' : (ingestClause (cbv, wv, rv, iu) u (pidx, pc)).2.1.length
        = wv.length := by
      rw [ingestClause_eq]
      exact installWatch_fst_length ..
    apply ih _ (fun q hq => hWF q (List.mem_cons_of_mem _ hq)) ?_ idx c ?_
    · intro q hq v hv
      obtain ⟨h1, h2⟩ := hcov q (List.mem_cons_of_mem _ hq) v hv
      rw [hlen']
      exact ⟨h1, h2⟩
    · rcases h with hgood | ⟨hmem, htwo⟩
      · left
        rw [ingestClause_eq]
        obtain ⟨a, b, hab, hma, hmb, hwa, hwb⟩ := hgood
        exact ⟨a, b, hab, hma, hmb, installWatch_fst_mono hwa,
          installWatch_fst_mono hwb⟩
      · rcases List.mem_cons.mp hmem with heq | hmem'
        · injection heq with h1 h2
          subst h1
          subst h2
          left
          rw [ingestClause_eq]
          exact installWatch_establishW (hWF _ (List.mem_cons_self _ _))
            (fun v hv => (hcov _ (List.mem_cons_self _ _) v hv).1)
            (fun v hv => (hcov _ (List.mem_cons_self _ _) v hv).2) htwo
        · right
          exact ⟨hmem', htwo⟩

/-! ## Formula ingest postconditions (for C3) -/

theorem forIn_option_inv {α σ : Type} {Inv : σ → Prop}
    {body : α → σ → Option (ForInStep σ)} :
    ∀ (l : List α) (init : σ),
      Inv init →
      (∀ a ∈ l, ∀ s s', Inv s → body a s = some (ForInStep.yield s') → Inv s') →
      (∀ a ∈ l, ∀ s s', Inv s → body a s = some (ForInStep.done s') → Inv s') →
      ∀ r, forIn l init body = some r → Inv r := by
  intro l
  induction l with
  | nil =>
    intro init hinit _ _ r h
    rw [List.forIn_nil] at h
    have h' : some init = some r := h
    rw [← Option.some.inj h']
    exact hinit
  | cons a as ih =>
    intro init hinit hyield hdone r h
    rw [List.forIn_cons] at h
    rcases Option.bind_eq_some.mp h with ⟨step, hstep, hrest⟩
    cases step with
    | done b =>
      have hrest' : some b = some r := hrest
      rw [← Option.some.inj hrest']
      exact hdone a (List.mem_cons_self _ _) init b hinit hstep
    | yield b =>
      exact ih b (hyield a (List.mem_cons_self _ _) init b hinit hstep)
        (fun x hx => hyield x (List.mem_cons_of_mem _ hx))
        (fun x hx => hdone x (List.mem_cons_of_mem _ hx)) r hrest

theorem formulaNew_post {formula : List (List Int)} {f : Formula}
    (h : Formula.new formula = some f) :
    ∀ c ∈ f.clauses, c.vars.WF ∧
      ∀ v, c.vars.contains v = true → v ∈ f.vars ∧ v ≤ f.maxVar := by
  rw [Formula.new] at h
  rcases Option.bind_eq_some.mp h with ⟨r, hfor, hpure⟩
  have hpure' : some (Formula.mk r.snd.fst r.snd.snd r.fst) = some f := hpure
  rw [← Option.some.inj hpure']
  have hr := @forIn_option_inv _ _ (fun
      (st : MProd (List Clause) (MProd Nat (List Nat))) =>
      ∀ c ∈ st.fst, c.vars.WF ∧
        ∀ v, c.vars.contains v = true → v ∈ st.snd.snd ∧ v ≤ st.snd.fst) _
    formula ⟨[], 0, []⟩ (by intro c hc; cases hc) ?_ ?_ r hfor
  · exact hr
  · -- outer loop step (always yields): run the literal loop's invariant
    intro clause _ s s' hInv hstep
    dsimp only at hstep
    rcases Option.bind_eq_some.mp hstep with ⟨r2, hfor2, hy⟩
    have hy' : some (ForInStep.yield
        (⟨s.fst ++ [Clause.mk r2.snd.fst r2.fst false ⟨0, 1⟩ 0],
          r2.snd.snd.fst, r2.snd.snd.snd⟩ :
          MProd (List Clause) (MProd Nat (List Nat))))
        = some (ForInStep.yield s') := hy
    have hs' := Option.some.inj hy'
    cases hs'
    have hr2 := @forIn_option_inv _ _ (fun
        (t : MProd BitSet (MProd BitSet (MProd Nat (List Nat)))) =>
        t.snd.fst.WF ∧
        (∀ v, t.snd.fst.contains v = true →
          v ∈ t.snd.snd.snd ∧ v ≤ t.snd.snd.fst) ∧
        (∀ x ∈ s.snd.snd, x ∈ t.snd.snd.snd) ∧ s.snd.fst ≤ t.snd.snd.fst) _
      clause ⟨BitSet.create, BitSet.create, s.snd.fst, s.snd.snd⟩
      ⟨WF_create,
        fun v hv => absurd hv (by rw [contains_create]; exact Bool.noConfusion),
        fun x hx => hx, le_refl _⟩ ?_ ?_ r2 hfor2
    · obtain ⟨hWF2, hcov2, hmono2, hmax2⟩ := hr2
      intro c hc
      rcases List.mem_append.mp hc with hc | hc
      · obtain ⟨hWFc, hcovc⟩ := hInv c hc
        exact ⟨hWFc, fun v hv =>
          ⟨hmono2 v (hcovc v hv).1, le_trans (hcovc v hv).2 hmax2⟩⟩
      · rw [List.mem_singleton] at hc
        subst hc
        exact ⟨hWF2, hcov2⟩
    · -- literal loop step: set the variable bit, register the variable
      intro lit _ t t' hInv2 hstep2
      obtain ⟨hWF2, hcov2, hmono2, hmax2⟩ := hInv2
      by_cases h0 : lit = 0
      · rw [if_pos h0] at hstep2
        cases (show (none : Option (ForInStep
          (MProd BitSet (MProd BitSet (MProd Nat (List Nat))))))
          = some (ForInStep.yield t') from hstep2)
      · rw [if_neg h0] at hstep2
        by_cases hneg : lit < 0
        all_goals
          first
          | rw [if_pos hneg] at hstep2
          | rw [if_neg hneg] at hstep2
        all_goals by_cases hnew : (! t.snd.snd.snd.contains lit.natAbs) = true
        all_goals
          first
          | rw [if_pos hnew] at hstep2
          | rw [if_neg hnew] at hstep2
        all_goals have ht' := Option.some.inj hstep2
        all_goals cases ht'
        all_goals refine ⟨WF_set hWF2 _, ?_, ?_, by dsimp only; omega⟩
        · intro v hv
          rw [contains_set, Bool.or_eq_true] at hv
          rcases hv with hv | hv
          · have hveq : v = lit.natAbs := of_decide_eq_true hv
            subst hveq
            exact ⟨List.mem_append.mpr (Or.inr (List.mem_singleton.mpr rfl)),
              by dsimp only; omega⟩
          · obtain ⟨h1, h2⟩ := hcov2 v hv
            refine ⟨List.mem_append.mpr (Or.inl h1), ?_⟩
            dsimp only at h2 ⊢
            omega
        · intro x hx
          exact List.mem_append.mpr (Or.inl (hmono2 x hx))
        · intro v hv
          rw [contains_set, Bool.or_eq_true] at hv
          rcases hv with hv | hv
          · have hveq : v = lit.natAbs := of_decide_eq_true hv
            subst hveq
            have hcon : t.snd.snd.snd.contains lit.natAbs = true := by
              cases hcc : t.snd.snd.snd.contains lit.natAbs
              · exact absurd (by rw [hcc]; rfl) hnew
              · rfl
            simp only [List.contains] at hcon
            exact ⟨List.elem_iff.mp hcon, by dsimp only; omega⟩
          · obtain ⟨h1, h2⟩ := hcov2 v hv
            refine ⟨h1, ?_⟩
            dsimp only at h2 ⊢
            omega
        · exact hmono2
        · intro v hv
          rw [contains_set, Bool.or_eq_true] at hv
          rcases hv with hv | hv
          · have hveq : v = lit.natAbs := of_decide_eq_true hv
            subst hveq
            exact ⟨List.mem_append.mpr (Or.inr (List.mem_singleton.mpr rfl)),
              by dsimp only; omega⟩
          · obtain ⟨h1, h2⟩ := hcov2 v hv
            refine ⟨List.mem_append.mpr (Or.inl h1), ?_⟩
            dsimp only at h2 ⊢
            omega
        · intro x hx
          exact List.mem_append.mpr (Or.inl (hmono2 x hx))
        · intro v hv
          rw [contains_set, Bool.or_eq_true] at hv
          rcases hv with hv | hv
          · have hveq : v = lit.natAbs := of_decide_eq_true hv
            subst hveq
            have hcon : t.snd.snd.snd.contains lit.natAbs = true := by
              cases hcc : t.snd.snd.snd.contains lit.natAbs
              · exact absurd (by rw [hcc]; rfl) hnew
              · rfl
            simp only [List.contains] at hcon
            exact ⟨List.elem_iff.mp hcon, by dsimp only; omega⟩
          · obtain ⟨h1, h2⟩ := hcov2 v hv
            refine ⟨h1, ?_⟩
            dsimp only at h2 ⊢
            omega
        · exact hmono2
    · -- the literal loop never breaks
      intro lit _ t t' _ hstep2
      by_cases h0 : lit = 0
      · rw [if_pos h0] at hstep2
        cases (show (none : Option (ForInStep
          (MProd BitSet (MProd BitSet (MProd Nat (List Nat))))))
          = some (ForInStep.done t') from hstep2)
      · rw [if_neg h0] at hstep2
        by_cases hneg : lit < 0
        all_goals
          first
          | rw [if_pos hneg] at hstep2
          | rw [if_neg hneg] at hstep2
        all_goals by_cases hnew : (! t.snd.snd.snd.contains lit.natAbs) = true
        all_goals
          first
          | rw [if_pos hnew] at hstep2
          | rw [if_neg hnew] at hstep2
        all_goals cases Option.some.inj hstep2
  · -- the clause loop never breaks
    intro clause _ s s' _ hstep
    dsimp only at hstep
    rcases Option.bind_eq_some.mp hstep with ⟨r2, _, hy⟩
    have hy' : some (ForInStep.yield
        (⟨s.fst ++ [Clause.mk r2.snd.fst r2.fst false ⟨0, 1⟩ 0],
          r2.snd.snd.fst, r2.snd.snd.snd⟩ :
          MProd (List Clause) (MProd Nat (List Nat))))
        = some (ForInStep.done s') := hy
    cases Option.some.inj hy'

theorem foldl_set_mono (l : List Nat) :
    ∀ {init : BitSet} {x : Nat}, init.contains x = true →
      (l.foldl (fun bs v => bs.set v) init).contains x = true := by
  induction l with
  | nil => intro init x h; exact h
  | cons a tl ih =>
    intro init x h
    rw [List.foldl_cons]
    apply ih
    rw [contains_set, h, Bool.or_true]

theorem foldl_set_contains {l : List Nat} {x : Nat} (hx : x ∈ l) (init : BitSet) :
    (l.foldl (fun bs v => bs.set v) init).contains x = true := by
  induction l generalizing init with
  | nil => cases hx
  | cons a tl ih =>
    rw [List.foldl_cons]
    rcases List.mem_cons.mp hx with rfl | hx'
    · apply foldl_set_mono
      rw [contains_set, decide_eq_true rfl, Bool.true_or]
    · exact ih hx' _

theorem exists_contains_of_not_isEmpty {s : BitSet} (hWF : s.WF)
    (h : s.isEmpty = false) : ∃ v, s.contains v = true := by
  rw [BitSet.isEmpty, Option.isNone_eq_false_iff, Option.isSome_iff_exists] at h
  obtain ⟨r, hr⟩ := h
  exact ⟨r, (firstSetGe_some hWF hr).2.1⟩

theorem iterLiterals_var_contains {c : Clause} (hWF : c.vars.WF) {a : Literal}
    (ha : a ∈ c.iterLiterals) : c.vars.contains a.var = true := by
  rw [Clause.iterLiterals] at ha
  obtain ⟨v, hv, rfl⟩ := List.mem_map.mp ha
  rw [literal_new_var]
  exact (mem_toList hWF).mp hv

theorem foldl_set_WF (l : List Nat) : ∀ {init : BitSet}, init.WF →
    (l.foldl (fun bs v => bs.set v) init).WF := by
  induction l with
  | nil =>
    intro init h
    exact h
  | cons a tl ih =>
    intro init h
    rw [List.foldl_cons]
    exact ih (WF_set h a)

theorem restartScan_eq (st : State) :
    st.restartScan = (List.range st.clauses.length).foldl State.scanStep st :=
  rfl

theorem scanStep_eq_of_none (t : State) (a : Nat)
    (hv : (t.clauses.getD a (.tomb 0 none)).value = none) :
    t.scanStep a = t := by
  simp only [State.scanStep, hv]

theorem scanStep_eq_of_nounit (t : State) (a : Nat) (c : Clause)
    (hv : (t.clauses.getD a (.tomb 0 none)).value = some c)
    (hu : t.tryGetUnitLiteral c = none) :
    t.scanStep a = t := by
  simp only [State.scanStep, hv, hu]

theorem scanStep_eq_of_unit (t : State) (a : Nat) (c : Clause) (lit : Literal)
    (hv : (t.clauses.getD a (.tomb 0 none)).value = some c)
    (hu : t.tryGetUnitLiteral c = some lit) :
    t.scanStep a
      = { t with readyForUnitProp := t.readyForUnitProp.set a } := by
  simp only [State.scanStep, hv, hu]

theorem scanStep_fields (t : State) (a : Nat) :
    (t.scanStep a).clauses = t.clauses
      ∧ (t.scanStep a).unassignedVariables = t.unassignedVariables
      ∧ (t.scanStep a).watchedClauses = t.watchedClauses
      ∧ (t.scanStep a).assignments = t.assignments := by
  cases hv : (t.clauses.getD a (.tomb 0 none)).value with
  | none =>
    rw [scanStep_eq_of_none t a hv]
    exact ⟨rfl, rfl, rfl, rfl⟩
  | some c =>
    cases hu : t.tryGetUnitLiteral c with
    | none =>
      rw [scanStep_eq_of_nounit t a c hv hu]
      exact ⟨rfl, rfl, rfl, rfl⟩
    | some lit =>
      rw [scanStep_eq_of_unit t a c lit hv hu]
      exact ⟨rfl, rfl, rfl, rfl⟩

theorem scanStep_ready_mono (t : State) (a x : Nat)
    (h : t.readyForUnitProp.contains x = true) :
    (t.scanStep a).readyForUnitProp.contains x = true := by
  cases hv : (t.clauses.getD a (.tomb 0 none)).value with
  | none =>
    rw [scanStep_eq_of_none t a hv]
    exact h
  | some c =>
    cases hu : t.tryGetUnitLiteral c with
    | none =>
      rw [scanStep_eq_of_nounit t a c hv hu]
      exact h
    | some lit =>
      rw [scanStep_eq_of_unit t a c lit hv hu]
      show (t.readyForUnitProp.set a).contains x = true
      rw [contains_set, h, Bool.or_true]

theorem scanFold_fields (l : List Nat) : ∀ (t : State),
    (l.foldl State.scanStep t).clauses = t.clauses
      ∧ (l.foldl State.scanStep t).unassignedVariables = t.unassignedVariables
      ∧ (l.foldl State.scanStep t).watchedClauses = t.watchedClauses
      ∧ (l.foldl State.scanStep t).assignments = t.assignments := by
  induction l with
  | nil =>
    intro t
    exact ⟨rfl, rfl, rfl, rfl⟩
  | cons a tl ih =>
    intro t
    rw [List.foldl_cons]
    obtain ⟨h1, h2, h3, h4⟩ := ih (t.scanStep a)
    obtain ⟨g1, g2, g3, g4⟩ := scanStep_fields t a
    exact ⟨h1.trans g1, h2.trans g2, h3.trans g3, h4.trans g4⟩

theorem scanFold_ready_mono (l : List Nat) : ∀ (t : State) (x : Nat),
    t.readyForUnitProp.contains x = true →
    (l.foldl State.scanStep t).readyForUnitProp.contains x = true := by
  induction l with
  | nil =>
    intro t x h
    exact h
  | cons a tl ih =>
    intro t x h
    rw [List.foldl_cons]
    exact ih _ _ (scanStep_ready_mono t a x h)

theorem tryGetUnit_congr {s t : State} (c : Clause)
    (h : s.unassignedVariables = t.unassignedVariables) :
    s.tryGetUnitLiteral c = t.tryGetUnitLiteral c := by
  rw [State.tryGetUnitLiteral, State.tryGetUnitLiteral, h]

theorem scanFold_fires (l : List Nat) : ∀ (t : State) (idx : Nat) (c : Clause),
    idx ∈ l →
    (t.clauses.getD idx (.tomb 0 none)).value = some c →
    (t.tryGetUnitLiteral c).isSome = true →
    (l.foldl State.scanStep t).readyForUnitProp.contains idx = true := by
  induction l with
  | nil =>
    intro t idx c h
    cases h
  | cons a tl ih =>
    intro t idx c hmem hval hunit
    rw [List.foldl_cons]
    rcases List.mem_cons.mp hmem with rfl | hmem'
    · apply scanFold_ready_mono
      cases hu : t.tryGetUnitLiteral c with
      | none =>
        rw [hu] at hunit
        cases hunit
      | some lit =>
        rw [scanStep_eq_of_unit t idx c lit hval hu]
        show (t.readyForUnitProp.set idx).contains idx = true
        rw [contains_set, decide_eq_true rfl, Bool.true_or]
    · obtain ⟨h1, h2, _, _⟩ := scanStep_fields t a
      refine ih (t.scanStep a) idx c hmem' ?_ ?_
      · rw [h1]
        exact hval
      · rw [tryGetUnit_congr c h2]
        exact hunit

theorem tryGetUnit_singleton {st : State} {c : Clause} {v0 : Nat}
    (hWFu : st.unassignedVariables.WF) (hWFc : c.vars.WF)
    (hv0 : c.vars.contains v0 = true)
    (hun : st.unassignedVariables.contains v0 = true)
    (honly : ∀ w, c.vars.contains w = true → w = v0) :
    (st.tryGetUnitLiteral c).isSome = true := by
  have hmem : v0 ∈ st.unassignedVariables.iterIntersection c.vars :=
    mem_iterIntersection.mpr ⟨hun, hv0⟩
  have hfs : st.unassignedVariables.intersectFirstSet c.vars = some v0 := by
    cases hh : st.unassignedVariables.intersectFirstSet c.vars with
    | none =>
      rw [BitSet.intersectFirstSet, head?_none_iff] at hh
      rw [hh] at hmem
      cases hmem
    | some v =>
      have hh' : (st.unassignedVariables.iterIntersection c.vars).head?
          = some v := hh
      have hv := sorted_head?_some (iterIntersection_sorted _ _) hh'
      rw [honly v (mem_iterIntersection.mp hv.1).2]
  have hge : st.unassignedVariables.intersectFirstSetGe c.vars (v0 + 1)
      = none := by
    cases hg : st.unassignedVariables.intersectFirstSetGe c.vars (v0 + 1) with
    | none => rfl
    | some w =>
      have hg' : (st.unassignedVariables.iterIntersectionGe c.vars
          (v0 + 1)).head? = some w := hg
      have hw := sorted_head?_some (iterIntersectionGe_sorted _ _ _) hg'
      obtain ⟨hge2, _, hcw⟩ := (mem_iterIntersectionGe hWFu hWFc).mp hw.1
      have := honly w hcw
      omega
  simp only [State.tryGetUnitLiteral, hfs, hge, Option.isSome_some]

/-- C3 (counterexample to the claim as stated): the claimed invariant fails
in reachable states in two independent ways.  First, in the initial state
built from the formula whose only clause is empty, that clause is live, not
satisfied, has no watched literals at all, and is not in the ready set.
Second, even restricted to nonempty clauses, the invariant does not survive
the solver's operations: on `[[1], [-1], [-1, 2]]` the first `step` of `run`
(after `restart` seeds the ready set with the two unit clauses) propagates
literal 1 from clause 0, and the watcher walk over literal `-1` aborts at
clause 1, whose falsification it reports as the contradiction — returning
before ever visiting clause 2.  `step` returns `Done Unsat`, and in the
state it leaves behind the live nonempty clause `[-1, 2]` is not satisfied,
has only one non-false watched literal (`2`; its other watched literal `-1`
is false), and is not in the ready set — so the invariant already fails for
nonempty clauses one operation after ingest, which is why the amended claim
is stated of the ingest state. -/
theorem C3_watched_invariant_counterexample :
    (State.newFromVec [[]]).map State.watchedInvariant = some false
      ∧ ((State.newFromVec [[1], [-1], [-1, 2]]).bind
            (fun st => st.restart)).bind
          (fun st => (st.step none).map fun p =>
            (p.1, p.2.watchedInvariantNE))
        = some (StepResult.done SatResult.unsat, false) := by
  exact ⟨by decide, by decide⟩

/-- C3 (amended): restricted to clauses with at least one variable, the
watched-literals invariant holds in the state the solver builds from any
ingested formula, and it still holds after the `restart` that `run` (and
`run_with_assumptions`) performs before its first `step` — the last
operation before the one at which the counterexample shows the invariant
breaks: every live nonempty clause that is not satisfied either has two
distinct literals watching it that are not false, or sits in the
ready-for-unit-propagation set. -/
theorem C3_watched_invariant (formula : List (List Int)) :
    Option.all State.watchedInvariantNE (State.newFromVec formula) = true
      ∧ Option.all State.watchedInvariantNE
          ((State.newFromVec formula).bind fun st => st.restart) = true := by
  cases hnf : State.newFromVec formula with
  | none => exact ⟨rfl, rfl⟩
  | some st =>
    rw [State.newFromVec] at hnf
    rcases Option.map_eq_some'.mp hnf with ⟨f, hF, hst⟩
    subst hst
    have hpost := formulaNew_post hF
    have hmain : ∀ cl : State,
        cl.clauses = f.clauses.map (TombStone.live 0) →
        cl.unassignedVariables
          = f.vars.foldl (fun bs v => bs.set v) BitSet.create →
        cl.watchedClauses = (f.clauses.enum.foldl
            (fun acc p => ingestClause acc
              (f.vars.foldl (fun bs v => bs.set v) BitSet.create) p)
            (List.replicate (f.maxVar + 1)
              (⟨BitSet.create, BitSet.create⟩ : TfPair BitSet),
             List.replicate (f.maxVar + 1) (⟨[], []⟩ : TfPair WatchMap),
             BitSet.create, false)).2.1 →
        State.watchedInvariantNE cl.restartScan = true := by
      intro cl h1 h2 h3
      rw [restartScan_eq]
      obtain ⟨hcl', hun', hw', _⟩ :=
        scanFold_fields (List.range cl.clauses.length) cl
      rw [State.watchedInvariantNE, List.all_eq_true]
      intro idx hidx
      rw [List.mem_range, hcl', h1, List.length_map] at hidx
      have hval : (((List.range cl.clauses.length).foldl State.scanStep
            cl).clauses.getD idx (.tomb 0 none)).value
          = some (f.clauses[idx]) := by
        rw [hcl', h1, List.getD_eq_getElem?_getD, List.getElem?_map,
          List.getElem?_eq_getElem hidx]
        rfl
      rw [hval]
      dsimp only
      have hcmem : f.clauses[idx] ∈ f.clauses := List.getElem_mem _
      obtain ⟨hWFc, hcovc⟩ := hpost _ hcmem
      cases hemp : (f.clauses[idx]).vars.isEmpty with
      | true => rfl
      | false =>
        obtain ⟨v0, hv0⟩ := exists_contains_of_not_isEmpty hWFc hemp
        by_cases htwo : ∃ a b : Nat, a ≠ b
            ∧ (f.clauses[idx]).vars.contains a = true
            ∧ (f.clauses[idx]).vars.contains b = true
        · have hgw := ingest_foldW
            (f.vars.foldl (fun bs v => bs.set v) BitSet.create)
            f.clauses.enum
            (List.replicate (f.maxVar + 1)
              (⟨BitSet.create, BitSet.create⟩ : TfPair BitSet),
             List.replicate (f.maxVar + 1) (⟨[], []⟩ : TfPair WatchMap),
             BitSet.create, false)
            (fun p hp => (hpost p.2 (List.getElem?_mem
              (List.mem_enum_iff_getElem?.mp hp))).1)
            (fun p hp v hv => by
              obtain ⟨hh1, hh2⟩ := (hpost p.2 (List.getElem?_mem
                (List.mem_enum_iff_getElem?.mp hp))).2 v hv
              refine ⟨foldl_set_contains hh1 _, ?_⟩
              rw [show (List.replicate (f.maxVar + 1)
                (⟨BitSet.create, BitSet.create⟩ : TfPair BitSet),
                List.replicate (f.maxVar + 1) (⟨[], []⟩ : TfPair WatchMap),
                BitSet.create, false).2.1
                = List.replicate (f.maxVar + 1) (⟨[], []⟩ : TfPair WatchMap)
                from rfl]
              rw [List.length_replicate]
              omega)
            idx (f.clauses[idx])
            (Or.inr ⟨List.mem_enum_iff_getElem?.mpr
              (List.getElem?_eq_getElem hidx), htwo⟩)
          obtain ⟨a, b, hab, hma, hmb, hwa, hwb⟩ := hgw
          have hlitfalse : ∀ l ∈ (f.clauses[idx]).iterLiterals,
              ((List.range cl.clauses.length).foldl State.scanStep
                cl).litFalse l = false := by
            intro l hl
            have hcv := iterLiterals_var_contains hWFc hl
            have hun2 : ((List.range cl.clauses.length).foldl State.scanStep
                cl).unassignedVariables.contains l.var = true := by
              rw [hun', h2]
              exact foldl_set_contains (hcovc _ hcv).1 _
            rw [State.litFalse, hun2]
            rfl
          have hca : (((List.range cl.clauses.length).foldl State.scanStep
              cl).watched a).containsKey idx = true := by
            rw [show (((List.range cl.clauses.length).foldl State.scanStep
                cl).watched a).containsKey idx
              = watchEntry ((List.range cl.clauses.length).foldl
                  State.scanStep cl).watchedClauses a idx from rfl]
            rw [hw', h3]
            exact hwa
          have hcb : (((List.range cl.clauses.length).foldl State.scanStep
              cl).watched b).containsKey idx = true := by
            rw [show (((List.range cl.clauses.length).foldl State.scanStep
                cl).watched b).containsKey idx
              = watchEntry ((List.range cl.clauses.length).foldl
                  State.scanStep cl).watchedClauses b idx from rfl]
            rw [hw', h3]
            exact hwb
          have hcount : 2 ≤ ((List.range cl.clauses.length).foldl
              State.scanStep cl).watchedNonFalseCount idx (f.clauses[idx]) := by
            rw [State.watchedNonFalseCount]
            have hmema : a ∈ (f.clauses[idx]).iterLiterals.filter fun l =>
                (((List.range cl.clauses.length).foldl State.scanStep
                  cl).watched l).containsKey idx
                  && ! ((List.range cl.clauses.length).foldl State.scanStep
                    cl).litFalse l := by
              refine List.mem_filter.mpr ⟨hma, ?_⟩
              rw [hca, hlitfalse a hma]
              rfl
            have hmemb : b ∈ (f.clauses[idx]).iterLiterals.filter fun l =>
                (((List.range cl.clauses.length).foldl State.scanStep
                  cl).watched l).containsKey idx
                  && ! ((List.range cl.clauses.length).foldl State.scanStep
                    cl).litFalse l := by
              refine List.mem_filter.mpr ⟨hmb, ?_⟩
              rw [hcb, hlitfalse b hmb]
              rfl
            exact two_le_length_of_two_mem hmema hmemb hab
          rw [decide_eq_true hcount]
          rw [Bool.or_true, Bool.true_or]
        · have honly : ∀ w, (f.clauses[idx]).vars.contains w = true
              → w = v0 := by
            intro w hw
            by_contra hne2
            exact htwo ⟨w, v0, hne2, hw, hv0⟩
          have hWFu : cl.unassignedVariables.WF := by
            rw [h2]
            exact foldl_set_WF _ WF_create
          have hsing : (cl.tryGetUnitLiteral (f.clauses[idx])).isSome
              = true := by
            refine tryGetUnit_singleton hWFu hWFc hv0 ?_ honly
            rw [h2]
            exact foldl_set_contains (hcovc v0 hv0).1 _
          have hrd : ((List.range cl.clauses.length).foldl State.scanStep
              cl).readyForUnitProp.contains idx = true := by
            refine scanFold_fires _ cl idx (f.clauses[idx]) ?_ ?_ hsing
            · rw [List.mem_range, h1, List.length_map]
              exact hidx
            · rw [h1, List.getD_eq_getElem?_getD, List.getElem?_map,
                List.getElem?_eq_getElem hidx]
              rfl
          rw [hrd, Bool.or_true]
    refine ⟨?_, ?_⟩
    · rw [show Option.all State.watchedInvariantNE (some (State.newWithPool f))
        = State.watchedInvariantNE (State.newWithPool f) from rfl]
      rw [State.watchedInvariantNE, List.all_eq_true]
      intro idx hidx
      rw [List.mem_range] at hidx
      have hclen : (State.newWithPool f).clauses = f.clauses.map (TombStone.live 0) := rfl
      rw [hclen] at hidx
      rw [List.length_map] at hidx
      rw [hclen]
      have hval : ((f.clauses.map (TombStone.live 0)).getD idx (.tomb 0 none)).value
          = some (f.clauses[idx]) := by
        rw [List.getD_eq_getElem?_getD, List.getElem?_map, List.getElem?_eq_getElem hidx]
        rfl
      rw [hval]
      dsimp only
      have hcmem : f.clauses[idx] ∈ f.clauses := List.getElem_mem _
      obtain ⟨hWFc, hcovc⟩ := hpost _ hcmem
      cases hemp : (f.clauses[idx]).vars.isEmpty with
      | true =>
        rfl
      | false =>
        have hne : ∃ v, (f.clauses[idx]).vars.contains v = true :=
          exists_contains_of_not_isEmpty hWFc hemp
        have hfold := ingest_fold (f.vars.foldl (fun bs v => bs.set v) BitSet.create)
          f.clauses.enum
          (List.replicate (f.maxVar + 1) (⟨BitSet.create, BitSet.create⟩ : TfPair BitSet),
           List.replicate (f.maxVar + 1) (⟨[], []⟩ : TfPair WatchMap),
           BitSet.create, false)
          (fun p hp => (hpost p.2 (List.getElem?_mem
            (List.mem_enum_iff_getElem?.mp hp))).1)
          (fun p hp v hv => by
            obtain ⟨h1, h2⟩ := (hpost p.2 (List.getElem?_mem
              (List.mem_enum_iff_getElem?.mp hp))).2 v hv
            refine ⟨foldl_set_contains h1 _, ?_⟩
            rw [show (List.replicate (f.maxVar + 1)
              (⟨BitSet.create, BitSet.create⟩ : TfPair BitSet),
              List.replicate (f.maxVar + 1) (⟨[], []⟩ : TfPair WatchMap),
              BitSet.create, false).2.1
              = List.replicate (f.maxVar + 1) (⟨[], []⟩ : TfPair WatchMap) from rfl]
            rw [List.length_replicate]
            omega)
          idx (f.clauses[idx])
          (Or.inr ⟨List.mem_enum_iff_getElem?.mpr (List.getElem?_eq_getElem hidx), hne⟩)
        have hready : (State.newWithPool f).readyForUnitProp
            = (f.clauses.enum.foldl
                (fun acc p => ingestClause acc
                  (f.vars.foldl (fun bs v => bs.set v) BitSet.create) p)
                (List.replicate (f.maxVar + 1)
                  (⟨BitSet.create, BitSet.create⟩ : TfPair BitSet),
                 List.replicate (f.maxVar + 1) (⟨[], []⟩ : TfPair WatchMap),
                 BitSet.create, false)).2.2.1 := rfl
        have hwatch : (State.newWithPool f).watchedClauses
            = (f.clauses.enum.foldl
                (fun acc p => ingestClause acc
                  (f.vars.foldl (fun bs v => bs.set v) BitSet.create) p)
                (List.replicate (f.maxVar + 1)
                  (⟨BitSet.create, BitSet.create⟩ : TfPair BitSet),
                 List.replicate (f.maxVar + 1) (⟨[], []⟩ : TfPair WatchMap),
                 BitSet.create, false)).2.1 := rfl
        rcases hfold with hrdy | ⟨a, b, hab, hma, hmb, hwa, hwb⟩
        · have hr2 : (State.newWithPool f).readyForUnitProp.contains idx = true := by
            rw [hready]
            exact hrdy
          rw [hr2, Bool.or_true]
        · have hlitfalse : ∀ l ∈ (f.clauses[idx]).iterLiterals,
              (State.newWithPool f).litFalse l = false := by
            intro l hl
            have hcv := iterLiterals_var_contains hWFc hl
            obtain ⟨h1, _⟩ := hcovc _ hcv
            have hun : (State.newWithPool f).unassignedVariables.contains l.var = true := by
              rw [show (State.newWithPool f).unassignedVariables
                = f.vars.foldl (fun bs v => bs.set v) BitSet.create from rfl]
              exact foldl_set_contains h1 _
            rw [State.litFalse, hun]
            rfl
          have hcount : 2 ≤ (State.newWithPool f).watchedNonFalseCount idx
              (f.clauses[idx]) := by
            rw [State.watchedNonFalseCount]
            have hmema : a ∈ (f.clauses[idx]).iterLiterals.filter fun l =>
                ((State.newWithPool f).watched l).containsKey idx
                  && ! (State.newWithPool f).litFalse l := by
              refine List.mem_filter.mpr ⟨hma, ?_⟩
              have h1 : ((State.newWithPool f).watched a).containsKey idx = true := by
                rw [show ((State.newWithPool f).watched a).containsKey idx
                  = watchEntry (State.newWithPool f).watchedClauses a idx from rfl]
                rw [hwatch]
                exact hwa
              rw [h1, hlitfalse a hma]
              rfl
            have hmemb : b ∈ (f.clauses[idx]).iterLiterals.filter fun l =>
                ((State.newWithPool f).watched l).containsKey idx
                  && ! (State.newWithPool f).litFalse l := by
              refine List.mem_filter.mpr ⟨hmb, ?_⟩
              have h1 : ((State.newWithPool f).watched b).containsKey idx = true := by
                rw [show ((State.newWithPool f).watched b).containsKey idx
                  = watchEntry (State.newWithPool f).watchedClauses b idx from rfl]
                rw [hwatch]
                exact hwb
              rw [h1, hlitfalse b hmb]
              rfl
            exact two_le_length_of_two_mem hmema hmemb hab
          rw [decide_eq_true hcount]
          rw [Bool.or_true, Bool.true_or]
    · show State.watchedInvariantNE (({ State.newWithPool f with
          readyForUnitProp :=
            (State.newWithPool f).readyForUnitProp.clearAll }
          : State).restartScan) = true
      exact hmain _ rfl rfl rfl

/-! ## The Luby state is never advanced (for C6) -/

theorem luby_undoEntry {st : State} {e : TrailEntry} {st' : State}
    (h : st.undoEntry e = some st') : st'.luby = st.luby := by
  rw [State.undoEntry] at h
  cases hre : e.reason with
  | decision l0 =>
    rw [hre] at h
    cases h
    rfl
  | clauseIdx ci =>
    rw [hre] at h
    rcases Option.bind_eq_some.mp h with ⟨cl, hcl, h2⟩
    split at h2
    · cases h2
    · cases h2
      rfl

theorem luby_rfthLoop :
    ∀ {fuel : Nat} {st : State} {o : Option Nat} {b : Bool} {st' : State},
      State.rfthLoop fuel st o b = some st' → st'.luby = st.luby := by
  intro fuel
  induction fuel with
  | zero =>
    intro st o b st' h
    cases h
  | succ n ih =>
    intro st o b st' h
    rw [State.rfthLoop.eq_def] at h
    dsimp only at h
    split at h
    · cases h
      rfl
    · rcases Option.bind_eq_some.mp h with ⟨e, he, h2⟩
      rcases Option.bind_eq_some.mp h2 with ⟨st2, hst2, h3⟩
      have h4 := luby_undoEntry hst2
      rw [ih h3, h4]

theorem luby_removeFromTrailHelper {st : State} {o : Option Nat} {st' : State}
    (h : st.removeFromTrailHelper o = some st') : st'.luby = st.luby := by
  rw [State.removeFromTrailHelper] at h
  rcases Option.bind_eq_some.mp h with ⟨st2, hst2, h2⟩
  have h3 := luby_rfthLoop hst2
  cases h2
  exact h3

theorem luby_popAllTrail :
    ∀ {fuel : Nat} {st st' : State},
      State.popAllTrail fuel st = some st' → st'.luby = st.luby := by
  intro fuel
  induction fuel with
  | zero =>
    intro st st' h
    cases h
  | succ n ih =>
    intro st st' h
    rw [State.popAllTrail] at h
    split at h
    · cases h
      rfl
    · rcases Option.bind_eq_some.mp h with ⟨st2, hst2, h2⟩
      have h3 := luby_undoEntry hst2
      rw [ih h2, h3]

theorem luby_restartScan (st : State) : st.restartScan.luby = st.luby := by
  rw [State.restartScan]
  generalize List.range st.clauses.length = idxs
  induction idxs generalizing st with
  | nil => rfl
  | cons i tl ih =>
    rw [List.foldl_cons]
    rw [ih]
    split
    · rfl
    · split
      · rfl
      · rfl

theorem luby_restart {st st' : State} (h : st.restart = some st') :
    st'.luby = st.luby := by
  rw [State.restart] at h
  rcases Option.bind_eq_some.mp h with ⟨st2, hst2, h2⟩
  have h3 := luby_popAllTrail hst2
  cases h2
  rw [luby_restartScan]
  exact h3

theorem luby_setWatched (st : State) (l : Literal) (m : WatchMap) :
    (st.setWatched l m).luby = st.luby := rfl

theorem luby_setClause (st : State) (idx : Nat) (c : Clause) :
    (st.setClause idx c).luby = st.luby := rfl

theorem luby_removeWatchedGenMismatch {st : State} {l : Literal} {idx : Nat}
    {b : Bool} {st' : State} (h : st.removeWatchedGenMismatch l idx = some (b, st')) :
    st'.luby = st.luby := by
  rw [State.removeWatchedGenMismatch] at h
  rcases Option.bind_eq_some.mp h with ⟨g, hg, h2⟩
  split at h2
  · cases h2
    rfl
  · cases h2
    rfl

theorem luby_uwcLoop :
    ∀ {fuel : Nat} {o : Option (Nat × Nat)} {st : State} {lit : Literal}
      {st' : State} {res : Option Nat},
      State.uwcLoop st lit fuel o = some (st', res) → st'.luby = st.luby := by
  intro fuel
  induction fuel with
  | zero =>
    intro o st lit st' res h
    cases o with
    | none =>
      cases h
      rfl
    | some p =>
      cases h
  | succ n ih =>
    intro o st lit st' res h
    cases o with
    | none =>
      cases h
      rfl
    | some p =>
      obtain ⟨ci, g⟩ := p
      rw [State.uwcLoop] at h
      rcases Option.bind_eq_some.mp h with ⟨⟨removed, st2⟩, hrm, h2⟩
      have hl2 := luby_removeWatchedGenMismatch hrm
      dsimp only at h2
      split at h2
      · rw [ih h2, hl2]
      · rcases Option.bind_eq_some.mp h2 with ⟨cl, hcl, h3⟩
        split at h3
        · rw [ih h3, hl2]
        · split at h3
          · split at h3
            · cases h3
              rw [hl2]
            · rw [ih h3]
              rw [show ({ st2 with readyForUnitProp :=
                st2.readyForUnitProp.set ci } : State).luby = st2.luby from rfl, hl2]
          · rcases Option.bind_eq_some.mp h3 with ⟨g2, hg2, h4⟩
            rw [ih h4]
            exact hl2

theorem luby_updateWatchedClauses {st : State} {l : Literal} {st' : State}
    {res : Option Nat} (h : st.updateWatchedClauses l = some (st', res)) :
    st'.luby = st.luby := by
  rw [State.updateWatchedClauses] at h
  exact luby_uwcLoop h

theorem luby_addToTrail {st : State} {e : TrailEntry} {st' : State}
    {res : Option Nat} (h : st.addToTrail e = some (st', res)) :
    st'.luby = st.luby := by
  obtain ⟨el, edl, er⟩ := e
  cases er with
  | decision l0 =>
    rw [State.addToTrail] at h
    dsimp only at h
    split at h
    all_goals split at h
    any_goals cases h
    all_goals
      have h2 := luby_updateWatchedClauses h
    all_goals exact h2
  | clauseIdx ci =>
    rw [State.addToTrail] at h
    dsimp only at h
    split at h
    all_goals split at h
    any_goals cases h
    all_goals rcases Option.bind_eq_some.mp h with ⟨cl, hcl, h2⟩
    all_goals have h3 := luby_updateWatchedClauses h2
    all_goals exact h3

theorem luby_withUnitClause {st : State} {l : Literal} {ci : Nat} {st' : State}
    {res : Option Nat} (h : st.withUnitClause l ci = some (st', res)) :
    st'.luby = st.luby := by
  rw [State.withUnitClause] at h
  exact luby_addToTrail h

theorem luby_upLoop :
    ∀ {fuel : Nat} {st : State} {np : Nat} {r : UnitPropagationResult} {st' : State},
      State.upLoop fuel st np = some (r, st') → st'.luby = st.luby := by
  intro fuel
  induction fuel with
  | zero =>
    intro st np r st' h
    cases h
  | succ n ih =>
    intro st np r st' h
    rw [State.upLoop] at h
    split at h
    · split at h
      · cases h
        rfl
      · cases h
        rfl
    · rename_i clauseIdx ready heq
      dsimp only at h
      split at h
      · rw [ih h]
      · rcases Option.bind_eq_some.mp h with ⟨⟨st2, conflict⟩, hwc, h2⟩
        have hl2 := luby_withUnitClause hwc
        split at h2
        · cases h2
          rw [hl2]
        · rw [ih h2, hl2]

theorem luby_unitPropagate {st : State} {r : UnitPropagationResult} {st' : State}
    (h : st.unitPropagate = some (r, st')) : st'.luby = st.luby := by
  rw [State.unitPropagate] at h
  exact luby_upLoop h

theorem luby_rescaleVsidsStep (st : State) (l : Literal) :
    (State.rescaleVsidsStep st l).luby = st.luby := rfl

theorem luby_foldl_rescale (lits : List Literal) :
    ∀ st : State, (lits.foldl State.rescaleVsidsStep st).luby = st.luby := by
  induction lits with
  | nil => intro st; rfl
  | cons a tl ih =>
    intro st
    rw [List.foldl_cons, ih]
    rfl

theorem luby_rescaleVsids (st : State) : st.rescaleVsids.luby = st.luby := by
  rw [State.rescaleVsids]
  exact luby_foldl_rescale _ st

theorem luby_addVsidsActivity (st : State) (l : Literal) :
    (st.addVsidsActivity l).luby = st.luby := by
  rw [State.addVsidsActivity]
  dsimp only
  split
  · exact luby_rescaleVsids _
  · rfl

theorem luby_foldl_addVsids (lits : List Literal) :
    ∀ st : State, (lits.foldl (fun st l => st.addVsidsActivity l) st).luby
      = st.luby := by
  induction lits with
  | nil => intro st; rfl
  | cons a tl ih =>
    intro st
    rw [List.foldl_cons, ih, luby_addVsidsActivity]

theorem luby_addClauseActivity {st : State} {idx : Nat} {st' : State} {b : Bool}
    (h : st.addClauseActivity idx = some (st', b)) : st'.luby = st.luby := by
  rw [State.addClauseActivity] at h
  rcases Option.bind_eq_some.mp h with ⟨c, hc, h2⟩
  cases h2
  rfl

theorem luby_lcffLoop :
    ∀ {i : Nat} {st : State} {learned : Clause} {n : Int} {rescale : Bool}
      {st' : State} {l' : Clause} {r' : Bool},
      State.lcffLoop i st learned n rescale = some (st', l', r') →
        st'.luby = st.luby := by
  intro i
  induction i with
  | zero =>
    intro st learned n rescale st' l' r' h
    cases h
    rfl
  | succ m ih =>
    intro st learned n rescale st' l' r' h
    rw [State.lcffLoop] at h
    split at h
    · cases h
      rfl
    · rcases Option.bind_eq_some.mp h with ⟨e, he, h2⟩
      split at h2
      · rw [ih h2]
      · dsimp only at h2
        split at h2
        · cases h2
        · split at h2
          · rcases Option.bind_eq_some.mp h2 with ⟨y, hy, h3⟩
            have hy' : some (st.addVsidsActivity e.literal, rescale) = some y := hy
            cases Option.some.inj hy'
            rcases Option.bind_eq_some.mp h3 with ⟨cl2, hcl2, h4⟩
            rcases Option.bind_eq_some.mp h4 with ⟨n2, hn2, h5⟩
            rcases Option.bind_eq_some.mp h5 with ⟨l2, hl2', h6⟩
            rw [ih h6]
            exact luby_addVsidsActivity ..
          · rcases Option.bind_eq_some.mp h2 with ⟨⟨st2, r2⟩, hst2, h3⟩
            have hlc := luby_addClauseActivity hst2
            rcases Option.bind_eq_some.mp h3 with ⟨y, hy, h4⟩
            have hy' : some (st2, r2) = some y := hy
            cases Option.some.inj hy'
            rcases Option.bind_eq_some.mp h4 with ⟨cl2, hcl2, h5⟩
            rcases Option.bind_eq_some.mp h5 with ⟨n2, hn2, h6⟩
            rcases Option.bind_eq_some.mp h6 with ⟨l2, hl2', h7⟩
            rw [ih h7]
            rw [show ((st2, r2).1 : State).luby = st2.luby from rfl, hlc]
            exact luby_addVsidsActivity ..

theorem luby_learnClauseFromFailure {st : State} {idx : Nat} {st' : State}
    {c : Clause} (h : st.learnClauseFromFailure idx = some (st', c)) :
    st'.luby = st.luby := by
  rw [State.learnClauseFromFailure] at h
  rcases Option.bind_eq_some.mp h with ⟨base, hbase, h2⟩
  rcases Option.bind_eq_some.mp h2 with ⟨n0, hn0, h3⟩
  rcases Option.bind_eq_some.mp h3 with ⟨⟨st2, l2, r2⟩, hst2, h4⟩
  have hl2 := luby_lcffLoop hst2
  cases h4
  split
  · rw [show (State.rescaleClauseActivities st2).luby = st2.luby from rfl]
    exact hl2
  · exact hl2

theorem luby_pushClause {st : State} {c : Clause} {idx : Nat} {st' : State}
    (h : st.pushClause c = some (idx, st')) : st'.luby = st.luby := by
  rw [State.pushClause] at h
  split at h
  · cases h
    rfl
  · rcases Option.bind_eq_some.mp h with ⟨nf, hnf, h2⟩
    cases h2
    rfl

theorem luby_updateWatchLiteralsForNewClause {st : State} {idx : Nat}
    {st' : State} (h : st.updateWatchLiteralsForNewClause idx = some st') :
    st'.luby = st.luby := by
  rw [State.updateWatchLiteralsForNewClause] at h
  rcases Option.bind_eq_some.mp h with ⟨c, hc, h2⟩
  cases h2
  rfl

theorem luby_foldl_cbv (lits : List Literal) :
    ∀ st : State,
      (lits.foldl (fun st l =>
        let len := st.clauses.length
        let pair := st.clausesByVar.getD l.var ⟨BitSet.create, BitSet.create⟩
        { st with clausesByVar :=
          st.clausesByVar.set l.var (pair.put l.pol ((pair.get l.pol).set len)) })
        st).luby = st.luby := by
  induction lits with
  | nil => intro st; rfl
  | cons a tl ih =>
    intro st
    rw [List.foldl_cons, ih]

theorem luby_backtrack {st : State} {idx : Nat} {st' : State}
    (h : st.backtrack idx = some st') : st'.luby = st.luby := by
  rw [State.backtrack] at h
  rcases Option.bind_eq_some.mp h with ⟨⟨st1, learned⟩, h1, h2⟩
  have hl1 := luby_learnClauseFromFailure h1
  rcases Option.bind_eq_some.mp h2 with ⟨rgt, hrgt, h3⟩
  rcases Option.bind_eq_some.mp h3 with ⟨st4, hst4, h5⟩
  rcases Option.bind_eq_some.mp h5 with ⟨⟨ci, st5⟩, hst5, h6⟩
  have hl4 := luby_removeFromTrailHelper hst4
  have hl5 := luby_pushClause hst5
  have hl6 := luby_updateWatchLiteralsForNewClause h6
  rw [hl6]
  rw [show ({ st5 with readyForUnitProp := st5.readyForUnitProp.clearAll }
    : State).luby = st5.luby from rfl]
  rw [hl5, hl4]
  exact (luby_foldl_cbv _ _).trans ((luby_foldl_addVsids _ _).trans hl1)

theorem luby_react {st : State} {a : Action} {r : StepResult} {st' : State}
    (h : st.react a = some (r, st')) : st'.luby = st.luby := by
  cases a with
  | unsat =>
    cases h
    rfl
  | finishedUnitPropagation =>
    cases h
    rfl
  | cont literal =>
    rw [State.react] at h
    rcases Option.bind_eq_some.mp h with ⟨⟨st2, conflict⟩, hst2, h2⟩
    have hl2 := luby_addToTrail hst2
    cases h2
    exact hl2
  | contradiction idx =>
    rw [State.react] at h
    split at h
    · cases h
      rfl
    · rcases Option.bind_eq_some.mp h with ⟨st2, hst2, h2⟩
      have hl2 := luby_backtrack hst2
      dsimp only at h2
      split at h2
      · rcases Option.bind_eq_some.mp h2 with ⟨y, hy, h3⟩
        have hl3 := luby_restart hy
        cases h3
        refine Eq.trans hl3 ?_
        exact hl2
      · cases h2
        exact hl2

theorem luby_makeDecision {st : State} {o : Option Literal} {r : StepResult}
    {st' : State} (h : st.makeDecision o = some (r, st')) : st'.luby = st.luby := by
  rw [State.makeDecision] at h
  split at h
  · cases h
    rfl
  · have h2 := luby_react h
    exact h2

theorem luby_deleteClauseLoop :
    ∀ {fuel : Nat} {st : State} {idx nv : Nat} {st' : State},
      State.deleteClauseLoop fuel st idx nv = some st' → st'.luby = st.luby := by
  intro fuel
  induction fuel with
  | zero =>
    intro st idx nv st' h
    cases h
  | succ n ih =>
    intro st idx nv st' h
    rw [State.deleteClauseLoop] at h
    rcases Option.bind_eq_some.mp h with ⟨cl, hcl, h2⟩
    split at h2
    · cases h2
      rfl
    · rw [ih h2]

theorem luby_deleteClause {st : State} {idx : Nat} {st' : State}
    (h : st.deleteClause idx = some st') : st'.luby = st.luby := by
  rw [State.deleteClause] at h
  rcases Option.bind_eq_some.mp h with ⟨cl, hcl, h2⟩
  rcases Option.bind_eq_some.mp h2 with ⟨st2, hst2, h3⟩
  have hl2 := luby_deleteClauseLoop hst2
  rcases Option.bind_eq_some.mp h3 with ⟨cl2, hcl2, h4⟩
  cases h4
  exact hl2

theorem luby_foldlM_deleteClause :
    ∀ {idxs : List Nat} {st st' : State},
      idxs.foldlM (fun st idx => st.deleteClause idx) st = some st' →
        st'.luby = st.luby := by
  intro idxs
  induction idxs with
  | nil =>
    intro st st' h
    have h' : some st = some st' := h
    rw [← Option.some.inj h']
  | cons a tl ih =>
    intro st st' h
    rw [List.foldlM_cons] at h
    rcases Option.bind_eq_some.mp h with ⟨st2, hst2, h2⟩
    rw [ih h2, luby_deleteClause hst2]

theorem luby_simplifyClauses {st : State} {st' : State}
    (h : st.simplifyClauses = some st') : st'.luby = st.luby := by
  rw [State.simplifyClauses] at h
  dsimp only at h
  rcases Option.bind_eq_some.mp h with ⟨buckets, hb, h2⟩
  exact luby_foldlM_deleteClause h2

theorem luby_step_rest {stb : State} {o : Option Literal} {r : StepResult}
    {st' : State}
    (h : (if stb.instantlyUnsat then pure (StepResult.done SatResult.unsat, stb)
          else do
            let (r2, st2) ← stb.unitPropagate
            match r2 with
            | .nothingToPropagate => st2.makeDecision o
            | .finishedUnitPropagation => pure (StepResult.continue, st2)
            | .contradiction idx => st2.react (.contradiction idx))
        = some (r, st')) :
    st'.luby = stb.luby := by
  split at h
  · cases h
    rfl
  · rcases Option.bind_eq_some.mp h with ⟨⟨r2, st2⟩, hup, h2⟩
    have hl2 := luby_unitPropagate hup
    dsimp only at h2
    split at h2
    · rw [luby_makeDecision h2, hl2]
    · cases h2
      exact hl2
    · rw [luby_react h2, hl2]

theorem luby_step {st : State} {o : Option Literal} {r : StepResult} {st' : State}
    (h : st.step o = some (r, st')) : st'.luby = st.luby := by
  rw [State.step] at h
  dsimp only at h
  split at h
  · rcases Option.bind_eq_some.mp h with ⟨st3, hst3, h2⟩
    have hl3 := luby_simplifyClauses hst3
    have h4 := luby_step_rest h2
    refine Eq.trans h4 ?_
    exact hl3
  · have h4 := luby_step_rest h
    exact h4

theorem luby_runInner :
    ∀ {fuel : Nat} {st : State} {res : SatResult} {st' : State},
      State.runInner fuel st = some (res, st') → st'.luby = st.luby := by
  intro fuel
  induction fuel with
  | zero =>
    intro st res st' h
    cases h
  | succ n ih =>
    intro st res st' h
    rw [State.runInner] at h
    rcases Option.bind_eq_some.mp h with ⟨⟨r2, st2⟩, hst2, h2⟩
    have hl2 := luby_step hst2
    cases r2
    · cases h2
      exact hl2
    · rw [ih h2, hl2]

/-- C6 (refutation): the restart threshold never follows the Luby sequence,
because `luby.next()` is never called.  The solver starts with
`Luby::new(32)` (term index 1), no state transition of `run_inner` (hence no
`react`, `backtrack` or `restart`) ever changes the `luby` field, and so the
threshold compared against `conflicts` is forever `32 ·
luby_term(1) = 32` — while the claimed schedule `32 · luby_term(k)` would
already differ at the third restart (`luby_term(3) = 2`, threshold 64). -/
theorem C6_luby_never_advances :
    (∀ f : Formula, (State.newWithPool f).luby = Luby.new 32)
    ∧ (∀ fuel (st : State) (p : SatResult × State),
        State.runInner fuel st = some p → p.2.luby = st.luby)
    ∧ (Luby.new 32).value = 32 ∧ lubyTerm 1 = 1 ∧ lubyTerm 2 = 1
    ∧ lubyTerm 3 = 2 ∧ lubyTerm 4 = 1 := by
  refine ⟨fun f => rfl, fun fuel st p h => luby_runInner h, by decide, by decide,
    by decide, by decide, by decide⟩

/-- Witness for C6 at a concrete run: the formula `[[1], [-1]]` is decided
within 10 steps, and the final state's Luby field still equals the initial
one. -/
theorem C6_luby_never_advances_witness :
    ((State.runInner 10
        ((State.newFromVec [[1], [-1]]).get (by decide))).get (by decide)).2.luby
      = ((State.newFromVec [[1], [-1]]).get (by decide)).luby :=
  C6_luby_never_advances.2.1 10 _ _ (Option.some_get _).symm

/-! ## What `unit_propagate` reports (for C8) -/

theorem popFirstSet_fst_none {s : BitSet} {r : BitSet}
    (h : s.popFirstSet = (none, r)) : s.firstSet = none := by
  rw [BitSet.popFirstSet] at h
  cases hf : s.firstSet with
  | none => rfl
  | some i =>
    rw [hf] at h
    cases h

theorem trail_uwcLoop :
    ∀ {fuel : Nat} {o : Option (Nat × Nat)} {st : State} {lit : Literal}
      {st' : State} {res : Option Nat},
      State.uwcLoop st lit fuel o = some (st', res) → st'.trail = st.trail := by
  intro fuel
  induction fuel with
  | zero =>
    intro o st lit st' res h
    cases o with
    | none =>
      cases h
      rfl
    | some p =>
      cases h
  | succ n ih =>
    intro o st lit st' res h
    cases o with
    | none =>
      cases h
      rfl
    | some p =>
      obtain ⟨ci, g⟩ := p
      rw [State.uwcLoop] at h
      rcases Option.bind_eq_some.mp h with ⟨⟨removed, st2⟩, hrm, h2⟩
      have hl2 : st2.trail = st.trail := by
        rw [State.removeWatchedGenMismatch] at hrm
        rcases Option.bind_eq_some.mp hrm with ⟨g2, hg2, h3⟩
        split at h3
        · cases h3
          rfl
        · cases h3
          rfl
      dsimp only at h2
      split at h2
      · rw [ih h2, hl2]
      · rcases Option.bind_eq_some.mp h2 with ⟨cl, hcl, h3⟩
        split at h3
        · rw [ih h3, hl2]
        · split at h3
          · split at h3
            · cases h3
              rw [hl2]
            · rw [ih h3]
              rw [show ({ st2 with readyForUnitProp :=
                st2.readyForUnitProp.set ci } : State).trail = st2.trail from rfl, hl2]
          · rcases Option.bind_eq_some.mp h3 with ⟨g2, hg2, h4⟩
            rw [ih h4]
            exact hl2

theorem trail_updateWatchedClauses {st : State} {l : Literal} {st' : State}
    {res : Option Nat} (h : st.updateWatchedClauses l = some (st', res)) :
    st'.trail = st.trail := by
  rw [State.updateWatchedClauses] at h
  exact trail_uwcLoop h

theorem trail_addToTrail {st : State} {e : TrailEntry} {st' : State}
    {res : Option Nat} (h : st.addToTrail e = some (st', res)) :
    st'.trail = st.trail ++ [e] := by
  obtain ⟨el, edl, er⟩ := e
  cases er with
  | decision l0 =>
    rw [State.addToTrail] at h
    dsimp only at h
    split at h
    all_goals split at h
    any_goals cases h
    all_goals
      have h2 := trail_updateWatchedClauses h
    all_goals exact h2
  | clauseIdx ci =>
    rw [State.addToTrail] at h
    dsimp only at h
    split at h
    all_goals split at h
    any_goals cases h
    all_goals rcases Option.bind_eq_some.mp h with ⟨cl, hcl, h2⟩
    all_goals have h3 := trail_updateWatchedClauses h2
    all_goals exact h3

theorem trail_withUnitClause {st : State} {l : Literal} {ci : Nat} {st' : State}
    {res : Option Nat} (h : st.withUnitClause l ci = some (st', res)) :
    st'.trail = st.trail ++ [⟨l, st.decisionLevel, .clauseIdx ci⟩] := by
  rw [State.withUnitClause] at h
  exact trail_addToTrail h

theorem upLoop_char :
    ∀ {fuel : Nat} {st : State} {np : Nat} {r : UnitPropagationResult} {st' : State},
      State.upLoop fuel st np = some (r, st') →
        (r = .nothingToPropagate →
          st'.readyForUnitProp.firstSet = none ∧ st'.trail = st.trail ∧ np = 0)
        ∧ (r = .finishedUnitPropagation →
          st'.readyForUnitProp.firstSet = none ∧
            st.trail.length ≤ st'.trail.length ∧
            (np = 0 → st.trail.length < st'.trail.length))
        ∧ (∀ ci, r = .contradiction ci → st.trail.length < st'.trail.length) := by
  intro fuel
  induction fuel with
  | zero =>
    intro st np r st' h
    cases h
  | succ n ih =>
    intro st np r st' h
    rw [State.upLoop] at h
    split at h
    · rename_i pop ready heq
      split at h
      · cases h
        refine ⟨fun _ => ⟨popFirstSet_fst_none heq, rfl, by omega⟩, ?_, ?_⟩
        · intro hr
          cases hr
        · intro ci hr
          cases hr
      · cases h
        refine ⟨fun hr => UnitPropagationResult.noConfusion hr, fun _ =>
          ⟨popFirstSet_fst_none heq, le_refl _, fun h0 => absurd h0 (by omega)⟩,
          fun ci hr => UnitPropagationResult.noConfusion hr⟩
    · rename_i pop clauseIdx ready heq
      dsimp only at h
      split at h
      · have hres := ih h
        refine ⟨fun hr => ?_, fun hr => ?_, fun ci hr => ?_⟩
        · obtain ⟨h1, h2, h3⟩ := (hres.1 hr)
          exact ⟨h1, h2, h3⟩
        · obtain ⟨h1, h2, h3⟩ := (hres.2.1 hr)
          exact ⟨h1, h2, h3⟩
        · exact hres.2.2 ci hr
      · rcases Option.bind_eq_some.mp h with ⟨⟨st2, conflict⟩, hwc, h2⟩
        have htr : st2.trail.length = st.trail.length + 1 := by
          rw [trail_withUnitClause hwc]
          rw [List.length_append]
          rfl
        have htr2 : ((st2, conflict).1 : State).trail.length
            = st.trail.length + 1 := htr
        split at h2
        · cases h2
          refine ⟨fun hr => UnitPropagationResult.noConfusion hr,
            fun hr => UnitPropagationResult.noConfusion hr, fun ci hr => ?_⟩
          omega
        · have hres := ih h2
          refine ⟨fun hr => ?_, fun hr => ?_, fun ci hr => ?_⟩
          · obtain ⟨h1, h2', h3⟩ := hres.1 hr
            omega
          · obtain ⟨h1, h2', h3⟩ := hres.2.1 hr
            exact ⟨h1, by omega, fun _ => by omega⟩
          · have := hres.2.2 ci hr
            omega

/-- C8 (counterexample to the claim as stated): after ingesting `[[1], [1]]`
and unit-propagating variable 1 through clause 0, the ready set still
contains both (now satisfied) clauses — it is non-empty — yet
`unit_propagate` drains it without propagating anything and returns
`NothingToPropagate`, not `FinishedUnitPropagation`. -/
theorem C8_unit_propagate_counterexample :
    ((State.newFromVec [[1], [1]]).bind fun st0 =>
      (st0.withUnitClause (Literal.new 1 true) 0).map fun p =>
        (p.1.readyForUnitProp.isEmpty, p.1.unitPropagate.map (·.1)))
      = some (false, some UnitPropagationResult.nothingToPropagate) := by
  decide

/-- C8 (amended): `unit_propagate` returns `NothingToPropagate` exactly when
it drains the ready set without enqueuing any literal (the ready set may
well have been non-empty on entry: stale entries for satisfied or non-unit
clauses are dropped silently); when it drains the set after enqueuing at
least one literal it returns `FinishedUnitPropagation`, and on a conflict
the trail has also strictly grown. -/
theorem C8_unit_propagate_characterization (st : State)
    {r : UnitPropagationResult} {st' : State}
    (h : st.unitPropagate = some (r, st')) :
    (r = .nothingToPropagate ↔
      st'.readyForUnitProp.firstSet = none ∧ st'.trail = st.trail)
    ∧ (r = .finishedUnitPropagation →
      st'.readyForUnitProp.firstSet = none ∧
        st.trail.length < st'.trail.length)
    ∧ (∀ ci, r = .contradiction ci → st.trail.length < st'.trail.length) := by
  rw [State.unitPropagate] at h
  have hc := upLoop_char h
  refine ⟨⟨fun hr => ?_, fun ⟨h1, h2⟩ => ?_⟩, fun hr => ?_, hc.2.2⟩
  · obtain ⟨h1, h2, _⟩ := hc.1 hr
    exact ⟨h1, h2⟩
  · cases r with
    | nothingToPropagate => rfl
    | finishedUnitPropagation =>
      obtain ⟨_, _, h3⟩ := hc.2.1 rfl
      have := h3 rfl
      have : st'.trail.length = st.trail.length := by rw [h2]
      omega
    | contradiction ci =>
      have := hc.2.2 ci rfl
      have : st'.trail.length = st.trail.length := by rw [h2]
      omega
  · obtain ⟨h1, _, h3⟩ := hc.2.1 hr
    exact ⟨h1, h3 rfl⟩

set_option maxHeartbeats 2000000 in
/-- Witness for C8 at the counterexample state: `unit_propagate` returns
`NothingToPropagate` there, and indeed the final ready set is drained and
the trail unchanged. -/
theorem C8_unit_propagate_characterization_witness :
    (((((State.newFromVec [[1], [1]]).get (by decide)).withUnitClause
          (Literal.new 1 true) 0).get (by decide)).1.unitPropagate.get
            (by decide)).1 = UnitPropagationResult.nothingToPropagate ↔
      ((((((State.newFromVec [[1], [1]]).get (by decide)).withUnitClause
          (Literal.new 1 true) 0).get (by decide)).1.unitPropagate.get
            (by decide)).2.readyForUnitProp.firstSet = none ∧
        (((((State.newFromVec [[1], [1]]).get (by decide)).withUnitClause
          (Literal.new 1 true) 0).get (by decide)).1.unitPropagate.get
            (by decide)).2.trail
          = ((((State.newFromVec [[1], [1]]).get (by decide)).withUnitClause
            (Literal.new 1 true) 0).get (by decide)).1.trail) :=
  (C8_unit_propagate_characterization
    ((((State.newFromVec [[1], [1]]).get (by decide)).withUnitClause
        (Literal.new 1 true) 0).get (by decide)).1
    (Option.some_get (by decide)).symm).1

/-! ## The backjump level (for C5) -/

theorem foldr_filter_cons (p : Nat → Bool) (a : Nat) (l : List Nat) :
    ((a :: l).filter p).foldr max 0
      = if p a = true then max a ((l.filter p).foldr max 0)
        else (l.filter p).foldr max 0 := by
  rw [List.filter_cons]
  split
  · rw [List.foldr_cons]
  · rfl

theorem shdlFold_gen :
    ∀ (L : List (Option Nat)) (m1 m2 : Nat), m2 < m1 ∨ (m1 = 0 ∧ m2 = 0) →
      State.shdlFold L m1 m2
        = max m2 (((m1 :: L.filterMap id).filter fun l =>
            decide (l < (m1 :: L.filterMap id).foldr max 0)).foldr max 0) := by
  intro L
  induction L with
  | nil =>
    intro m1 m2 hI
    rw [show State.shdlFold [] m1 m2 = m2 from rfl]
    simp only [List.filterMap_nil, List.foldr_cons, List.foldr_nil]
    rw [foldr_filter_cons]
    have h2 : decide (m1 < max m1 0) = false := decide_eq_false (by omega)
    rw [h2]
    simp only [List.filter_nil, List.foldr_nil]
    simp only [Bool.false_eq_true, if_false]
    omega
  | cons o rest ih =>
    intro m1 m2 hI
    have hm21 : m2 ≤ m1 := by omega
    cases o with
    | none =>
      rw [show State.shdlFold (none :: rest) m1 m2 = State.shdlFold rest m1 m2
        from rfl]
      rw [ih m1 m2 hI]
      simp only [List.filterMap_cons, id_eq]
    | some lvl =>
      rw [show State.shdlFold (some lvl :: rest) m1 m2
        = (if lvl > m1 then State.shdlFold rest lvl m1
          else if lvl > m2 && lvl < m1 then State.shdlFold rest m1 lvl
          else State.shdlFold rest m1 m2) from rfl]
      simp only [List.filterMap_cons, id_eq]
      simp only [List.foldr_cons]
      by_cases h1 : lvl > m1
      · rw [if_pos h1, ih lvl m1 (Or.inl h1)]
        simp only [List.foldr_cons]
        have hM : max m1 (max lvl ((rest.filterMap id).foldr max 0))
            = max lvl ((rest.filterMap id).foldr max 0) := by omega
        simp only [hM]
        rw [foldr_filter_cons, foldr_filter_cons, foldr_filter_cons]
        have hp1 : decide (m1 < max lvl ((rest.filterMap id).foldr max 0)) = true :=
          decide_eq_true (by omega)
        rw [hp1]
        by_cases h2 : lvl < max lvl ((rest.filterMap id).foldr max 0)
        · rw [decide_eq_true h2]
          simp only [if_true]
          omega
        · rw [decide_eq_false h2]
          simp only [Bool.false_eq_true, if_false, if_true]
          omega
      · rw [if_neg h1]
        have hlvm : lvl ≤ m1 := by omega
        have hM : max m1 (max lvl ((rest.filterMap id).foldr max 0))
            = max m1 ((rest.filterMap id).foldr max 0) := by omega
        simp only [hM]
        by_cases h2 : lvl > m2 && lvl < m1
        · rw [if_pos h2]
          rw [Bool.and_eq_true] at h2
          have h2a : m2 < lvl := of_decide_eq_true h2.1
          have h2b : lvl < m1 := of_decide_eq_true h2.2
          rw [ih m1 lvl (Or.inl h2b)]
          simp only [List.foldr_cons]
          rw [foldr_filter_cons, foldr_filter_cons, foldr_filter_cons]
          have hpl : decide (lvl < max m1 ((rest.filterMap id).foldr max 0)) = true :=
            decide_eq_true (by omega)
          rw [hpl]
          by_cases h3 : m1 < max m1 ((rest.filterMap id).foldr max 0)
          · rw [decide_eq_true h3]
            simp only [if_true]
            omega
          · rw [decide_eq_false h3]
            simp only [Bool.false_eq_true, if_false, if_true]
            omega
        · rw [if_neg h2]
          have h2' : lvl ≤ m2 ∨ lvl = m1 := by
            rcases Bool.and_eq_false_iff.mp (Bool.not_eq_true _ ▸ h2) with hx | hx
            · left
              have := of_decide_eq_false hx
              omega
            · right
              have := of_decide_eq_false hx
              omega
          rw [ih m1 m2 hI]
          simp only [List.foldr_cons]
          rw [foldr_filter_cons, foldr_filter_cons, foldr_filter_cons]
          by_cases h3 : m1 < max m1 ((rest.filterMap id).foldr max 0)
          · rw [decide_eq_true h3]
            by_cases h4 : lvl < max m1 ((rest.filterMap id).foldr max 0)
            · rw [decide_eq_true h4]
              simp only [if_true]
              omega
            · rw [decide_eq_false h4]
              simp only [Bool.false_eq_true, if_false, if_true]
          · rw [decide_eq_false h3]
            by_cases h4 : lvl < max m1 ((rest.filterMap id).foldr max 0)
            · rw [decide_eq_true h4]
              simp only [Bool.false_eq_true, if_false, if_true]
              omega
            · rw [decide_eq_false h4]
              simp only [Bool.false_eq_true, if_false]

theorem shdlFold_spec (L : List (Option Nat)) :
    State.shdlFold L 0 0 = secondHighestSpec L := by
  rw [shdlFold_gen L 0 0 (Or.inr ⟨rfl, rfl⟩)]
  simp only [secondHighestSpec, List.foldr_cons]
  have hM : max 0 ((L.filterMap id).foldr max 0)
      = (L.filterMap id).foldr max 0 := by
    omega
  simp only [hM]
  rw [foldr_filter_cons]
  by_cases h : 0 < (L.filterMap id).foldr max 0
  · rw [decide_eq_true h]
    simp only [if_true]
    omega
  · rw [decide_eq_false h]
    simp only [Bool.false_eq_true, if_false]
    omega

theorem trail_undoEntry {st : State} {e : TrailEntry} {st' : State}
    (h : st.undoEntry e = some st') : st'.trail = st.trail := by
  rw [State.undoEntry] at h
  cases hre : e.reason with
  | decision l0 =>
    rw [hre] at h
    cases h
    rfl
  | clauseIdx ci =>
    rw [hre] at h
    rcases Option.bind_eq_some.mp h with ⟨cl, hcl, h2⟩
    split at h2
    · cases h2
    · cases h2
      rfl

theorem pairwise_le_getLast {l : List TrailEntry} {last : TrailEntry}
    (hp : l.Pairwise fun a c => a.decisionLevel ≤ c.decisionLevel)
    (hl : l.getLast? = some last) :
    ∀ e ∈ l, e.decisionLevel ≤ last.decisionLevel := by
  have hne : l ≠ [] := by
    intro hnil
    rw [hnil] at hl
    cases hl
  have hlast : l.getLast hne = last := by
    rw [List.getLast?_eq_getLast l hne] at hl
    exact Option.some.inj hl
  intro e he
  conv at he => rw [← List.dropLast_append_getLast hne]
  conv at hp => rw [← List.dropLast_append_getLast hne]
  rcases List.mem_append.mp he with he | he
  · have := (List.pairwise_append.mp hp).2.2 e he (l.getLast hne)
      (List.mem_singleton.mpr rfl)
    rw [hlast] at this
    exact this
  · rw [List.mem_singleton] at he
    rw [he, hlast]

theorem rfth_trail :
    ∀ {fuel : Nat} {st : State} {β : Nat} {b : Bool} {st' : State},
      State.rfthLoop fuel st (some β) b = some st' →
      st.trail.Pairwise (fun a c => a.decisionLevel ≤ c.decisionLevel) →
      st'.trail = st.trail.filter fun e => decide (e.decisionLevel ≤ β) := by
  intro fuel
  induction fuel with
  | zero =>
    intro st β b st' h hp
    cases h
  | succ n ih =>
    intro st β b st' h hp
    rw [State.rfthLoop.eq_def] at h
    dsimp only at h
    split at h
    · rename_i hfin
      cases h
      rw [Bool.or_eq_true] at hfin
      rcases hfin with hfin | hfin
      · rw [List.isEmpty_iff.mp hfin]
        rfl
      · cases hlast : st.trail.getLast? with
        | none =>
          rw [hlast] at hfin
          cases hfin
        | some last =>
          rw [hlast] at hfin
          have hle : last.decisionLevel ≤ β := of_decide_eq_true hfin
          rw [eq_comm, List.filter_eq_self]
          intro e he
          exact decide_eq_true
            (le_trans (pairwise_le_getLast hp hlast e he) hle)
    · rename_i hfin
      rcases Option.bind_eq_some.mp h with ⟨e, he, h2⟩
      rcases Option.bind_eq_some.mp h2 with ⟨st3, hst3, h3⟩
      have htr3 : st3.trail = st.trail.dropLast := trail_undoEntry hst3
      have hp3 : st3.trail.Pairwise (fun a c => a.decisionLevel ≤ c.decisionLevel) := by
        rw [htr3]
        exact List.Pairwise.sublist (List.dropLast_sublist _) hp
      have hres := ih h3 hp3
      rw [hres, htr3]
      have hne : st.trail ≠ [] := by
        intro hnil
        rw [hnil] at he
        cases he
      have hlast : st.trail.getLast hne = e := by
        rw [List.getLast?_eq_getLast st.trail hne] at he
        exact Option.some.inj he
      have hegt : ¬ e.decisionLevel ≤ β := by
        intro hle
        apply hfin
        rw [Bool.or_eq_true]
        right
        rw [List.getLast?_eq_getLast st.trail hne, hlast]
        exact decide_eq_true hle
      conv_rhs => rw [← List.dropLast_append_getLast hne]
      rw [List.filter_append, hlast]
      rw [List.filter_cons, decide_eq_false hegt]
      simp

theorem mapM_option_mem {α β : Type} {f : α → Option β} :
    ∀ {xs : List α} {ys : List β}, xs.mapM f = some ys →
      ∀ y ∈ ys, ∃ x ∈ xs, f x = some y := by
  intro xs
  induction xs with
  | nil =>
    intro ys h y hy
    rw [List.mapM_nil] at h
    have h' : some ([] : List β) = some ys := h
    rw [← Option.some.inj h'] at hy
    cases hy
  | cons a tl ih =>
    intro ys h y hy
    rw [List.mapM_cons] at h
    rcases Option.bind_eq_some.mp h with ⟨b, hb, h2⟩
    rcases Option.bind_eq_some.mp h2 with ⟨bs, hbs, h3⟩
    have h3' : some (b :: bs) = some ys := h3
    rw [← Option.some.inj h3'] at hy
    rcases List.mem_cons.mp hy with rfl | hy'
    · exact ⟨a, List.mem_cons_self _ _, hb⟩
    · obtain ⟨x, hx1, hx2⟩ := ih hbs y hy'
      exact ⟨x, List.mem_cons_of_mem _ hx1, hx2⟩

theorem levelOfVar_some_entry {st : State} {v n : Nat}
    (h : st.levelOfVar v = some (some n)) :
    ∃ e ∈ st.trail, e.decisionLevel = n := by
  rw [State.levelOfVar] at h
  split at h
  · cases Option.some.inj h
  · rename_i idx heq
    rcases Option.map_eq_some'.mp h with ⟨e, he, hn⟩
    exact ⟨e, List.get?_mem he, Option.some.inj hn⟩

theorem foldr_max_mem {l : List Nat} (h : 0 < l.foldr max 0) :
    l.foldr max 0 ∈ l := by
  induction l with
  | nil => cases h
  | cons a tl ih =>
    rw [List.foldr_cons] at h ⊢
    by_cases ha : tl.foldr max 0 ≤ a
    · rw [max_eq_left ha]
      exact List.mem_cons_self _ _
    · push_neg at ha
      rw [max_eq_right (le_of_lt ha)]
      exact List.mem_cons_of_mem _ (ih (by omega))

/-- C5: conflict analysis computes the backjump level β as the
second-highest decision level among the learned clause's assigned literals
(0 when there is no level strictly below the highest), and — on a trail
whose decision levels are nondecreasing, as the solver maintains them —
`remove_from_trail_helper(Some β)` pops exactly the entries with decision
level above β and leaves the solver at decision level β. -/
theorem C5_backjump_level (st : State) (learned : Clause)
    {levels : List (Option Nat)} {β : Nat} {st' : State}
    (hlv : learned.iterLiterals.mapM (fun l => st.levelOfVar l.var) = some levels)
    (hβ : st.secondHighestDecisionLevel learned = some β)
    (h : st.removeFromTrailHelper (some β) = some st')
    (hsorted : st.trail.Pairwise fun a c => a.decisionLevel ≤ c.decisionLevel) :
    β = secondHighestSpec levels ∧
    st'.trail = (st.trail.filter fun e => decide (e.decisionLevel ≤ β)) ∧
    st'.decisionLevel = β := by
  have hβspec : β = secondHighestSpec levels := by
    rw [State.secondHighestDecisionLevel] at hβ
    rcases Option.bind_eq_some.mp hβ with ⟨levels2, hl2, hpure⟩
    rw [hlv] at hl2
    rw [← Option.some.inj hl2] at hpure
    have hpure' : some (State.shdlFold levels 0 0) = some β := hpure
    rw [← Option.some.inj hpure']
    exact shdlFold_spec levels
  rw [State.removeFromTrailHelper] at h
  rcases Option.bind_eq_some.mp h with ⟨st2, hst2, h2⟩
  have htr2 := rfth_trail hst2 hsorted
  have hst' : st' = { st2 with decisionLevel :=
      match st2.trail.getLast? with
      | none => 0
      | some e => e.decisionLevel } := by
    have h2' : some ({ st2 with decisionLevel :=
      match st2.trail.getLast? with
      | none => 0
      | some e => e.decisionLevel } : State) = some st' := h2
    exact (Option.some.inj h2').symm
  subst hst'
  refine ⟨hβspec, htr2, ?_⟩
  by_cases hβ0 : β = 0
  · subst hβ0
    cases hlast : st2.trail.getLast? with
    | none => rfl
    | some last =>
      have hmem : last ∈ st2.trail := by
        have hne : st2.trail ≠ [] := by
          intro hnil
          rw [hnil] at hlast
          cases hlast
        rw [List.getLast?_eq_getLast _ hne] at hlast
        rw [← Option.some.inj hlast]
        exact List.getLast_mem hne
      rw [htr2] at hmem
      have := (List.mem_filter.mp hmem).2
      have hle := of_decide_eq_true this
      dsimp only
      omega
  · -- β > 0: β is itself one of the assigned levels, so an entry at level β
    -- survives the filter and is the largest remaining entry
    have hβmem : some β ∈ levels := by
      have h1 : 0 < secondHighestSpec levels := by omega
      have h2 : secondHighestSpec levels ∈ ((levels.filterMap id).filter fun l =>
          decide (l < (levels.filterMap id).foldr max 0)) := by
        simp only [secondHighestSpec] at h1 ⊢
        exact foldr_max_mem h1
      have h3 : β ∈ levels.filterMap id := by
        rw [hβspec]
        exact List.mem_of_mem_filter h2
      obtain ⟨a, ha, hid⟩ := List.mem_filterMap.mp h3
      have haeq : a = some β := hid
      rw [← haeq]
      exact ha
    obtain ⟨l0, hl0mem, hl0⟩ := mapM_option_mem hlv (some β) hβmem
    obtain ⟨e0, he0mem, he0⟩ := levelOfVar_some_entry hl0
    have he0f : e0 ∈ st2.trail := by
      rw [htr2]
      exact List.mem_filter.mpr ⟨he0mem, decide_eq_true (by omega)⟩
    have hne2 : st2.trail ≠ [] := by
      intro hnil
      rw [hnil] at he0f
      cases he0f
    have hlast : st2.trail.getLast? = some (st2.trail.getLast hne2) :=
      List.getLast?_eq_getLast _ hne2
    have hp2 : st2.trail.Pairwise (fun a c => a.decisionLevel ≤ c.decisionLevel) := by
      rw [htr2]
      exact List.Pairwise.sublist (List.filter_sublist _) hsorted
    have hge : e0.decisionLevel ≤ (st2.trail.getLast hne2).decisionLevel :=
      pairwise_le_getLast hp2 hlast e0 he0f
    have hall : ∀ x ∈ st2.trail, x.decisionLevel ≤ β := by
      intro x hx
      rw [htr2] at hx
      exact of_decide_eq_true (List.mem_filter.mp hx).2
    have hlastle : (st2.trail.getLast hne2).decisionLevel ≤ β :=
      hall _ (List.getLast_mem hne2)
    rw [hlast]
    dsimp only
    omega

set_option maxHeartbeats 1000000 in
/-- Witness for C5 at a concrete ingest state (empty trail): β = 0, nothing
is popped, and the decision level afterwards is 0. -/
theorem C5_backjump_level_witness :
    (0 : Nat) = secondHighestSpec [none, none] ∧
    ((((State.newFromVec [[1, 2]]).get (by decide)).removeFromTrailHelper
        (some 0)).get (by decide)).trail
      = (((State.newFromVec [[1, 2]]).get (by decide)).trail.filter
          fun e => decide (e.decisionLevel ≤ 0)) ∧
    ((((State.newFromVec [[1, 2]]).get (by decide)).removeFromTrailHelper
        (some 0)).get (by decide)).decisionLevel = 0 :=
  C5_backjump_level ((State.newFromVec [[1, 2]]).get (by decide))
    (((((State.newFromVec [[1, 2]]).get (by decide)).clauses.getD 0
        (.tomb 0 none)).value).get (by decide))
    (by decide) (by decide) (Option.some_get (by decide)).symm (by decide)

end Pror
